import Mathlib

/-!
Verification of the text-sanitization, brand-consistency and attribute-resolution
pipeline of `doc-lama-metagen.py`.

Strings are modelled as lists of Unicode scalar values (`List Char`), so that
`len`, slicing and iteration match Python's code-point semantics.  The regex
character classes `\s` and `\w` and the `str.lower`/`str.upper` case maps are
modelled on their ASCII behaviour (`Char.toLower`/`Char.toUpper` are exactly the
ASCII case maps), which covers every character the script's own patterns,
phrase lists and stop-word sets consist of.
-/

set_option maxRecDepth 40000

abbrev Str := List Char

/-- Apostrophe character (U+0027), named to keep the source text readable. -/
def apos : Char := Char.ofNat 39

/-- Python regex class `\s` (ASCII fragment): space, tab, linefeed, carriage
return, vertical tab, form feed. -/
def pySpace (c : Char) : Bool :=
  c == ' ' || c == '\t' || c == '\n' || c == '\r' || c == Char.ofNat 11 || c == Char.ofNat 12

/-- Python regex class `\w` (ASCII fragment): letters, digits, underscore. -/
def wordChar (c : Char) : Bool := c.isAlphanum || c == '_'

/-- Character class `[A-Za-z0-9_-]`, used by the placeholder patterns
`\{([A-Za-z0-9_-]+)\}` (line 570/585) and `\{([\w-]+)\}` (line 553); the two
classes coincide on ASCII. -/
def attrChar (c : Char) : Bool := c.isAlphanum || c == '_' || c == '-'

/-- Python `str.lower` (ASCII model). -/
def lowerStr (s : Str) : Str := s.map Char.toLower

/-- Drop characters satisfying `p` from the left end (Python `str.lstrip`). -/
def lstripBy (p : Char → Bool) (s : Str) : Str := s.dropWhile p

/-- Drop characters satisfying `p` from the right end (Python `str.rstrip`). -/
def rstripBy (p : Char → Bool) (s : Str) : Str := (s.reverse.dropWhile p).reverse

/-- Python `str.strip` with an explicit character class. -/
def stripBy (p : Char → Bool) (s : Str) : Str := rstripBy p (lstripBy p s)

/-- Python `str.strip()` (whitespace). -/
def pyStrip (s : Str) : Str := stripBy pySpace s

/-- Case-insensitive match of the literal `pat` against the beginning of `t`
(the `re.IGNORECASE` view of a `re.escape`d literal). -/
def ciPref : Str → Str → Bool
  | [], _ => true
  | _ :: _, [] => false
  | p :: ps, c :: cs => (p.toLower == c.toLower) && ciPref ps cs

/-- Python's `pat in s` substring test. -/
def hasSub (pat : Str) : Str → Bool
  | [] => pat.isEmpty
  | c :: cs => List.isPrefixOf pat (c :: cs) || hasSub pat cs

/-- One-pass, left-to-right substitution engine shared by all the `re.sub` and
`str.replace` operations of the script.  `try1 prev t` inspects the current
suffix `t` of the input, with `prev` the character of the original string
immediately before it, and returns `some (r, k)` when a match of length
`k ≥ 1` starts here, to be replaced by `r`.  As with `re.sub`, matches are
found left to right on the original string and scanning resumes after the
matched characters (the second argument counts characters of a match still to
be skipped). -/
def scanGo (try1 : Option Char → Str → Option (Str × Nat)) : Option Char → Nat → Str → Str
  | _, _, [] => []
  | _, Nat.succ n, c :: cs => scanGo try1 (some c) n cs
  | prev, 0, c :: cs =>
    match try1 prev (c :: cs) with
    | some (r, k) => r ++ scanGo try1 (some c) (k - 1) cs
    | none => c :: scanGo try1 (some c) 0 cs

/-- Run the substitution engine on a whole string. -/
def scanSub (try1 : Option Char → Str → Option (Str × Nat)) (s : Str) : Str :=
  scanGo try1 none 0 s

/-- `re.search` analogue: does a match of `try1` start at some position? -/
def scanHasGo (try1 : Option Char → Str → Option (Str × Nat)) : Option Char → Str → Bool
  | _, [] => false
  | prev, c :: cs => (try1 prev (c :: cs)).isSome || scanHasGo try1 (some c) cs

/-- Run the search engine on a whole string. -/
def scanHas (try1 : Option Char → Str → Option (Str × Nat)) (s : Str) : Bool :=
  scanHasGo try1 none s

/-- `re.findall` analogue: collect the captures of the non-overlapping,
left-to-right matches produced by `try1`. -/
def scanFindGo {α : Type} (try1 : Str → Option (α × Nat)) : Nat → Str → List α
  | _, [] => []
  | Nat.succ n, _ :: cs => scanFindGo try1 n cs
  | 0, c :: cs =>
    match try1 (c :: cs) with
    | some (a, k) => a :: scanFindGo try1 (k - 1) cs
    | none => scanFindGo try1 0 cs

/-- Run the findall engine on a whole string. -/
def scanFind {α : Type} (try1 : Str → Option (α × Nat)) (s : Str) : List α :=
  scanFindGo try1 0 s

/-- Is the optional character a `\w` character (`none`, i.e. beyond either end
of the string, counts as not a word character)? -/
def isWordO : Option Char → Bool
  | none => false
  | some c => wordChar c

/-- Matcher for `re.sub(rf"\b{re.escape(name)}\b", "", desc, re.IGNORECASE)`
(lines 429 and 336-338): a case-insensitive occurrence of the literal `name`
with a `\b` word boundary on each side.  `\b` holds between two positions iff
exactly one of the two surrounding characters is a `\w` character.  An empty
`name` gives the pattern `\b\b`, whose matches are all empty, so the
substitution is the identity and the matcher never fires. -/
def wbTry (name : Str) (prev : Option Char) (t : Str) : Option (Str × Nat) :=
  if name.isEmpty then none
  else if ciPref name t
      && (isWordO prev != isWordO t.head?)
      && (isWordO (t.get? (name.length - 1)) != isWordO (t.get? name.length))
  then some ([], name.length) else none

/-- Whole-word case-insensitive removal of a literal. -/
def subWordCI (name : Str) (s : Str) : Str := scanSub (wbTry name) s

/-- Whole-word case-insensitive search for a literal. -/
def searchWordCI (name : Str) (s : Str) : Bool := scanHas (wbTry name) s

/-- Matcher for `re.sub(re.escape(phrase), "", desc, re.IGNORECASE)` (line
417-418): plain case-insensitive literal occurrence, no boundaries. -/
def litCITry (pat : Str) (_ : Option Char) (t : Str) : Option (Str × Nat) :=
  if pat.isEmpty then none
  else if ciPref pat t then some ([], pat.length) else none

/-- Remove all case-insensitive occurrences of a literal phrase. -/
def subLitCI (pat : Str) (s : Str) : Str := scanSub (litCITry pat) s

/-- Matcher for Python `str.replace(pat, repl)` with a non-empty `pat` (every
replacement the script performs has a non-empty pattern). -/
def repTry (pat repl : Str) (_ : Option Char) (t : Str) : Option (Str × Nat) :=
  if pat.isEmpty then none
  else if List.isPrefixOf pat t then some (repl, pat.length) else none

/-- Python `str.replace` (non-empty pattern). -/
def pyReplace (s pat repl : Str) : Str := scanSub (repTry pat repl) s

/-- Matcher for `re.sub(r"\s+", " ", s)` (lines 421 and 427): a maximal run of
whitespace becomes a single space. -/
def wsAllTry (_ : Option Char) (t : Str) : Option (Str × Nat) :=
  match t with
  | c :: _ => if pySpace c then some ([' '], (t.takeWhile pySpace).length) else none
  | [] => none

/-- `re.sub(r"\s+", " ", s)`. -/
def subWsAll (s : Str) : Str := scanSub wsAllTry s

/-- Matcher for `re.sub(r"\s{2,}", " ", s)` (lines 343, 351, 433): a run of at
least two whitespace characters becomes one space; a single whitespace
character is left as it is. -/
def ws2Try (_ : Option Char) (t : Str) : Option (Str × Nat) :=
  match t with
  | c :: d :: _ => if pySpace c && pySpace d then some ([' '], (t.takeWhile pySpace).length) else none
  | _ => none

/-- `re.sub(r"\s{2,}", " ", s)`. -/
def subWs2 (s : Str) : Str := scanSub ws2Try s

/-- Matcher for `re.sub(r"(\w+)'s\b", r"\1s", desc)` (line 424).  A leftmost
match of `(\w+)` (greedy) necessarily starts at the beginning of a `\w` run,
which the `isWordO prev` guard encodes; the `\b` after the `s` requires the
next character not to be a word character. -/
def possTry (prev : Option Char) (t : Str) : Option (Str × Nat) :=
  if isWordO prev then none
  else
    let w := t.takeWhile wordChar
    if w.isEmpty then none
    else
      match t.drop w.length with
      | a :: s :: rest =>
        if a == apos && s == 's' && !(isWordO rest.head?) then
          some (w ++ ['s'], w.length + 2)
        else none
      | _ => none

/-- The characters of `FORBIDDEN_CHARS_RE = re.compile(r'[>:|“”"‘’]')`
(line 118). -/
def forbiddenChar (c : Char) : Bool :=
  c == '>' || c == ':' || c == '|' || c == Char.ofNat 8220 || c == Char.ofNat 8221 ||
  c == '"' || c == Char.ofNat 8216 || c == Char.ofNat 8217

/-- `config.FORBIDDEN_CHARS_RE.sub(" ", desc)` (line 430): each forbidden
character becomes one space. -/
def subForbidden (s : Str) : Str := s.map (fun c => if forbiddenChar c then ' ' else c)

/-- Consume the literal `w`, case-insensitively, from the front of `t`. -/
def ciLit (w : Str) (t : Str) : Option Str :=
  if ciPref w t then some (t.drop w.length) else none

/-- Consume `\s+` (at least one whitespace character, greedily). -/
def wsPlus (t : Str) : Option Str :=
  match t with
  | c :: cs => if pySpace c then some (cs.dropWhile pySpace) else none
  | [] => none

/-- Consume one alternative of a regex alternation of literal words.  None of
the alternation groups of the script contains a word that is a prefix of
another word of the same group, so at most one alternative can match at a
given position and no backtracking between alternatives is possible. -/
def oneOfCI (ws : List Str) (t : Str) : Option Str :=
  match ws with
  | [] => none
  | w :: rest =>
    match ciLit w t with
    | some t' => some t'
    | none => oneOfCI rest t

/-- First group of the `DOC_META_PATTERNS` (line 127). -/
def metaNouns : List Str := (["guide", "page", "document", "section"]).map String.toList

/-- Second group of the `DOC_META_PATTERNS` (line 127). -/
def metaVerbs : List Str := (["describes", "covers", "explains", "provides"]).map String.toList

/-- Anchored match of `^\s*This\s+(guide|page|document|section)\s+(describes|covers|explains|provides)\s+`
(case-insensitive); returns the remainder after the matched prefix. -/
def metaMatch1 (s : Str) : Option Str :=
  (((((ciLit ("this".toList) (s.dropWhile pySpace)).bind wsPlus).bind
      (oneOfCI metaNouns)).bind wsPlus).bind (oneOfCI metaVerbs)).bind wsPlus

/-- `re.sub` with the first `DOC_META_PATTERNS` entry (anchored, so it can
remove at most one prefix). -/
def metaSub1 (s : Str) : Str :=
  match metaMatch1 s with
  | some rest => rest
  | none => s

/-- Anchored match of `^\s*In\s+this\s+(guide|page|document|section)\s+`. -/
def metaMatch2 (s : Str) : Option Str :=
  ((((ciLit ("in".toList) (s.dropWhile pySpace)).bind wsPlus).bind
      (ciLit ("this".toList))).bind wsPlus).bind (fun t => ((oneOfCI metaNouns t).bind wsPlus))

/-- `re.sub` with the second `DOC_META_PATTERNS` entry. -/
def metaSub2 (s : Str) : Str :=
  match metaMatch2 s with
  | some rest => rest
  | none => s

/-- Anchored match of `^\s*The\s+(guide|page|document|section)\s+(describes|covers|explains|provides)\s+`. -/
def metaMatch3 (s : Str) : Option Str :=
  (((((ciLit ("the".toList) (s.dropWhile pySpace)).bind wsPlus).bind
      (oneOfCI metaNouns)).bind wsPlus).bind (oneOfCI metaVerbs)).bind wsPlus

/-- `re.sub` with the third `DOC_META_PATTERNS` entry. -/
def metaSub3 (s : Str) : Str :=
  match metaMatch3 s with
  | some rest => rest
  | none => s

/-- The three compiled `DOC_META_PATTERNS` of `ScriptConfig.__post_init__`
(lines 126-127), in order. -/
def DOC_META_SUBS : List (Str → Str) := [metaSub1, metaSub2, metaSub3]

/-- The alternation of `re.sub(r"^(by|with|through|using)\s+", "", desc, re.IGNORECASE)`
(line 432); the four words start with pairwise distinct letters. -/
def prepWords : List Str := (["by", "with", "through", "using"]).map String.toList

/-- Anchored match of `^(by|with|through|using)\s+` (case-insensitive). -/
def prepMatch (s : Str) : Option Str := (oneOfCI prepWords s).bind wsPlus

/-- Strip one leading preposition followed by whitespace (line 432). -/
def stripLeadPrep (s : Str) : Str :=
  match prepMatch s with
  | some rest => rest
  | none => s

/-- `strip(" ,;:-")` character class (line 433). -/
def punctChar (c : Char) : Bool :=
  c == ' ' || c == ',' || c == ';' || c == ':' || c == '-'

/-- `rstrip(" ,;:-.")` character class (line 439). -/
def punctDotChar (c : Char) : Bool := punctChar c || c == '.'

/-- `strip(",.;")` character class of the stop-word comparison (line 440). -/
def csdChar (c : Char) : Bool := c == ',' || c == '.' || c == ';'

/-- Python `str.split()` with no argument: split on whitespace runs, dropping
empty pieces.  The accumulator holds the current word reversed. -/
def pySplitGo (cur : Str) : Str → List Str
  | [] => if cur.isEmpty then [] else [cur.reverse]
  | c :: cs =>
    if pySpace c then
      if cur.isEmpty then pySplitGo [] cs else cur.reverse :: pySplitGo [] cs
    else pySplitGo (c :: cur) cs

/-- Python `str.split()`. -/
def pySplit (s : Str) : List Str := pySplitGo [] s

/-- `config.TRAILING_STOPWORDS` (line 120); the source builds a set from a
space-separated string in which `as` occurs twice, so the set has these 23
distinct members. -/
def TRAILING_STOPWORDS : List Str :=
  (["and", "or", "to", "for", "with", "in", "of", "on", "at", "by", "from", "into",
    "via", "as", "that", "which", "including", "such", "than", "then", "while",
    "when", "where"]).map String.toList

/-- The test `words[-1].lower().strip(",.;") in config.TRAILING_STOPWORDS`
(line 440). -/
def isTrailingStopword (w : Str) : Bool :=
  TRAILING_STOPWORDS.contains (stripBy csdChar (lowerStr w))

/-- The `while words and ...: words.pop()` loop of line 440, acting on the
reversed word list. -/
def dropStopwordsRev : List Str → List Str
  | [] => []
  | w :: rest => if isTrailingStopword w then dropStopwordsRev rest else w :: rest

/-- Pop trailing stop-words from a word list (line 440). -/
def popStopwords (ws : List Str) : List Str := (dropStopwordsRev ws.reverse).reverse

/-- Python `" ".join(words)` (line 441). -/
def joinSpace : List Str → Str
  | [] => []
  | [w] => w
  | w :: ws => w ++ ' ' :: joinSpace ws

/-- Lines 435-438: if the description exceeds 160 characters, cut it to at most
161 characters, then cut again at the last space of that prefix when there is
one (`rfind` returns `-1`, leaving the prefix intact, when there is none). -/
def truncate161 (s : Str) : Str :=
  if s.length > 160 then
    let t := s.take 161
    match t.reverse.findIdx? (fun c => c == ' ') with
    | some i => t.take (t.length - 1 - i)
    | none => t
  else s

/-- Capitalization of line 445: `desc[0].upper() + desc[1:]` (ASCII case map;
the empty string is returned unchanged, matching the `if desc:` guard). -/
def capFirst : Str → Str
  | [] => []
  | c :: cs => c.toUpper :: cs

/-- Line 443-444: remove a single trailing period. -/
def dropTrailingDot (s : Str) : Str :=
  if s.getLast? == some '.' then s.dropLast else s

/-- The `leakage_phrases` list of lines 402-412, in order. -/
def leakage_phrases : List Str :=
  (["Follow these rules strictly", "Your task is to", "You must now", "Output only",
    "Critical:", "Important:", "Note:", "Remember:",
    "Your response must contain only"]).map String.toList

/-- A named HTML character reference table: the fragment of the Python stdlib
`html.unescape` (line 398) covering the XML entities and `nbsp`.
`html.unescape` is standard-library code, not code of this repository; this
model agrees with it on the named references below and, like it, is the
identity on ampersand-free text.  Every universally quantified theorem below
is proved for an arbitrary draft, hence covers every string the real
`html.unescape` could produce. -/
def htmlEntities : List (Str × Char) :=
  [("amp".toList, '&'), ("lt".toList, '<'), ("gt".toList, '>'),
   ("quot".toList, '"'), ("apos".toList, apos), ("nbsp".toList, Char.ofNat 160)]

/-- Matcher for the modelled `html.unescape`: `&name;` with `name` in the
table above. -/
def unescTry (_ : Option Char) (t : Str) : Option (Str × Nat) :=
  match t with
  | a :: rest =>
    if a == '&' then
      let name := rest.takeWhile (fun c => c.isAlphanum)
      match rest.drop name.length with
      | b :: _ =>
        if b == ';' then
          match htmlEntities.lookup name with
          | some ch => some ([ch], name.length + 2)
          | none => none
        else none
      | [] => none
    else none
  | [] => none

/-- Modelled `html.unescape` (see `htmlEntities`). -/
def html_unescape (s : Str) : Str := scanSub unescTry s

/-- Stable descending insertion by length: the model of Python's stable
`sorted(..., key=len, reverse=True)` (lines 335 and 428). -/
def insLenDesc (x : Str) : List Str → List Str
  | [] => [x]
  | y :: ys => if y.length ≤ x.length then x :: y :: ys else y :: insLenDesc x ys

/-- `sorted(l, key=len, reverse=True)` (stable). -/
def sortLenDesc (l : List Str) : List Str := l.foldr insLenDesc []

/-- The cleaning phase of `sanitize_and_finalize` (lines 398-433): everything
from the `html.unescape` call up to and including the
`re.sub(r"\s{2,}", " ", desc).strip(" ,;:-")` of line 433.  `banned` is
`config.BANNED_LITERALS` given as a list; Python iterates the set in an
unspecified order and only the stable length-descending sort of line 428 is
semantically fixed, so the list order stands for one admissible set-iteration
order (no theorem below depends on the order of equal-length entries). -/
def sanitizeClean (draft : Str) (banned : List Str) : Str :=
  let d0 := html_unescape draft
  let d1 := leakage_phrases.foldl (fun d p => subLitCI p d) d0
  let d2 := pyStrip (subWsAll d1)
  let d3 := scanSub possTry d2
  let d4 := d3.filter (fun c => c != apos)
  let d5 := pyStrip (subWsAll d4)
  let d6 := (sortLenDesc banned).foldl (fun d n => subWordCI n d) d5
  let d7 := subForbidden d6
  let d8 := DOC_META_SUBS.foldl (fun d f => pyStrip (f d)) d7
  let d9 := stripLeadPrep d8
  stripBy punctChar (subWs2 d9)

/-- The finishing phase of `sanitize_and_finalize` (lines 435-446):
truncation, trailing stop-word removal, trailing-period removal,
capitalization. -/
def sanitizeFinish (d : Str) : Str :=
  let d11 := truncate161 d
  let ws := popStopwords (pySplit (rstripBy punctDotChar d11))
  capFirst (dropTrailingDot (joinSpace ws))

/-- `sanitize_and_finalize(draft, config)` (lines 396-446), as the composition
of the two phases around the emptiness test of line 434. -/
def sanitize_and_finalize (draft : Str) (banned : List Str) : Str :=
  let c := sanitizeClean draft banned
  if c.isEmpty then [] else sanitizeFinish c

/-- The orchestration length gate of `process_adoc_file` (lines 641-654) and
`process_xml_file` (lines 759-772): a sanitized description is accepted iff it
is non-empty and at least 100 characters long (otherwise the single retry runs
and its result is subjected to the same test). -/
def acceptedDesc (desc : Str) : Prop := desc ≠ [] ∧ 100 ≤ desc.length

/-- A brand record as built by `load_brand_config_from_entities` (line 303):
`{'key': ..., 'name': ..., 'family': 'opensuse' | 'suse'}`. -/
structure Brand where
  key : Str
  name : Str
  family : Str
deriving DecidableEq, Repr

/-- Parser for one match of `<!ENTITY\s+([\w-]+)\s+"([^"]+)">` (line 298):
returns the two captures and the rest of the string.  The quantifiers are
deterministic here: `[\w-]+` cannot end before a `[\w-]` character, `\s+`
cannot end before a whitespace character, and `[^"]+` must stop at the closing
quote. -/
def entityParse (t : Str) : Option ((Str × Str) × Str) :=
  if List.isPrefixOf ("<!ENTITY".toList) t then
    match wsPlus (t.drop 8) with
    | none => none
    | some r2 =>
      let key := r2.takeWhile attrChar
      if key.isEmpty then none
      else
        match wsPlus (r2.drop key.length) with
        | none => none
        | some r3 =>
          match r3 with
          | q :: r4 =>
            if q == '"' then
              let v := r4.takeWhile (fun c => c != '"')
              if v.isEmpty then none
              else
                match r4.drop v.length with
                | q2 :: c2 :: r5 => if q2 == '"' && c2 == '>' then some ((key, v), r5) else none
                | _ => none
            else none
          | [] => none
  else none

/-- `entityParse` as a `findall` matcher. -/
def entityTry (t : Str) : Option ((Str × Str) × Nat) :=
  (entityParse t).map (fun pr => (pr.1, t.length - pr.2.length))

/-- Lines 301-303: build one brand record; the family is derived from the raw
(unstripped) entity value, the stored name is the stripped value. -/
def brandOf (key name : Str) : Brand :=
  let nl := lowerStr name
  let fam := if hasSub ("opensuse".toList) nl || hasSub ("leap".toList) nl
             then ("opensuse".toList) else ("suse".toList)
  ⟨key, pyStrip name, fam⟩

/-- `load_brand_config_from_entities` (lines 286-306).  Reading the file is the
I/O boundary: `none` models a missing path or an absent file (the early return
of an empty list, lines 288-293), `some content` the text of the entities
file. -/
def load_brand_config_from_entities : Option Str → List Brand
  | none => []
  | some content => (scanFind entityTry content).map (fun kv => brandOf kv.1 kv.2)

/-- Stable descending insertion by key length (`sorted(brands,
key=lambda b: len(b['key']), reverse=True)`, line 314). -/
def insBrandDesc (x : Brand) : List Brand → List Brand
  | [] => [x]
  | y :: ys => if y.key.length ≤ x.key.length then x :: y :: ys else y :: insBrandDesc x ys

/-- `sorted(brands, key=lambda b: len(b['key']), reverse=True)` (stable). -/
def sortBrandsDesc (l : List Brand) : List Brand := l.foldr insBrandDesc []

/-- Lines 313-318: the first brand, longest key first, whose key occurs as a
case-insensitive whole word in the file path. -/
def classifyFile (file_path : Str) (brands : List Brand) : Option Brand :=
  (sortBrandsDesc brands).find? (fun b => searchWordCI b.key file_path)

/-- Insertion-ordered model of `set.add` (the banned-keyword set of lines
323-329; Python's set iteration order is unspecified, and only the stable
length-descending sort of line 335 is semantically fixed, so this list order
stands for one admissible iteration order — no theorem below depends on the
order of equal-length keywords). -/
def addUnique (l : List Str) (x : Str) : List Str := if l.contains x then l else l ++ [x]

/-- Lines 323-329: for every brand of a different family, ban its full display
name and each of its whitespace-separated words longer than 3 characters. -/
def bannedKeywordsFor (fc : Brand) (brands : List Brand) : List Str :=
  brands.foldl
    (fun acc b =>
      if b.family = fc.family then acc
      else
        (pySplit b.name).foldl (fun a w => if 3 < w.length then addUnique a w else a)
          (addUnique acc b.name))
    []

/-- Lines 335-338: remove each keyword (in the given order) as a
case-insensitive whole word, but only when a search finds it first. -/
def removeBanned (kws : List Str) (desc : Str) : Str :=
  kws.foldl (fun d k => if searchWordCI k d then subWordCI k d else d) desc

/-- Matcher for `re.sub(r'(\w+)\s+,', r'\1,', description)` (line 344).  A
leftmost match of the greedy `(\w+)` starts at the beginning of a `\w` run,
which the `isWordO prev` guard encodes. -/
def r2Try (prev : Option Char) (t : Str) : Option (Str × Nat) :=
  if isWordO prev then none
  else
    let w := t.takeWhile wordChar
    if w.isEmpty then none
    else
      let ws := (t.drop w.length).takeWhile pySpace
      if ws.isEmpty then none
      else
        match t.drop (w.length + ws.length) with
        | c :: _ => if c == ',' then some (w ++ [','], w.length + ws.length + 1) else none
        | [] => none

/-- Matcher for `re.sub(r'(,\s*){2,}', ',', description)` (line 345): the
greedy match is the longest prefix made of commas and whitespace that starts
with a comma, provided it contains at least two commas. -/
def r3Try (_ : Option Char) (t : Str) : Option (Str × Nat) :=
  match t with
  | c :: _ =>
    if c == ',' then
      let pre := t.takeWhile (fun x => x == ',' || pySpace x)
      if 2 ≤ pre.count ',' then some ([','], pre.length) else none
    else none
  | [] => none

/-- Matcher for `re.sub(r',\s*(and|or)\s*,', ',', description)` (line 346,
case-sensitive — this substitution has no IGNORECASE flag).  `and` and `or`
start with different letters, so at most one alternative matches. -/
def r4Try (_ : Option Char) (t : Str) : Option (Str × Nat) :=
  match t with
  | c :: rest =>
    if c == ',' then
      let ws1 := rest.takeWhile pySpace
      let r1 := rest.drop ws1.length
      let conj := if List.isPrefixOf ("and".toList) r1 then some 3
                  else if List.isPrefixOf ("or".toList) r1 then some 2 else none
      match conj with
      | some n =>
        let r2 := r1.drop n
        let ws2 := r2.takeWhile pySpace
        match r2.drop ws2.length with
        | c2 :: _ =>
          if c2 == ',' then some ([','], 1 + ws1.length + n + ws2.length + 1) else none
        | [] => none
      | none => none
    else none
  | [] => none

/-- The alternation of `re.sub(r'\b(and|or|a|the|on|of)\s*$', '', description,
re.IGNORECASE)` (line 347). -/
def DANGLING_END_WORDS : List Str := (["and", "or", "a", "the", "on", "of"]).map String.toList

/-- Line 347: the pattern is anchored at the end of the string, so its only
possible match is the final maximal `\w` run (which the `\b` makes complete)
together with the whitespace after it, and only when that run is one of the
six words. -/
def dropDanglingEnd (s : Str) : Str :=
  let t := rstripBy pySpace s
  let w := (t.reverse.takeWhile wordChar).reverse
  if !w.isEmpty && DANGLING_END_WORDS.contains (lowerStr w) then t.take (t.length - w.length)
  else s

/-- Matcher for `re.sub(r'\b(on|of)\s+(and|or)\b', '', description,
re.IGNORECASE)` (line 348): both groups must be complete `\w` runs (the first
because of `\b` and the following `\s+`, the second because of the trailing
`\b`). -/
def r6Try (prev : Option Char) (t : Str) : Option (Str × Nat) :=
  if isWordO prev then none
  else
    let w1 := t.takeWhile wordChar
    if lowerStr w1 == ("on".toList) || lowerStr w1 == ("of".toList) then
      let ws := (t.drop w1.length).takeWhile pySpace
      if ws.isEmpty then none
      else
        let r2 := t.drop (w1.length + ws.length)
        let w2 := r2.takeWhile wordChar
        if lowerStr w2 == ("and".toList) || lowerStr w2 == ("or".toList) then
          some ([], w1.length + ws.length + w2.length)
        else none
    else none

/-- Matcher for `re.sub(r',\s*\.', '.', description)` (line 349). -/
def r7Try (_ : Option Char) (t : Str) : Option (Str × Nat) :=
  match t with
  | c :: rest =>
    if c == ',' then
      let ws := rest.takeWhile pySpace
      match rest.drop ws.length with
      | d :: _ => if d == '.' then some (['.'], 1 + ws.length + 1) else none
      | [] => none
    else none
  | [] => none

/-- The grammar-repair sequence of lines 343-351, run only after at least one
banned keyword was removed. -/
def grammarRepairs (s : Str) : Str :=
  let s1 := pyStrip (subWs2 s)
  let s2 := scanSub r2Try s1
  let s3 := scanSub r3Try s2
  let s4 := scanSub r4Try s3
  let s5 := dropDanglingEnd s4
  let s6 := scanSub r6Try s5
  let s7 := scanSub r7Try s6
  let s8 := pyReplace s7 (" ,".toList) (",".toList)
  let s9 := pyReplace s8 (" .".toList) (".".toList)
  pyStrip (subWs2 s9)

/-- `post_process_description` (lines 308-355); the second component models the
returned status (`None` or `"UPDATED"`). -/
def post_process_description (description : Str) (file_path : Str) (brands : List Brand) :
    Str × Option String :=
  if brands.isEmpty then (description, none)
  else
    match classifyFile file_path brands with
    | none => (description, none)
    | some fc =>
      let banned := bannedKeywordsFor fc brands
      if banned.isEmpty then (description, none)
      else
        let d := removeBanned (sortLenDesc banned) description
        if d = description then (description, none)
        else (pyStrip (grammarRepairs d), some ("UPDATED"))

/-- Matcher for `re.sub(r"\{([A-Za-z0-9_-]+)\}", "", text)` (lines 570 and
585): a well-formed placeholder token is deleted. -/
def phTry (_ : Option Char) (t : Str) : Option (Str × Nat) :=
  match t with
  | c :: rest =>
    if c == '{' then
      let name := rest.takeWhile attrChar
      if name.isEmpty then none
      else
        match rest.drop name.length with
        | d :: _ => if d == '}' then some ([], name.length + 2) else none
        | [] => none
    else none
  | [] => none

/-- Delete every well-formed `{placeholder}` token (one left-to-right pass,
like `re.sub`). -/
def stripPlaceholders (s : Str) : Str := scanSub phTry s

/-- One pass of the replacement loop of `resolve_attributes` (lines 577-578):
replace `{key}` by the value, for every table entry in order. -/
def resolveLoopBody (attrs : List (Str × Str)) (t : Str) : Str :=
  attrs.foldl (fun acc kv => pyReplace acc ('{' :: kv.1 ++ ['}']) kv.2) t

/-- The capped iteration of `resolve_attributes` (lines 572-582): at most 10
passes, stopping early when no `{` remains or a pass changes nothing. -/
def resolveLoop (attrs : List (Str × Str)) : Nat → Str → Str
  | 0, t => t
  | Nat.succ n, t =>
    if hasSub (['{']) t then
      let t' := resolveLoopBody attrs t
      if t' = t then t else resolveLoop attrs n t'
    else t

/-- `resolve_attributes(text, attributes)` (lines 568-586).  The Python dict is
modelled as an insertion-ordered association list with distinct keys. -/
def resolve_attributes (text : Str) (attributes : List (Str × Str)) : Str :=
  if attributes.isEmpty then stripPlaceholders text
  else stripPlaceholders (resolveLoop attributes 10 text)

/-- Matcher for `re.findall(r'\{([\w-]+)\}', value)` (line 553), returning the
capture. -/
def phFindTry (t : Str) : Option (Str × Nat) :=
  match t with
  | c :: rest =>
    if c == '{' then
      let name := rest.takeWhile attrChar
      if name.isEmpty then none
      else
        match rest.drop name.length with
        | d :: _ => if d == '}' then some (name, name.length + 2) else none
        | [] => none
    else none
  | [] => none

/-- `re.findall(r'\{([\w-]+)\}', value)`. -/
def findPlaceholders (v : Str) : List Str := scanFind phFindTry v

/-- Python dict assignment `d[k] = v`: update the entry in place (keeping the
insertion order) or append a new one. -/
def dictSet : List (Str × Str) → Str → Str → List (Str × Str)
  | [], k, v => [(k, v)]
  | kv :: rest, k, v => if kv.1 = k then (k, v) :: rest else kv :: dictSet rest k v

/-- The body of the expansion pass for one key (lines 550-562): look up the
current value, collect its placeholders, substitute those that are (still)
keys of the current table — lookups see the updates made for earlier keys of
the same pass — and store the new value.  The returned flag is the
`unresolved = True` assignment of line 557. -/
def expandKey (cur : List (Str × Str)) (k : Str) : List (Str × Str) × Bool :=
  match cur.lookup k with
  | none => (cur, false)
  | some v =>
    if hasSub (['{']) v then
      let ps := findPlaceholders v
      if ps.isEmpty then (cur, false)
      else
        let nv := ps.foldl
          (fun acc p =>
            match cur.lookup p with
            | some w => pyReplace acc ('{' :: p ++ ['}']) w
            | none => acc) v
        (dictSet cur k nv, true)
    else (cur, false)

/-- One full pass of the expansion loop over all keys (lines 549-562). -/
def expandPass (cur : List (Str × Str)) (keys : List Str) : List (Str × Str) × Bool :=
  keys.foldl (fun st k => let r := expandKey st.1 k; (r.1, st.2 || r.2)) (cur, false)

/-- The capped expansion loop (lines 544-562): up to 10 passes, stopping when a
pass finds no value with placeholders. -/
def expandLoop (keys : List Str) : Nat → List (Str × Str) → List (Str × Str)
  | 0, cur => cur
  | Nat.succ n, cur =>
    let r := expandPass cur keys
    if r.2 then expandLoop keys n r.1 else r.1

/-- The second pass of `load_and_process_adoc_attributes` (lines 543-562): the
key set never changes, so the iteration order of `attributes.items()` is the
fixed insertion order of the keys. -/
def expandAttributes (attrs : List (Str × Str)) : List (Str × Str) :=
  expandLoop (attrs.map Prod.fst) 10 attrs

/-- The stripped-line test `endif_re.match(line)` for `^endif::\[\]$`
(line 499). -/
def isEndifLine (l : Str) : Bool := l == ("endif::[]".toList)

/-- The stripped-line match `ifndef_re.match(line)` for `^ifndef::([\w-]+)\[\]$`
(line 497). -/
def ifndefKey (l : Str) : Option Str :=
  if List.isPrefixOf ("ifndef::".toList) l then
    let r := l.drop 8
    let key := r.takeWhile attrChar
    if !key.isEmpty && r.drop key.length == ['[', ']'] then some key else none
  else none

/-- The stripped-line match `ifeval_re.match(line)` for
`^ifeval::\["\{([\w-]+)\}" == "([^"]+)"\]$` (line 498). -/
def ifevalParts (l : Str) : Option (Str × Str) :=
  let pre := ("ifeval::[".toList) ++ ['"', '{']
  if List.isPrefixOf pre l then
    let r := l.drop pre.length
    let key := r.takeWhile attrChar
    if key.isEmpty then none
    else
      let mid := ['}', '"', ' ', '=', '=', ' ', '"']
      let r2 := r.drop key.length
      if List.isPrefixOf mid r2 then
        let r3 := r2.drop mid.length
        let v := r3.takeWhile (fun c => c != '"')
        if v.isEmpty then none
        else if r3.drop v.length == ['"', ']'] then some (key, v) else none
      else none
  else none

/-- The stripped-line match `attr_re.match(line)` for
`^:([\w-]+):(?:\s+(.*))?$` (line 496), returning the key and the stripped
value (line 541: `value.strip() if value is not None else ""`).  A line like
`:a:b`, with no whitespace after the second colon, does not match. -/
def attrLineParts (l : Str) : Option (Str × Str) :=
  match l with
  | c :: rest =>
    if c == ':' then
      let key := rest.takeWhile attrChar
      if key.isEmpty then none
      else
        match rest.drop key.length with
        | d :: tail2 =>
          if d == ':' then
            match tail2 with
            | [] => some (key, [])
            | e :: _ => if pySpace e then some (key, pyStrip tail2) else none
          else none
        | [] => none
    else none
  | [] => none

/-- The parser state of the first pass of `load_and_process_adoc_attributes`
(lines 501-503): the table, `in_active_block`, and `active_block_stack`.
Python appends and pops at the end of the list; the stack is modelled with its
top at the head. -/
structure ParseSt where
  attrs : List (Str × Str)
  inActive : Bool
  stack : List Bool
deriving DecidableEq, Repr

/-- Processing of one line of the attributes file (lines 505-541): strip,
skip blanks and comments, handle `endif` (a no-op when the stack is empty),
`ifndef`, `ifeval`, skip anything else inside an inactive block, and record
attribute definitions. -/
def processAttrLine (st : ParseSt) (rawLine : Str) : ParseSt :=
  let line := pyStrip rawLine
  if line.isEmpty || List.isPrefixOf ("//".toList) line then st
  else if isEndifLine line then
    match st.stack with
    | [] => st
    | b :: rest => { st with inActive := b, stack := rest }
  else
    match ifndefKey line with
    | some key =>
      { st with inActive := st.inActive && (st.attrs.lookup key).isNone,
                stack := st.inActive :: st.stack }
    | none =>
      match ifevalParts line with
      | some kv =>
        { st with inActive := st.inActive && ((st.attrs.lookup kv.1) == some kv.2),
                  stack := st.inActive :: st.stack }
      | none =>
        if !st.inActive then st
        else
          match attrLineParts line with
          | some kv => { st with attrs := dictSet st.attrs kv.1 kv.2 }
          | none => st

/-- The first pass of `load_and_process_adoc_attributes` over all lines
(lines 501-541), starting from a copy of the initial context. -/
def firstPass (lines : List Str) (initial_context : List (Str × Str)) : ParseSt :=
  lines.foldl processAttrLine ⟨initial_context, true, []⟩

/-- `load_and_process_adoc_attributes(file_path, initial_context)` (lines
483-565).  Reading and splitting the file (lines 488-493) is the I/O boundary:
the function takes the file's lines; the initial context dict is an
insertion-ordered association list. -/
def load_and_process_adoc_attributes (lines : List Str) (initial_context : List (Str × Str)) :
    List (Str × Str) :=
  expandAttributes (firstPass lines initial_context).attrs

/-- State of the specification-side parser: the table together with the stack
of the open blocks' own conditions (innermost first). -/
structure RefSt where
  attrs : List (Str × Str)
  conds : List Bool
deriving DecidableEq, Repr

/-- Modelled from the spec: "a block is only active if it and all enclosing
blocks are active (logical AND down the stack)". -/
def refActive (conds : List Bool) : Bool := conds.all id

/-- Modelled from the spec (§3 ConditionalStack and §4.1): one condition flag
is pushed per open conditional directive and popped on its matching close (a
close with an empty stack is a no-op, since `List.tail [] = []`); an attribute
definition is recorded exactly when the conjunction of all open blocks'
conditions holds. -/
def refProcessLine (st : RefSt) (rawLine : Str) : RefSt :=
  let line := pyStrip rawLine
  if line.isEmpty || List.isPrefixOf ("//".toList) line then st
  else if isEndifLine line then { st with conds := st.conds.tail }
  else
    match ifndefKey line with
    | some key => { st with conds := ((st.attrs.lookup key).isNone) :: st.conds }
    | none =>
      match ifevalParts line with
      | some kv => { st with conds := ((st.attrs.lookup kv.1) == some kv.2) :: st.conds }
      | none =>
        if refActive st.conds then
          match attrLineParts line with
          | some kv => { st with attrs := dictSet st.attrs kv.1 kv.2 }
          | none => st
        else st

/-- The specification-side first pass. -/
def refFirstPass (lines : List Str) (initial_context : List (Str × Str)) : RefSt :=
  lines.foldl refProcessLine ⟨initial_context, []⟩

/-- Compliance in the sense of the idempotence claim: no banned literal occurs
as a whole word, no forbidden punctuation character occurs, the length is at
most 160, the last word is not a trailing stop-word, and the string does not
end with a period. -/
def compliantSpec (x : Str) (banned : List Str) : Bool :=
  banned.all (fun b => !searchWordCI b x) &&
  x.all (fun c => !forbiddenChar c) &&
  decide (x.length ≤ 160) &&
  Option.all (fun w => !isTrailingStopword w) ((pySplit x).getLast?) &&
  !(x.getLast? == some '.')

/-- The saved-activity stack that the code keeps for a given stack of block
conditions: the entry pushed when a block was opened is the activity of its
enclosing blocks. -/
def condsToStack : List Bool → List Bool
  | [] => []
  | _ :: rest => refActive rest :: condsToStack rest

theorem processAttrLine_ref (st : RefSt) (line : Str) :
    processAttrLine ⟨st.attrs, refActive st.conds, condsToStack st.conds⟩ line =
      ⟨(refProcessLine st line).attrs, refActive (refProcessLine st line).conds,
        condsToStack (refProcessLine st line).conds⟩ := by
  obtain ⟨attrs, conds⟩ := st
  simp only [processAttrLine, refProcessLine]
  split
  · rfl
  · split
    · cases conds with
      | nil => rfl
      | cons c rest => rfl
    · split
      · simp [refActive, condsToStack, Bool.and_comm]
      · split
        · simp [refActive, condsToStack, Bool.and_comm]
        · by_cases hact : refActive conds = true
          · cases h : attrLineParts (pyStrip line) with
            | none => simp [hact, h]
            | some kv => simp [hact, h]
          · simp only [Bool.not_eq_true] at hact
            simp [hact]

theorem foldl_processAttrLine_ref (lines : List Str) (st : RefSt) :
    List.foldl processAttrLine ⟨st.attrs, refActive st.conds, condsToStack st.conds⟩ lines =
      ⟨(List.foldl refProcessLine st lines).attrs,
        refActive (List.foldl refProcessLine st lines).conds,
        condsToStack (List.foldl refProcessLine st lines).conds⟩ := by
  induction lines generalizing st with
  | nil => rfl
  | cons l rest ih =>
    simp only [List.foldl_cons, processAttrLine_ref st l]
    exact ih (refProcessLine st l)

theorem firstPass_eq_ref (lines : List Str) (init : List (Str × Str)) :
    (firstPass lines init).attrs = (refFirstPass lines init).attrs := by
  have h := foldl_processAttrLine_ref lines ⟨init, []⟩
  simp only [refActive, List.all_nil, condsToStack] at h
  simp only [firstPass, refFirstPass]
  rw [h]

/-- Claim C6: during attribute-file parsing, a conditional block is active only
if it and all enclosing blocks are active (the code's single activity flag and
saved-activity stack compute exactly the logical AND down the stack of block
conditions, so the code parser agrees with the reference parser that records
one condition per open block and ANDs them); no line processed while inside an
inactive block changes the table; a conditional close with an empty stack is a
no-op; and for `ifndef::x[]  :y: 1  endif::[]` with `x` predefined, `y` never
enters the resulting table. -/
theorem claim_C6 :
    (∀ (lines : List Str) (init : List (Str × Str)),
        (firstPass lines init).attrs = (refFirstPass lines init).attrs)
    ∧ (∀ (attrs : List (Str × Str)) (stack : List Bool) (line : Str),
        (processAttrLine ⟨attrs, false, stack⟩ line).attrs = attrs)
    ∧ (∀ (attrs : List (Str × Str)) (inAct : Bool),
        processAttrLine ⟨attrs, inAct, []⟩ ("endif::[]".toList) = ⟨attrs, inAct, []⟩)
    ∧ (load_and_process_adoc_attributes
        [("ifndef::x[]".toList), (":y: 1".toList), ("endif::[]".toList)]
        [("x".toList, [])]).lookup ("y".toList) = none := by
  refine ⟨firstPass_eq_ref, ?_, ?_, by decide⟩
  · intro attrs stack line
    simp only [processAttrLine]
    split
    · rfl
    · split
      · cases stack <;> rfl
      · split
        · rfl
        · split
          · rfl
          · rfl
  · intro attrs inAct
    rfl

/-- The entities-file text of the concrete brand set used by the examples
below. -/
def entContent : Str :=
  ("<!ENTITY leapy \"Leapy\"> <!ENTITY alpcog \"Alp Cog\"> <!ENTITY quux \"Quux\">").toList

/-- The brand set loaded from `entContent`: `Leapy` (family `opensuse`, its
name contains `leap`), `Alp Cog` and `Quux` (family `suse`). -/
def entBrands : List Brand := load_brand_config_from_entities (some entContent)

/-- Claim C8: an absent entities file yields the empty brand set (not an
error), and with an empty brand set `post_process_description` returns every
description unchanged with no status. -/
theorem claim_C8 :
    load_brand_config_from_entities none = [] ∧
    ∀ (description file_path : Str),
      post_process_description description file_path [] = (description, none) := by
  refine ⟨rfl, ?_⟩
  intro d p
  simp [post_process_description]

theorem removeBanned_id (kws : List Str) (d : Str)
    (h : ∀ k ∈ kws, searchWordCI k d = false) : removeBanned kws d = d := by
  induction kws with
  | nil => rfl
  | cons k rest ih =>
    have hk := h k (List.mem_cons_self k rest)
    simp only [removeBanned, List.foldl_cons, hk, Bool.false_eq_true, if_false]
    exact ih fun k' hk' => h k' (List.mem_cons_of_mem k hk')

theorem mem_insLenDesc {x y : Str} {l : List Str} :
    x ∈ insLenDesc y l ↔ x = y ∨ x ∈ l := by
  induction l with
  | nil => simp [insLenDesc]
  | cons z zs ih =>
    simp only [insLenDesc]
    split
    · simp
    · simp only [List.mem_cons, ih]
      tauto

theorem mem_sortLenDesc {x : Str} {l : List Str} : x ∈ sortLenDesc l ↔ x ∈ l := by
  induction l with
  | nil => simp [sortLenDesc]
  | cons z zs ih =>
    simp only [sortLenDesc, List.foldr_cons]
    rw [mem_insLenDesc]
    simp only [List.mem_cons]
    rw [← sortLenDesc, ih]

/-- Claim C10: when a brand is classified for the path but no banned keyword
occurs in the description as a case-insensitive whole word (the code's own
search), the description is returned exactly unchanged, with no status and
with none of the grammar repairs applied. -/
theorem claim_C10 (description file_path : Str) (brands : List Brand) (fc : Brand)
    (hcl : classifyFile file_path brands = some fc)
    (hno : ∀ k ∈ bannedKeywordsFor fc brands, searchWordCI k description = false) :
    post_process_description description file_path brands = (description, none) := by
  simp only [post_process_description]
  split
  · rfl
  · split
    · rfl
    · rename_i fc' heq
      rw [hcl] at heq
      injection heq with hfc
      subst hfc
      split
      · rfl
      · rw [removeBanned_id _ _ fun k hk => hno k (mem_sortLenDesc.mp hk)]
        simp

/-- Witness for claim C10 at a concrete brand set, path and description. -/
theorem claim_C10_witness :
    post_process_description ("Configure things".toList) ("docs/leapy/intro.adoc".toList)
      entBrands = (("Configure things".toList), none) :=
  claim_C10 ("Configure things".toList) ("docs/leapy/intro.adoc".toList) entBrands
    ⟨"leapy".toList, "Leapy".toList, "opensuse".toList⟩ (by decide) (by decide)

/-- Counterexample to claim C2: on the round-trip draft the self-referential
lead-in `This guide describes ` is removed, but the residue still begins with
`how to`, which no later step removes, so the result does not start with
`Configure the Foo network stack for your infrastructure`. -/
theorem claim_C2_counterexample :
    List.isPrefixOf ("Configure the Foo network stack for your infrastructure".toList)
      (sanitize_and_finalize
        ("This guide describes how to configure the Foo network stack for your infrastructure and for".toList)
        []) = false := by decide

/-- Claim C2 (amended): on the round-trip draft, the lead-in strip removes
`This guide describes `, the stop-word trim removes the trailing `and for`,
and the capitalized result is exactly
`How to configure the Foo network stack for your infrastructure` — it begins
with `How to configure ...`, not with `Configure ...`. -/
theorem claim_C2 :
    sanitize_and_finalize
      ("This guide describes how to configure the Foo network stack for your infrastructure and for".toList)
      []
      = ("How to configure the Foo network stack for your infrastructure".toList) := by decide

/-- The attribute table `{"a": "{b}", "b": "X"}`. -/
def tblGoodC5 : List (Str × Str) := [("a".toList, ['{', 'b', '}']), ("b".toList, "X".toList)]

/-- The circular attribute table `{"a": "{b}", "b": "{a}"}`. -/
def tblCircC5 : List (Str × Str) := [("a".toList, ['{', 'b', '}']), ("b".toList, ['{', 'a', '}'])]

/-- Claim C5: resolving the text `{a}` against `{"a": "{b}", "b": "X"}` yields
`X` within the iteration cap, and on the circular table `{"a": "{b}",
"b": "{a}"}` the capped table expansion terminates (every function here is
total by construction) with the residual placeholder `{a}` left in both table
values instead of an error being raised. -/
theorem claim_C5 :
    resolve_attributes (['{', 'a', '}']) tblGoodC5 = ("X".toList) ∧
    (expandAttributes tblCircC5).lookup ("a".toList) = some (['{', 'a', '}']) ∧
    (expandAttributes tblCircC5).lookup ("b".toList) = some (['{', 'a', '}']) := by decide

/-- Counterexample to claim C1: a draft of 161 identical letters survives the
cleaning phase unchanged; truncation cuts it to 161 characters and finds no
space to backtrack to, so the accepted result has length 161 > 160. -/
theorem claim_C1_counterexample :
    acceptedDesc (sanitize_and_finalize (List.replicate 161 'a') []) ∧
    160 < (sanitize_and_finalize (List.replicate 161 'a') []).length := by
  exact ⟨⟨by decide, by decide⟩, by decide⟩

/-- Counterexample to claim C9: the draft `ab . for` satisfies every cleaning
step, the stop-word trim pops `for`, the join gives `ab .`, and the
trailing-period strip then leaves the non-empty result `Ab ` with a trailing
space. -/
theorem claim_C9_counterexample :
    sanitize_and_finalize ("ab . for".toList) [] = ("Ab ".toList) ∧
    (sanitize_and_finalize ("ab . for".toList) []).getLast? = some ' ' := by decide

/-- Counterexample to claim C3: the compliant draft below carries two nested
self-referential lead-ins; one application of `sanitize_and_finalize` strips
only the outer one, so a second application still changes the string. -/
theorem claim_C3_counterexample :
    compliantSpec
      ("This guide describes This guide describes installing X well done".toList) [] = true ∧
    sanitize_and_finalize
      (sanitize_and_finalize
        ("This guide describes This guide describes installing X well done".toList) []) []
      ≠ sanitize_and_finalize
        ("This guide describes This guide describes installing X well done".toList) [] := by
  exact ⟨by decide, by decide⟩

/-- Counterexample to claim C7: with the brand set loaded from `entContent`,
the path `docs/leapy/intro.adoc` is classified into family `opensuse`, the
family-`suse` brand `Alp Cog` is in the set, and on the description
`Alp Quux Cog configure things` the removal of the banned word `Quux` followed
by the space-collapsing grammar repair recreates the full display name
`Alp Cog` (both of whose words are too short to be banned individually) as a
whole-word occurrence in the returned description. -/
theorem claim_C7_counterexample :
    (classifyFile ("docs/leapy/intro.adoc".toList) entBrands).map Brand.family
      = some ("opensuse".toList) ∧
    (⟨"alpcog".toList, "Alp Cog".toList, "suse".toList⟩ : Brand) ∈ entBrands ∧
    (post_process_description ("Alp Quux Cog configure things".toList)
        ("docs/leapy/intro.adoc".toList) entBrands).1 = ("Alp Cog configure things".toList) ∧
    searchWordCI ("Alp Cog".toList)
      (post_process_description ("Alp Quux Cog configure things".toList)
        ("docs/leapy/intro.adoc".toList) entBrands).1 = true := by
  exact ⟨by decide, by decide, by decide, by decide⟩

/-- The placeholder token `{p}`. -/
def tok (p : Str) : Str := '{' :: p ++ ['}']

theorem attrChar_ne_braces {c : Char} (h : attrChar c = true) : c ≠ '{' ∧ c ≠ '}' := by
  constructor <;> rintro rfl <;> simp [attrChar] at h

theorem lookup_none_ne {l : List (Str × Str)} {p : Str} :
    l.lookup p = none → ∀ kv ∈ l, kv.1 ≠ p := by
  induction l with
  | nil => intro _ kv hkv; cases hkv
  | cons e es ih =>
    intro h kv hkv
    obtain ⟨k, v⟩ := e
    simp only [List.lookup] at h
    cases hkp : (p == k) with
    | true => rw [hkp] at h; simp at h
    | false =>
      rw [hkp] at h
      rcases List.mem_cons.mp hkv with rfl | hmem
      · intro hc
        have hc' : k = p := hc
        rw [hc'] at hkp
        simp at hkp
      · exact ih h kv hmem

theorem hasSub_exists {pat s : Str} (h : hasSub pat s = true) :
    ∃ u v, s = u ++ pat ++ v := by
  induction s with
  | nil =>
    simp only [hasSub, List.isEmpty_iff] at h
    exact ⟨[], [], by simp [h]⟩
  | cons c cs ih =>
    simp only [hasSub, Bool.or_eq_true] at h
    rcases h with h | h
    · rcases List.isPrefixOf_iff_prefix.mp h with ⟨v, hv⟩
      exact ⟨[], v, by simp [hv.symm]⟩
    · rcases ih h with ⟨u, v, huv⟩
      exact ⟨c :: u, v, by simp [huv]⟩

theorem append_cons_inj {c : Char} :
    ∀ {a b x y : Str}, c ∉ a → c ∉ b → a ++ c :: x = b ++ c :: y → a = b ∧ x = y := by
  intro a
  induction a with
  | nil =>
    intro b x y _ hb h
    cases b with
    | nil => simpa using h
    | cons d b' =>
      simp only [List.nil_append, List.cons_append, List.cons.injEq] at h
      exact absurd (h.1 ▸ List.mem_cons_self d b') hb
  | cons d a' ih =>
    intro b x y ha hb h
    cases b with
    | nil =>
      simp only [List.cons_append, List.nil_append, List.cons.injEq] at h
      exact absurd (h.1.symm ▸ List.mem_cons_self d a') ha
    | cons e b' =>
      simp only [List.cons_append, List.cons.injEq] at h
      obtain ⟨rfl, h2⟩ := h
      have := ih (fun hc => ha (List.mem_cons_of_mem d hc))
        (fun hc => hb (List.mem_cons_of_mem d hc)) h2
      exact ⟨by rw [this.1], this.2⟩

theorem not_hasSub_tok {k p pre post : Str}
    (hkc : ∀ c ∈ k, attrChar c = true) (hpc : ∀ c ∈ p, attrChar c = true)
    (hpre : ∀ c ∈ pre, c ≠ '{' ∧ c ≠ '}') (hpost : ∀ c ∈ post, c ≠ '{' ∧ c ≠ '}')
    (hkp : k ≠ p) :
    hasSub (tok k) (pre ++ tok p ++ post) = false := by
  by_contra hcon
  rw [Bool.not_eq_false] at hcon
  obtain ⟨u, v, huv⟩ := hasSub_exists hcon
  have hbk : '{' ∉ k := fun hc => (attrChar_ne_braces (hkc _ hc)).1 rfl
  have hbp : '{' ∉ p := fun hc => (attrChar_ne_braces (hpc _ hc)).1 rfl
  have hck : '}' ∉ k := fun hc => (attrChar_ne_braces (hkc _ hc)).2 rfl
  have hcp : '}' ∉ p := fun hc => (attrChar_ne_braces (hpc _ hc)).2 rfl
  have hcount : (pre ++ tok p ++ post).count '{' = 1 := by
    simp [List.count_append, tok, List.count_cons, List.count_eq_zero.mpr hbp,
      List.count_eq_zero.mpr (fun hc => (hpre _ hc).1 rfl),
      List.count_eq_zero.mpr (fun hc => (hpost _ hc).1 rfl)]
  have hcu : (u ++ tok k ++ v).count '{' = u.count '{' + 1 + v.count '{' := by
    simp [List.count_append, tok, List.count_cons, List.count_eq_zero.mpr hbk]
    all_goals omega
  rw [huv, hcu] at hcount
  have hu : '{' ∉ u := List.count_eq_zero.mp (by omega)
  have h1 : u ++ '{' :: (k ++ '}' :: v) = pre ++ '{' :: (p ++ '}' :: post) := by
    have hx := huv
    simp only [tok, List.append_assoc, List.cons_append, List.singleton_append] at hx
    simpa [List.append_assoc] using hx.symm
  have h2 := append_cons_inj hu (fun hc => (hpre _ hc).1 rfl) h1
  have h3 := append_cons_inj hck hcp h2.2
  exact hkp h3.1

theorem scanGo_repTry_id {pat repl s : Str} (h : hasSub pat s = false) :
    ∀ prev, scanGo (repTry pat repl) prev 0 s = s := by
  induction s with
  | nil => intro prev; rfl
  | cons c cs ih =>
    intro prev
    simp only [hasSub, Bool.or_eq_false_iff] at h
    have hrt : repTry pat repl prev (c :: cs) = none := by
      simp [repTry, h.1]
    simp only [scanGo, hrt]
    exact congrArg (c :: ·) (ih h.2 (some c))

theorem pyReplace_id {pat repl s : Str} (h : hasSub pat s = false) :
    pyReplace s pat repl = s := scanGo_repTry_id h none

theorem resolveLoopBody_id {attrs : List (Str × Str)} {t : Str}
    (h : ∀ kv ∈ attrs, hasSub ('{' :: kv.1 ++ ['}']) t = false) :
    resolveLoopBody attrs t = t := by
  induction attrs with
  | nil => rfl
  | cons e es ih =>
    simp only [resolveLoopBody, List.foldl_cons]
    rw [pyReplace_id (h e (List.mem_cons_self e es))]
    exact ih fun kv hkv => h kv (List.mem_cons_of_mem e hkv)

theorem hasSub_singleton_of_mem {c : Char} {s : Str} (h : c ∈ s) : hasSub [c] s = true := by
  induction s with
  | nil => cases h
  | cons d ds ih =>
    rcases List.mem_cons.mp h with rfl | hmem
    · simp [hasSub, List.isPrefixOf]
    · simp [hasSub, ih hmem]

theorem scanGo_prevInd {try1 : Option Char → Str → Option (Str × Nat)}
    (hpi : ∀ p q t, try1 p t = try1 q t) :
    ∀ (s : Str) (n : Nat) (prev prev' : Option Char),
      scanGo try1 prev n s = scanGo try1 prev' n s := by
  intro s
  induction s with
  | nil => intro n prev prev'; cases n <;> rfl
  | cons c cs ih =>
    intro n prev prev'
    cases n with
    | zero => simp only [scanGo, hpi prev prev' (c :: cs)]
    | succ m => simp only [scanGo]

theorem phTry_prevInd : ∀ (p q : Option Char) (t : Str), phTry p t = phTry q t := by
  intro p q t
  rfl

theorem scanGo_phTry_copy {pre : Str} (h : ∀ c ∈ pre, c ≠ '{') :
    ∀ (rest : Str) (prev : Option Char),
      scanGo phTry prev 0 (pre ++ rest) = pre ++ scanGo phTry prev 0 rest := by
  induction pre with
  | nil => intro rest prev; rfl
  | cons c pre' ih =>
    intro rest prev
    have hc : (c == '{') = false := by
      simp only [beq_eq_false_iff_ne, ne_eq]
      exact h c (List.mem_cons_self c pre')
    simp only [List.cons_append, scanGo, phTry, hc, Bool.false_eq_true, if_false,
      List.append_eq]
    rw [ih (fun d hd => h d (List.mem_cons_of_mem c hd)) rest (some c),
        scanGo_prevInd phTry_prevInd rest 0 (some c) prev]

theorem takeWhile_attr_token :
    ∀ (p : Str), (∀ c ∈ p, attrChar c = true) → ∀ (rest : Str),
      (p ++ '}' :: rest).takeWhile attrChar = p := by
  intro p
  induction p with
  | nil =>
    intro _ rest
    simp [List.takeWhile_cons, show attrChar '}' = false from rfl]
  | cons c cs ih =>
    intro hp rest
    have hc := hp c (List.mem_cons_self c cs)
    simp only [List.cons_append, List.takeWhile_cons, hc, if_true]
    exact congrArg (c :: ·) (ih (fun d hd => hp d (List.mem_cons_of_mem c hd)) rest)

theorem scanGo_skipper {try1 : Option Char → Str → Option (Str × Nat)}
    (hpi : ∀ p q t, try1 p t = try1 q t) :
    ∀ (l : Str) (n : Nat) (prev prev' : Option Char) (rest : Str),
      scanGo try1 prev (l.length + n) (l ++ rest) = scanGo try1 prev' n rest := by
  intro l
  induction l with
  | nil =>
    intro n prev prev' rest
    simpa using scanGo_prevInd hpi rest n prev prev'
  | cons c l' ih =>
    intro n prev prev' rest
    have hl : (c :: l').length + n = Nat.succ (l'.length + n) := by
      simp [Nat.succ_eq_add_one]
      omega
    rw [hl]
    simp only [List.cons_append, scanGo]
    exact ih n (some c) prev' rest

theorem tok_append (p post : Str) : tok p ++ post = '{' :: (p ++ '}' :: post) := by
  simp [tok]

theorem stripPlaceholders_token {p pre post : Str}
    (hp0 : p ≠ []) (hp : ∀ c ∈ p, attrChar c = true)
    (hpre : ∀ c ∈ pre, c ≠ '{') (hpost : ∀ c ∈ post, c ≠ '{') :
    stripPlaceholders (pre ++ tok p ++ post) = pre ++ post := by
  have h1 : (p ++ '}' :: post).takeWhile attrChar = p := takeWhile_attr_token p hp post
  have h2 : (p ++ '}' :: post).drop p.length = '}' :: post := List.drop_left p ('}' :: post)
  have hfire : phTry none ('{' :: (p ++ '}' :: post)) = some ([], p.length + 2) := by
    simp only [phTry]
    rw [if_pos (by simp), h1,
      show p.isEmpty = false by simpa [List.isEmpty_iff] using hp0]
    simp only [Bool.false_eq_true, if_false, h2]
    simp
  have hmain : scanGo phTry none 0 ('{' :: (p ++ '}' :: post)) = post := by
    simp only [scanGo, hfire]
    have hsk : p ++ '}' :: post = (p ++ ['}']) ++ post := by simp
    have hlen : p.length + 2 - 1 = (p ++ ['}']).length + 0 := by simp
    rw [List.nil_append, hsk, hlen,
      scanGo_skipper phTry_prevInd (p ++ ['}']) 0 (some '{') none post]
    have hcopy := scanGo_phTry_copy hpost ([] : Str) none
    have hnil : scanGo phTry none 0 ([] : Str) = [] := rfl
    rw [hnil, List.append_nil] at hcopy
    exact hcopy
  unfold stripPlaceholders scanSub
  rw [List.append_assoc, scanGo_phTry_copy hpre (tok p ++ post) none, tok_append, hmain]

theorem resolve_attributes_deletes {attributes : List (Str × Str)} {p pre post : Str}
    (hp0 : p ≠ []) (hp : ∀ c ∈ p, attrChar c = true)
    (hkeys : ∀ kv ∈ attributes, ∀ c ∈ kv.1, attrChar c = true)
    (hlp : attributes.lookup p = none)
    (hpre : ∀ c ∈ pre, c ≠ '{' ∧ c ≠ '}') (hpost : ∀ c ∈ post, c ≠ '{' ∧ c ≠ '}') :
    resolve_attributes (pre ++ tok p ++ post) attributes = pre ++ post := by
  have hstrip : stripPlaceholders (pre ++ tok p ++ post) = pre ++ post :=
    stripPlaceholders_token hp0 hp (fun c hc => (hpre c hc).1) (fun c hc => (hpost c hc).1)
  unfold resolve_attributes
  split
  · exact hstrip
  · have hbody : resolveLoopBody attributes (pre ++ tok p ++ post) = pre ++ tok p ++ post :=
      resolveLoopBody_id fun kv hkv =>
        not_hasSub_tok (hkeys kv hkv) hp hpre hpost (lookup_none_ne hlp kv hkv)
    have hbrace : hasSub (['{']) (pre ++ tok p ++ post) = true :=
      hasSub_singleton_of_mem (by simp [tok])
    show stripPlaceholders (resolveLoop attributes 10 (pre ++ tok p ++ post)) = pre ++ post
    rw [show (10 : Nat) = Nat.succ 9 from rfl]
    simp only [resolveLoop, hbrace, if_true, hbody, if_pos rfl]
    exact hstrip

theorem lookup_dictSet_self (l : List (Str × Str)) (k v : Str) :
    (dictSet l k v).lookup k = some v := by
  induction l with
  | nil => simp [dictSet, List.lookup]
  | cons e es ih =>
    simp only [dictSet]
    split
    · simp [List.lookup]
    · rename_i hne
      simp only [List.lookup]
      rw [beq_eq_false_iff_ne.mpr (fun hc => hne hc.symm)]
      exact ih

theorem lookup_dictSet_ne {a k : Str} (hne : a ≠ k) (l : List (Str × Str)) (v : Str) :
    (dictSet l k v).lookup a = l.lookup a := by
  induction l with
  | nil =>
    simp only [dictSet, List.lookup]
    rw [beq_eq_false_iff_ne.mpr hne]
  | cons e es ih =>
    simp only [dictSet]
    split
    · rename_i hek
      simp only [List.lookup]
      rw [beq_eq_false_iff_ne.mpr hne,
        beq_eq_false_iff_ne.mpr (fun hc => hne (hc.trans hek))]
    · simp only [List.lookup]
      cases hae : (a == e.1) with
      | true => rfl
      | false => exact ih

theorem scanFindGo_big {α : Type} (try1 : Str → Option (α × Nat)) :
    ∀ (s : Str) (n : Nat), s.length ≤ n → scanFindGo try1 n s = [] := by
  intro s
  induction s with
  | nil => intro n _; cases n <;> rfl
  | cons c cs ih =>
    intro n hn
    cases n with
    | zero => simp at hn
    | succ m =>
      simp only [scanFindGo]
      exact ih m (by simpa using hn)

theorem findPlaceholders_token {p : Str} (hp0 : p ≠ []) (hp : ∀ c ∈ p, attrChar c = true) :
    findPlaceholders (tok p) = [p] := by
  have h1 : (p ++ '}' :: ([] : Str)).takeWhile attrChar = p := takeWhile_attr_token p hp []
  have h2 : (p ++ '}' :: ([] : Str)).drop p.length = '}' :: [] := List.drop_left p ('}' :: [])
  have htok : tok p = '{' :: (p ++ '}' :: ([] : Str)) := by simp [tok]
  have hfire : phFindTry ('{' :: (p ++ '}' :: ([] : Str))) = some (p, p.length + 2) := by
    simp only [phFindTry]
    rw [if_pos (by simp), h1,
      show p.isEmpty = false by simpa [List.isEmpty_iff] using hp0]
    simp only [Bool.false_eq_true, if_false, h2]
    simp
  rw [findPlaceholders, scanFind, htok]
  simp only [scanFindGo, hfire]
  rw [scanFindGo_big phFindTry (p ++ '}' :: ([] : Str)) (p.length + 2 - 1) (by simp)]

theorem expandKey_pres {cur : List (Str × Str)} {k p : Str} (k'' : Str)
    (hp0 : p ≠ []) (hp : ∀ c ∈ p, attrChar c = true)
    (hk : cur.lookup k = some (tok p)) (hpn : cur.lookup p = none) :
    (expandKey cur k'').1.lookup k = some (tok p) ∧ (expandKey cur k'').1.lookup p = none := by
  have hkp : k ≠ p := by
    intro hc
    rw [hc, hpn] at hk
    cases hk
  by_cases hkk : k'' = k
  · subst hkk
    have hbr : hasSub (['{']) (tok p) = true := hasSub_singleton_of_mem (by simp [tok])
    have hfold : ([p] : List Str).foldl
        (fun acc q =>
          match cur.lookup q with
          | some w => pyReplace acc ('{' :: q ++ ['}']) w
          | none => acc) (tok p) = tok p := by
      simp [hpn]
    unfold expandKey
    simp only [hk, hbr, if_true, findPlaceholders_token hp0 hp, List.isEmpty_cons,
      Bool.false_eq_true, if_false, hfold]
    exact ⟨lookup_dictSet_self cur k'' (tok p),
      by rw [lookup_dictSet_ne hkp.symm]; exact hpn⟩
  · unfold expandKey
    cases hcl : cur.lookup k'' with
    | none => exact ⟨hk, hpn⟩
    | some v =>
      have hk''p : p ≠ k'' := by
        intro hc
        rw [← hc, hpn] at hcl
        cases hcl
      simp only [hcl]
      split
      · split
        · exact ⟨hk, hpn⟩
        · refine ⟨?_, ?_⟩
          · rw [lookup_dictSet_ne (fun hc => hkk hc.symm)]
            exact hk
          · rw [lookup_dictSet_ne hk''p]
            exact hpn
      · exact ⟨hk, hpn⟩

theorem foldl_expand_pres {k p : Str} (hp0 : p ≠ []) (hp : ∀ c ∈ p, attrChar c = true) :
    ∀ (keys : List Str) (st : List (Str × Str) × Bool),
      st.1.lookup k = some (tok p) → st.1.lookup p = none →
      ((keys.foldl (fun st k'' => ((expandKey st.1 k'').1, st.2 || (expandKey st.1 k'').2)) st).1.lookup k
          = some (tok p)
        ∧ (keys.foldl (fun st k'' => ((expandKey st.1 k'').1, st.2 || (expandKey st.1 k'').2)) st).1.lookup p
          = none) := by
  intro keys
  induction keys with
  | nil => intro st h1 h2; exact ⟨h1, h2⟩
  | cons q qs ih =>
    intro st h1 h2
    simp only [List.foldl_cons]
    have hstep := expandKey_pres q hp0 hp h1 h2
    exact ih _ hstep.1 hstep.2

theorem expandLoop_pres {k p : Str} (hp0 : p ≠ []) (hp : ∀ c ∈ p, attrChar c = true)
    (keys : List Str) :
    ∀ (n : Nat) (cur : List (Str × Str)),
      cur.lookup k = some (tok p) → cur.lookup p = none →
      ((expandLoop keys n cur).lookup k = some (tok p)
        ∧ (expandLoop keys n cur).lookup p = none) := by
  intro n
  induction n with
  | zero => intro cur h1 h2; exact ⟨h1, h2⟩
  | succ m ih =>
    intro cur h1 h2
    have hpass := foldl_expand_pres hp0 hp keys (cur, false) h1 h2
    simp only [expandLoop, expandPass]
    split
    · exact ih _ hpass.1 hpass.2
    · exact hpass

theorem expandAttributes_literal {attributes : List (Str × Str)} {k p : Str}
    (hp0 : p ≠ []) (hp : ∀ c ∈ p, attrChar c = true)
    (hk : attributes.lookup k = some (tok p)) (hpn : attributes.lookup p = none) :
    (expandAttributes attributes).lookup k = some (tok p) :=
  (expandLoop_pres hp0 hp (attributes.map Prod.fst) 10 attributes hk hpn).1

/-- Claim C4: `resolve_attributes` deletes an unresolved `{placeholder}` token
from the text (both when the table is empty and when the capped iteration
leaves it unresolved), while the table-internal value expansion of
`load_and_process_adoc_attributes` leaves a placeholder that matches no key as
literal text in the table value after the cap — and neither raises (all the
modelled functions are total). -/
theorem claim_C4 :
    (∀ (attributes : List (Str × Str)) (p pre post : Str),
        p ≠ [] → (∀ c ∈ p, attrChar c = true) →
        (∀ kv ∈ attributes, ∀ c ∈ kv.1, attrChar c = true) →
        attributes.lookup p = none →
        (∀ c ∈ pre, c ≠ '{' ∧ c ≠ '}') → (∀ c ∈ post, c ≠ '{' ∧ c ≠ '}') →
        resolve_attributes (pre ++ tok p ++ post) attributes = pre ++ post)
    ∧ (∀ (attributes : List (Str × Str)) (k p : Str),
        p ≠ [] → (∀ c ∈ p, attrChar c = true) →
        attributes.lookup k = some (tok p) → attributes.lookup p = none →
        (expandAttributes attributes).lookup k = some (tok p)) := by
  constructor
  · intro attributes p pre post hp0 hp hkeys hlp hpre hpost
    exact resolve_attributes_deletes hp0 hp hkeys hlp hpre hpost
  · intro attributes k p hp0 hp hk hpn
    exact expandAttributes_literal hp0 hp hk hpn

/-- Witness for claim C4: the unresolvable token `{q}` is deleted from a text
resolved against `{"a": "{b}", "b": "X"}`, and the table `{"a": "{p}"}` keeps
the literal value `{p}` after expansion. -/
theorem claim_C4_witness :
    resolve_attributes (("pre ".toList) ++ tok ("q".toList) ++ (" post".toList)) tblGoodC5
        = (("pre ".toList) ++ (" post".toList)) ∧
    (expandAttributes [("a".toList, tok ("p".toList))]).lookup ("a".toList)
        = some (tok ("p".toList)) :=
  ⟨claim_C4.1 tblGoodC5 ("q".toList) ("pre ".toList) (" post".toList)
      (by decide) (by decide) (by decide) (by decide) (by decide) (by decide),
    claim_C4.2 [("a".toList, tok ("p".toList))] ("a".toList) ("p".toList)
      (by decide) (by decide) (by decide) (by decide)⟩

theorem length_rstripBy_le (p : Char → Bool) (s : Str) : (rstripBy p s).length ≤ s.length := by
  simp only [rstripBy, List.length_reverse]
  calc (s.reverse.dropWhile p).length ≤ s.reverse.length := (List.dropWhile_sublist p).length_le
    _ = s.length := List.length_reverse s

theorem joinSpace_cons_le (w : Str) (ws : List Str) :
    (joinSpace (w :: ws)).length ≤ w.length + 1 + (joinSpace ws).length := by
  cases ws with
  | nil => simp [joinSpace]
  | cons x xs => simp [joinSpace]; omega

theorem joinSpace_pySplitGo_le : ∀ (s : Str) (cur : Str),
    (joinSpace (pySplitGo cur s)).length ≤ cur.length + s.length := by
  intro s
  induction s with
  | nil =>
    intro cur
    simp only [pySplitGo]
    split
    · simp [joinSpace]
    · simp [joinSpace]
  | cons c cs ih =>
    intro cur
    simp only [pySplitGo]
    split
    · split
      · calc (joinSpace (pySplitGo [] cs)).length ≤ [].length + cs.length := ih []
          _ ≤ cur.length + (c :: cs).length := by simp; omega
      · calc (joinSpace (cur.reverse :: pySplitGo [] cs)).length
            ≤ cur.reverse.length + 1 + (joinSpace (pySplitGo [] cs)).length :=
              joinSpace_cons_le _ _
          _ ≤ cur.length + 1 + cs.length := by
              have := ih ([] : Str)
              simp only [List.length_nil, Nat.zero_add] at this
              simp [List.length_reverse]
              omega
          _ = cur.length + (c :: cs).length := by simp [Nat.add_comm, Nat.add_assoc]; omega
    · calc (joinSpace (pySplitGo (c :: cur) cs)).length ≤ (c :: cur).length + cs.length :=
          ih (c :: cur)
        _ = cur.length + (c :: cs).length := by simp; omega

theorem joinSpace_pySplit_le (s : Str) : (joinSpace (pySplit s)).length ≤ s.length := by
  have := joinSpace_pySplitGo_le s []
  simpa [pySplit] using this

theorem joinSpace_append_le : ∀ (u t : List Str),
    (joinSpace u).length ≤ (joinSpace (u ++ t)).length := by
  intro u
  induction u with
  | nil => intro t; simp [joinSpace]
  | cons w us ih =>
    intro t
    cases us with
    | nil =>
      cases t with
      | nil => simp
      | cons v vs =>
        simp only [List.cons_append, List.nil_append, joinSpace, List.length_append,
          List.length_cons]
        omega
    | cons x xs =>
      have := ih t
      simp only [joinSpace, List.cons_append, List.length_append, List.length_cons,
        List.append_eq] at this ⊢
      omega

theorem dropStopwordsRev_suffix : ∀ (l : List Str), ∃ d, l = d ++ dropStopwordsRev l := by
  intro l
  induction l with
  | nil => exact ⟨[], rfl⟩
  | cons w rest ih =>
    simp only [dropStopwordsRev]
    split
    · rcases ih with ⟨d, hd⟩
      exact ⟨w :: d, by simp [← hd]⟩
    · exact ⟨[], rfl⟩

theorem popStopwords_prefix (ws : List Str) : ∃ t, ws = popStopwords ws ++ t := by
  rcases dropStopwordsRev_suffix ws.reverse with ⟨d, hd⟩
  refine ⟨d.reverse, ?_⟩
  have : ws.reverse.reverse = (d ++ dropStopwordsRev ws.reverse).reverse := by rw [← hd]
  simpa [popStopwords, List.reverse_append] using this

theorem joinSpace_popStopwords_le (ws : List Str) :
    (joinSpace (popStopwords ws)).length ≤ (joinSpace ws).length := by
  rcases popStopwords_prefix ws with ⟨t, ht⟩
  calc (joinSpace (popStopwords ws)).length ≤ (joinSpace (popStopwords ws ++ t)).length :=
      joinSpace_append_le _ _
    _ = (joinSpace ws).length := by rw [← ht]

theorem length_dropTrailingDot_le (s : Str) : (dropTrailingDot s).length ≤ s.length := by
  simp only [dropTrailingDot]
  split
  · simp [List.length_dropLast]
  · exact Nat.le_refl _

theorem length_capFirst (s : Str) : (capFirst s).length = s.length := by
  cases s <;> simp [capFirst]

theorem truncate161_of_le {s : Str} (h : s.length ≤ 160) : truncate161 s = s := by
  simp only [truncate161]
  rw [if_neg (by omega)]

theorem truncate161_le_161 (s : Str) :
    (truncate161 s).length ≤ 161 ∨ (truncate161 s = s ∧ s.length ≤ 160) := by
  by_cases h : s.length ≤ 160
  · exact Or.inr ⟨truncate161_of_le h, h⟩
  · left
    simp only [truncate161]
    rw [if_pos (by omega)]
    split
    · calc (List.take ((s.take 161).length - 1 - _) (s.take 161)).length
          ≤ (s.take 161).length := by simp [List.length_take]
        _ ≤ 161 := by simp [List.length_take]
    · simp [List.length_take]

theorem truncate161_space {s : Str} (h : 160 < s.length) (hsp : ' ' ∈ s.take 161) :
    (truncate161 s).length ≤ 160 := by
  simp only [truncate161]
  rw [if_pos (by omega)]
  have hlen : (s.take 161).length = 161 := by simp [List.length_take]; omega
  have hsp' : ' ' ∈ (s.take 161).reverse := by simpa using hsp
  have hfind : ((s.take 161).reverse.findIdx? (fun c => c == ' ')).isSome := by
    rw [List.findIdx?_isSome]
    simp only [List.any_eq_true]
    exact ⟨' ', hsp', by simp⟩
  obtain ⟨i, hi⟩ := Option.isSome_iff_exists.mp hfind
  rw [hi]
  simp only [List.length_take, hlen]
  omega

theorem sanitizeFinish_le (d : Str) : (sanitizeFinish d).length ≤ (truncate161 d).length := by
  simp only [sanitizeFinish]
  rw [length_capFirst]
  calc (dropTrailingDot (joinSpace (popStopwords (pySplit (rstripBy punctDotChar (truncate161 d)))))).length
      ≤ (joinSpace (popStopwords (pySplit (rstripBy punctDotChar (truncate161 d))))).length :=
        length_dropTrailingDot_le _
    _ ≤ (joinSpace (pySplit (rstripBy punctDotChar (truncate161 d)))).length :=
        joinSpace_popStopwords_le _
    _ ≤ (rstripBy punctDotChar (truncate161 d)).length := joinSpace_pySplit_le _
    _ ≤ (truncate161 d).length := length_rstripBy_le _ _

/-- Claim C1 (amended): every accepted description has `100 ≤ length ≤ 161`;
the ceiling `160` is guaranteed whenever the cleaned draft is already within
bounds or its first 161 characters contain a space.  In the remaining case -
a cleaned draft longer than 160 characters whose first 161 characters contain
no space - the length can reach 161 (the counterexample's draft of 161
identical letters is accepted at length 161), so `160` is not a bound, but
`161` is. -/
theorem claim_C1 (draft : Str) (banned : List Str)
    (h : acceptedDesc (sanitize_and_finalize draft banned)) :
    100 ≤ (sanitize_and_finalize draft banned).length ∧
    (sanitize_and_finalize draft banned).length ≤ 161 ∧
    ((sanitizeClean draft banned).length ≤ 160 ∨ ' ' ∈ (sanitizeClean draft banned).take 161 →
      (sanitize_and_finalize draft banned).length ≤ 160) := by
  refine ⟨h.2, ?_, ?_⟩
  · simp only [sanitize_and_finalize]
    split
    · simp
    · rcases truncate161_le_161 (sanitizeClean draft banned) with hb | ⟨hb, hle⟩
      · exact Nat.le_trans (sanitizeFinish_le _) hb
      · have := sanitizeFinish_le (sanitizeClean draft banned)
        rw [hb] at this
        omega
  · intro hsp
    simp only [sanitize_and_finalize]
    split
    · simp
    · rcases hsp with hle | hsp
      · have h1 := sanitizeFinish_le (sanitizeClean draft banned)
        rw [truncate161_of_le hle] at h1
        omega
      · by_cases hlen : (sanitizeClean draft banned).length ≤ 160
        · have h1 := sanitizeFinish_le (sanitizeClean draft banned)
          rw [truncate161_of_le hlen] at h1
          omega
        · have h1 := sanitizeFinish_le (sanitizeClean draft banned)
          have h2 := truncate161_space (s := sanitizeClean draft banned) (by omega) hsp
          omega

/-- Witness for claim C1 at a concrete accepted draft. -/
theorem claim_C1_witness :
    100 ≤ (sanitize_and_finalize
      ("Learn how to configure the Foo network stack and deploy services across your cluster with monitoring enabled for daily operations".toList) []).length ∧
    (sanitize_and_finalize
      ("Learn how to configure the Foo network stack and deploy services across your cluster with monitoring enabled for daily operations".toList) []).length ≤ 161 ∧
    ((sanitizeClean
      ("Learn how to configure the Foo network stack and deploy services across your cluster with monitoring enabled for daily operations".toList) []).length ≤ 160 ∨
      ' ' ∈ (sanitizeClean
      ("Learn how to configure the Foo network stack and deploy services across your cluster with monitoring enabled for daily operations".toList) []).take 161 →
      (sanitize_and_finalize
      ("Learn how to configure the Foo network stack and deploy services across your cluster with monitoring enabled for daily operations".toList) []).length ≤ 160) :=
  claim_C1
    ("Learn how to configure the Foo network stack and deploy services across your cluster with monitoring enabled for daily operations".toList) []
    ⟨by decide, by decide⟩

/-- No two consecutive space characters. -/
def noTwoSpaces : Str → Bool
  | a :: b :: rest => (!(a == ' ') || !(b == ' ')) && noTwoSpaces (b :: rest)
  | _ => true

/-- A word list is good when every word is non-empty and whitespace-free
(which is what Python's `str.split()` produces). -/
def goodTokens (ws : List Str) : Prop :=
  ∀ w ∈ ws, w ≠ [] ∧ ∀ c ∈ w, pySpace c = false

theorem noTwoSpaces_cons {a : Char} {l : Str} (ha : (a == ' ') = false)
    (hl : noTwoSpaces l = true) : noTwoSpaces (a :: l) = true := by
  cases l with
  | nil => rfl
  | cons b rest => simp [noTwoSpaces, ha, hl]

theorem noTwoSpaces_tail {a : Char} {l : Str} (h : noTwoSpaces (a :: l) = true) :
    noTwoSpaces l = true := by
  cases l with
  | nil => rfl
  | cons b rest =>
    simp only [noTwoSpaces, Bool.and_eq_true] at h
    exact h.2

theorem noTwoSpaces_of_no_space {s : Str} (h : ∀ c ∈ s, (c == ' ') = false) :
    noTwoSpaces s = true := by
  induction s with
  | nil => rfl
  | cons a l ih =>
    exact noTwoSpaces_cons (h a (List.mem_cons_self a l))
      (ih fun c hc => h c (List.mem_cons_of_mem a hc))

theorem noTwoSpaces_append {u v : Str} (hu : ∀ c ∈ u, (c == ' ') = false)
    (hv : noTwoSpaces v = true) : noTwoSpaces (u ++ v) = true := by
  induction u with
  | nil => exact hv
  | cons a u' ih =>
    exact noTwoSpaces_cons (hu a (List.mem_cons_self a u'))
      (ih fun c hc => hu c (List.mem_cons_of_mem a hc))

theorem pySplitGo_good : ∀ (s cur : Str), (∀ c ∈ cur, pySpace c = false) →
    goodTokens (pySplitGo cur s) := by
  intro s
  induction s with
  | nil =>
    intro cur hcur
    simp only [pySplitGo]
    split
    · intro w hw; cases hw
    · rename_i hne
      intro w hw
      rcases List.mem_cons.mp hw with rfl | hmem
      · refine ⟨?_, fun c hc => hcur c (List.mem_reverse.mp hc)⟩
        simpa [List.isEmpty_iff] using hne
      · cases hmem
  | cons c cs ih =>
    intro cur hcur
    simp only [pySplitGo]
    split
    · split
      · exact ih [] (by intro c hc; cases hc)
      · rename_i hne
        intro w hw
        rcases List.mem_cons.mp hw with rfl | hmem
        · refine ⟨?_, fun d hd => hcur d (List.mem_reverse.mp hd)⟩
          simpa [List.isEmpty_iff] using hne
        · exact ih [] (by intro d hd; cases hd) w hmem
    · rename_i hcsp
      refine ih (c :: cur) ?_
      intro d hd
      rcases List.mem_cons.mp hd with rfl | hmem
      · simpa using hcsp
      · exact hcur d hmem

theorem pySplit_good (s : Str) : goodTokens (pySplit s) :=
  pySplitGo_good s [] (by intro c hc; cases hc)

theorem popStopwords_good {ws : List Str} (h : goodTokens ws) :
    goodTokens (popStopwords ws) := by
  rcases popStopwords_prefix ws with ⟨t, ht⟩
  intro w hw
  exact h w (ht ▸ List.mem_append_left t hw)

theorem joinSpace_space_mem {ws : List Str} (h : goodTokens ws) :
    ∀ c ∈ joinSpace ws, pySpace c = true → c = ' ' := by
  induction ws with
  | nil => intro c hc; cases hc
  | cons w us ih =>
    intro c hc hsp
    cases us with
    | nil =>
      rw [show joinSpace [w] = w from rfl] at hc
      exact absurd hsp (by simp [(h w (List.mem_cons_self w [])).2 c hc])
    | cons x xs =>
      rw [show joinSpace (w :: x :: xs) = w ++ ' ' :: joinSpace (x :: xs) from rfl] at hc
      rcases List.mem_append.mp hc with hcw | hcr
      · exact absurd hsp (by simp [(h w (List.mem_cons_self w _)).2 c hcw])
      · rcases List.mem_cons.mp hcr with rfl | hcr
        · rfl
        · exact ih (fun v hv => h v (List.mem_cons_of_mem w hv)) c hcr hsp

theorem joinSpace_head {ws : List Str} (h : goodTokens ws) :
    ∀ c, (joinSpace ws).head? = some c → pySpace c = false := by
  intro c hc
  cases ws with
  | nil => cases hc
  | cons w us =>
    obtain ⟨hw0, hwc⟩ := h w (List.mem_cons_self w us)
    cases hw : w with
    | nil => exact absurd hw hw0
    | cons a w' =>
      subst hw
      have hhead : (joinSpace ((a :: w') :: us)).head? = some a := by
        cases us <;> rfl
      rw [hhead] at hc
      injection hc with hc
      rw [← hc]
      exact hwc a (List.mem_cons_self a w')

theorem joinSpace_noTwoSpaces {ws : List Str} (h : goodTokens ws) :
    noTwoSpaces (joinSpace ws) = true := by
  induction ws with
  | nil => rfl
  | cons w us ih =>
    have hw := h w (List.mem_cons_self w us)
    have hwsp : ∀ c ∈ w, (c == ' ') = false := by
      intro c hc
      have := hw.2 c hc
      simp only [pySpace, Bool.or_eq_false_iff] at this
      exact this.1.1.1.1.1
    cases us with
    | nil => exact noTwoSpaces_of_no_space hwsp
    | cons x xs =>
      have hrest := ih (fun v hv => h v (List.mem_cons_of_mem w hv))
      have hheadr : noTwoSpaces (' ' :: joinSpace (x :: xs)) = true := by
        cases hjx : joinSpace (x :: xs) with
        | nil => rfl
        | cons b r =>
          have hb : pySpace b = false := joinSpace_head
            (fun v hv => h v (List.mem_cons_of_mem w hv)) b (by rw [hjx]; rfl)
          have hbne : (b == ' ') = false := by
            simp only [pySpace, Bool.or_eq_false_iff] at hb
            exact hb.1.1.1.1.1
          simp only [noTwoSpaces, hbne]
          rw [hjx] at hrest
          simp [hrest]
      rw [show joinSpace (w :: x :: xs) = w ++ ' ' :: joinSpace (x :: xs) from rfl]
      exact noTwoSpaces_append hwsp hheadr

theorem head?_dropLast {s : Str} {c : Char} (h : s.dropLast.head? = some c) :
    s.head? = some c := by
  cases s with
  | nil => cases h
  | cons a l =>
    cases l with
    | nil => cases h
    | cons b r =>
      simp only [List.dropLast_cons₂, List.head?_cons] at h ⊢
      exact h

theorem noTwoSpaces_dropLast {s : Str} (h : noTwoSpaces s = true) :
    noTwoSpaces s.dropLast = true := by
  induction s with
  | nil => rfl
  | cons a l ih =>
    cases l with
    | nil => rfl
    | cons b r =>
      simp only [noTwoSpaces, Bool.and_eq_true] at h
      cases r with
      | nil => rfl
      | cons c cs =>
        have hbr := ih h.2
        simp only [List.dropLast_cons₂] at hbr ⊢
        exact (by simpa [noTwoSpaces, h.1] using hbr)

theorem pySpace_toUpper {c : Char} (h : pySpace c = false) :
    pySpace (Char.toUpper c) = false := by
  simp only [Char.toUpper]
  split
  · rename_i hr
    have hv : (Char.ofNat (c.toNat - 32)).toNat = c.toNat - 32 := by
      unfold Char.ofNat
      rw [dif_pos (Or.inl (by omega))]
      rfl
    have key : ∀ (d : Char), d.toNat ≤ 32 → (Char.ofNat (c.toNat - 32) == d) = false := by
      intro d hd
      rw [beq_eq_false_iff_ne]
      intro hEq
      have hnat := congrArg Char.toNat hEq
      rw [hv] at hnat
      omega
    simp only [pySpace, key ' ' (by decide), key '\t' (by decide), key '\n' (by decide),
      key '\r' (by decide), key (Char.ofNat 11) (by decide), key (Char.ofNat 12) (by decide),
      Bool.or_self, Bool.or_false]
  · exact h

theorem not_beq_space_of_pySpace {x : Char} (h : pySpace x = false) : (x == ' ') = false := by
  rw [beq_eq_false_iff_ne]
  intro hc
  rw [hc] at h
  simp [pySpace] at h

theorem sanitizeFinish_norm (d : Str) :
    (∀ c ∈ sanitizeFinish d, pySpace c = true → c = ' ') ∧
    (∀ c, (sanitizeFinish d).head? = some c → pySpace c = false) ∧
    noTwoSpaces (sanitizeFinish d) = true := by
  have hgood : goodTokens (popStopwords (pySplit (rstripBy punctDotChar (truncate161 d)))) :=
    popStopwords_good (pySplit_good _)
  have hJ1 := joinSpace_space_mem hgood
  have hJ2 := joinSpace_head hgood
  have hJ3 := joinSpace_noTwoSpaces hgood
  simp only [sanitizeFinish]
  set j := joinSpace (popStopwords (pySplit (rstripBy punctDotChar (truncate161 d)))) with hj
  have hD1 : ∀ c ∈ dropTrailingDot j, pySpace c = true → c = ' ' := by
    intro c hc
    simp only [dropTrailingDot] at hc
    split at hc
    · exact hJ1 c ((List.dropLast_sublist j).subset hc)
    · exact hJ1 c hc
  have hD2 : ∀ c, (dropTrailingDot j).head? = some c → pySpace c = false := by
    intro c hc
    simp only [dropTrailingDot] at hc
    split at hc
    · exact hJ2 c (head?_dropLast hc)
    · exact hJ2 c hc
  have hD3 : noTwoSpaces (dropTrailingDot j) = true := by
    simp only [dropTrailingDot]
    split
    · exact noTwoSpaces_dropLast hJ3
    · exact hJ3
  cases hdd : dropTrailingDot j with
  | nil =>
    refine ⟨?_, ?_, rfl⟩
    · intro c hc
      cases hc
    · intro c hc
      cases hc
  | cons c cs =>
    have hcsp : pySpace c = false := hD2 c (by rw [hdd]; rfl)
    refine ⟨?_, ?_, ?_⟩
    · intro x hx hxsp
      simp only [capFirst] at hx
      rcases List.mem_cons.mp hx with rfl | hmem
      · exact absurd hxsp (by simp [pySpace_toUpper hcsp])
      · exact hD1 x (by rw [hdd]; exact List.mem_cons_of_mem c hmem) hxsp
    · intro x hx
      simp only [capFirst, List.head?_cons] at hx
      injection hx with hx
      rw [← hx]
      exact pySpace_toUpper hcsp
    · simp only [capFirst]
      refine noTwoSpaces_cons (not_beq_space_of_pySpace (pySpace_toUpper hcsp)) ?_
      have := hD3
      rw [hdd] at this
      exact noTwoSpaces_tail this

/-- Claim C9 (amended): a non-empty result of `sanitize_and_finalize` contains
no tab or newline (every whitespace character in it is a plain space), has no
leading whitespace, and contains no run of two or more consecutive spaces —
but it may end in exactly one trailing space, which happens exactly when the
trailing-period strip removes a lone `.` word (see the counterexample
`Ab `). -/
theorem claim_C9 (draft : Str) (banned : List Str)
    (_h : sanitize_and_finalize draft banned ≠ []) :
    (∀ c ∈ sanitize_and_finalize draft banned, pySpace c = true → c = ' ') ∧
    (∀ c, (sanitize_and_finalize draft banned).head? = some c → pySpace c = false) ∧
    noTwoSpaces (sanitize_and_finalize draft banned) = true := by
  simp only [sanitize_and_finalize]
  split
  · refine ⟨?_, ?_, rfl⟩
    · intro c hc
      cases hc
    · intro c hc
      cases hc
  · exact sanitizeFinish_norm _

/-- Witness for claim C9 at a concrete draft with a non-empty result. -/
theorem claim_C9_witness :
    (∀ c ∈ sanitize_and_finalize ("Configure the network stack now".toList) [],
        pySpace c = true → c = ' ') ∧
    (∀ c, (sanitize_and_finalize ("Configure the network stack now".toList) []).head? = some c →
        pySpace c = false) ∧
    noTwoSpaces (sanitize_and_finalize ("Configure the network stack now".toList) []) = true :=
  claim_C9 ("Configure the network stack now".toList) [] (by decide)

/-- Case-insensitive substring occurrence, through the code's own literal
matcher. -/
def hasSubCI (pat s : Str) : Bool := scanHas (litCITry pat) s

/-- A string in fully finalized form: it contains no ampersand (so HTML
unescaping cannot touch it), no apostrophe, no forbidden punctuation, no
whitespace other than plain spaces and no two consecutive spaces; it neither
starts nor ends with a strippable character; no leakage phrase occurs in it,
no banned literal occurs as a whole word; no self-referential lead-in and no
leading preposition matches at its start; it is at most 160 characters long,
its last word is not a trailing stop-word (so it also does not end with a
period), and its first character is unchanged by upper-casing. -/
def fullySanitized (x : Str) (banned : List Str) : Bool :=
  x.all (fun c => (c != '&') && (c != apos) && !forbiddenChar c && (!pySpace c || c == ' ')) &&
  noTwoSpaces x &&
  Option.all (fun c => !punctChar c) x.head? &&
  Option.all (fun c => !punctDotChar c) x.getLast? &&
  leakage_phrases.all (fun p => !hasSubCI p x) &&
  banned.all (fun b => !searchWordCI b x) &&
  (metaMatch1 x).isNone && (metaMatch2 x).isNone && (metaMatch3 x).isNone &&
  (prepMatch x).isNone &&
  decide (x.length ≤ 160) &&
  Option.all (fun w => !isTrailingStopword w) ((pySplit x).getLast?) &&
  Option.all (fun c => c.toUpper == c) x.head?

theorem scanGo_id_of_hasGo_false {try1 : Option Char → Str → Option (Str × Nat)} :
    ∀ (s : Str) (prev : Option Char), scanHasGo try1 prev s = false →
      scanGo try1 prev 0 s = s := by
  intro s
  induction s with
  | nil => intro prev _; rfl
  | cons c cs ih =>
    intro prev h
    simp only [scanHasGo, Bool.or_eq_false_iff] at h
    cases hsome : try1 prev (c :: cs) with
    | some v => rw [hsome] at h; simp at h
    | none =>
      simp only [scanGo, hsome]
      exact congrArg (c :: ·) (ih (some c) h.2)

theorem scanSub_id {try1 : Option Char → Str → Option (Str × Nat)} {s : Str}
    (h : scanHas try1 s = false) : scanSub try1 s = s :=
  scanGo_id_of_hasGo_false s none h

theorem foldl_subLitCI_id {x : Str} :
    ∀ (ps : List Str), (∀ p ∈ ps, hasSubCI p x = false) →
      ps.foldl (fun d p => subLitCI p d) x = x := by
  intro ps
  induction ps with
  | nil => intro _; rfl
  | cons p rest ih =>
    intro h
    simp only [List.foldl_cons, subLitCI, scanSub_id (h p (List.mem_cons_self p rest))]
    exact ih fun q hq => h q (List.mem_cons_of_mem p hq)

theorem foldl_subWordCI_id {x : Str} :
    ∀ (bs : List Str), (∀ b ∈ bs, searchWordCI b x = false) →
      bs.foldl (fun d n => subWordCI n d) x = x := by
  intro bs
  induction bs with
  | nil => intro _; rfl
  | cons b rest ih =>
    intro h
    simp only [List.foldl_cons, subWordCI, scanSub_id (h b (List.mem_cons_self b rest))]
    exact ih fun q hq => h q (List.mem_cons_of_mem b hq)

theorem scanHasGo_unesc_false {x : Str} (h : ∀ c ∈ x, (c == '&') = false) :
    ∀ prev, scanHasGo unescTry prev x = false := by
  induction x with
  | nil => intro _; rfl
  | cons c cs ih =>
    intro prev
    have hc : unescTry prev (c :: cs) = none := by
      simp [unescTry, h c (List.mem_cons_self c cs)]
    simp only [scanHasGo, hc, Option.isSome_none, Bool.false_or]
    exact ih (fun d hd => h d (List.mem_cons_of_mem c hd)) (some c)

theorem possTry_none_of_no_apos {t : Str} (h : ∀ c ∈ t, (c == apos) = false)
    (prev : Option Char) : possTry prev t = none := by
  simp only [possTry]
  split
  · rfl
  · split
    · rfl
    · split
      · rename_i a s' rest heq
        have ha : a ∈ t := by
          have : a ∈ t.drop (t.takeWhile wordChar).length := by rw [heq]; simp
          exact List.mem_of_mem_drop this
        simp [h a ha]
      · rfl

theorem scanHasGo_poss_false {x : Str} (h : ∀ c ∈ x, (c == apos) = false) :
    ∀ prev, scanHasGo possTry prev x = false := by
  induction x with
  | nil => intro _; rfl
  | cons c cs ih =>
    intro prev
    simp only [scanHasGo, possTry_none_of_no_apos h prev, Option.isSome_none, Bool.false_or]
    exact ih (fun d hd => h d (List.mem_cons_of_mem c hd)) (some c)

theorem subWsAll_id {x : Str} (h1 : ∀ c ∈ x, pySpace c = true → c = ' ')
    (h2 : noTwoSpaces x = true) : subWsAll x = x := by
  suffices hgen : ∀ (s : Str), (∀ c ∈ s, pySpace c = true → c = ' ') → noTwoSpaces s = true →
      ∀ prev, scanGo wsAllTry prev 0 s = s by
    exact hgen x h1 h2 none
  intro s
  induction s with
  | nil => intro _ _ _; rfl
  | cons c cs ih =>
    intro ha hb prev
    by_cases hc : pySpace c = true
    · have hc' : c = ' ' := ha c (List.mem_cons_self c cs) hc
      subst hc'
      have htk : cs.takeWhile pySpace = [] := by
        cases cs with
        | nil => rfl
        | cons d rest =>
          have hd : (d == ' ') = false := by
            simp only [noTwoSpaces, Bool.and_eq_true, Bool.or_eq_true] at hb
            rcases hb.1 with h' | h'
            · simp at h'
            · simpa using h'
          have hdp : pySpace d = false := by
            by_contra hcon
            rw [Bool.not_eq_false] at hcon
            have hde := ha d (List.mem_cons_of_mem _ (List.mem_cons_self d rest)) hcon
            rw [hde] at hd
            simp at hd
          simp [List.takeWhile_cons, hdp]
      have hfire : wsAllTry prev (' ' :: cs) = some ([' '], 1) := by
        simp [wsAllTry, List.takeWhile_cons, htk, show pySpace ' ' = true from rfl]
      simp only [scanGo, hfire, Nat.sub_self, List.singleton_append]
      exact congrArg (' ' :: ·)
        (ih (fun d hd hds => ha d (List.mem_cons_of_mem ' ' hd) hds)
          (noTwoSpaces_tail hb) (some ' '))
    · have hnone : wsAllTry prev (c :: cs) = none := by
        simp [wsAllTry, hc]
      simp only [scanGo, hnone]
      exact congrArg (c :: ·) (ih (fun d hd hds => ha d (List.mem_cons_of_mem c hd) hds)
        (noTwoSpaces_tail hb) (some c))

theorem lstripBy_id {p : Char → Bool} {x : Str}
    (h : Option.all (fun c => !p c) x.head? = true) : lstripBy p x = x := by
  cases x with
  | nil => rfl
  | cons c cs =>
    simp only [List.head?_cons, Option.all_some, Bool.not_eq_true'] at h
    simp [lstripBy, List.dropWhile_cons, h]

theorem rstripBy_id {p : Char → Bool} {x : Str}
    (h : Option.all (fun c => !p c) x.getLast? = true) : rstripBy p x = x := by
  have hrev : Option.all (fun c => !p c) x.reverse.head? = true := by
    rw [List.head?_reverse]
    exact h
  have := lstripBy_id hrev
  simp only [lstripBy] at this
  simp [rstripBy, this]

theorem stripBy_id {p : Char → Bool} {x : Str}
    (h1 : Option.all (fun c => !p c) x.head? = true)
    (h2 : Option.all (fun c => !p c) x.getLast? = true) : stripBy p x = x := by
  simp only [stripBy, lstripBy_id h1, rstripBy_id h2]

theorem subForbidden_id {x : Str} (h : ∀ c ∈ x, forbiddenChar c = false) :
    subForbidden x = x := by
  induction x with
  | nil => rfl
  | cons c cs ih =>
    simp only [subForbidden, List.map_cons, h c (List.mem_cons_self c cs),
      Bool.false_eq_true, if_false]
    exact congrArg (c :: ·) (ih fun d hd => h d (List.mem_cons_of_mem c hd))

theorem subWs2_id {x : Str} (h1 : ∀ c ∈ x, pySpace c = true → c = ' ')
    (h2 : noTwoSpaces x = true) : subWs2 x = x := by
  suffices hgen : ∀ (s : Str), (∀ c ∈ s, pySpace c = true → c = ' ') → noTwoSpaces s = true →
      ∀ prev, scanGo ws2Try prev 0 s = s by
    exact hgen x h1 h2 none
  intro s
  induction s with
  | nil => intro _ _ _; rfl
  | cons c cs ih =>
    intro ha hb prev
    have hnone : ws2Try prev (c :: cs) = none := by
      cases cs with
      | nil => rfl
      | cons d rest =>
        simp only [ws2Try]
        rw [if_neg]
        intro hcd
        rw [Bool.and_eq_true] at hcd
        have hc' : c = ' ' := ha c (List.mem_cons_self c _) hcd.1
        have hd' : d = ' ' := ha d (List.mem_cons_of_mem c (List.mem_cons_self d rest)) hcd.2
        subst hc'
        subst hd'
        simp [noTwoSpaces] at hb
    simp only [scanGo, hnone]
    exact congrArg (c :: ·) (ih (fun d hd hds => ha d (List.mem_cons_of_mem c hd) hds)
      (noTwoSpaces_tail hb) (some c))

theorem joinSpace_cons₂ (a b : Str) (l : List Str) :
    joinSpace (a :: b :: l) = a ++ ' ' :: joinSpace (b :: l) := rfl

theorem joinSpace_pySplitGo_eq :
    ∀ (x : Str) (cur : Str),
      (∀ c ∈ x, pySpace c = true → c = ' ') → noTwoSpaces x = true →
      Option.all (fun c => !pySpace c) x.getLast? = true →
      (cur = [] → Option.all (fun c => !pySpace c) x.head? = true) →
      joinSpace (pySplitGo cur x) = cur.reverse ++ x := by
  intro x
  induction x with
  | nil =>
    intro cur _ _ _ _
    simp only [pySplitGo]
    split
    · rename_i he
      rw [List.isEmpty_iff.mp he]
      rfl
    · simp [joinSpace]
  | cons c cs ih =>
    intro cur ha hb hlast hhead
    by_cases hsp : pySpace c = true
    · have hc' : c = ' ' := ha c (List.mem_cons_self c _) hsp
      subst hc'
      cases cur with
      | nil =>
        exfalso
        have hh := hhead rfl
        simp only [List.head?_cons, Option.all_some] at hh
        rw [hsp] at hh
        simp at hh
      | cons e cur' =>
        cases cs with
        | nil =>
          exfalso
          have hl1 : ((' ' : Char) :: ([] : Str)).getLast? = some ' ' := rfl
          rw [hl1, Option.all_some] at hlast
          rw [hsp] at hlast
          simp at hlast
        | cons d rest =>
          have hd : (d == ' ') = false := by
            simp only [noTwoSpaces, Bool.and_eq_true, Bool.or_eq_true] at hb
            rcases hb.1 with h' | h'
            · simp at h'
            · simpa using h'
          have hdns : pySpace d = false := by
            by_contra hcon
            rw [Bool.not_eq_false] at hcon
            have hde := ha d (List.mem_cons_of_mem _ (List.mem_cons_self d rest)) hcon
            rw [hde] at hd
            simp at hd
          have hih := ih ([] : Str)
            (fun v hv hvs => ha v (List.mem_cons_of_mem ' ' hv) hvs)
            (noTwoSpaces_tail hb)
            (by
              rw [List.getLast?_cons_cons] at hlast
              exact hlast)
            (fun _ => by simp [hdns])
          have hstep : pySplitGo (e :: cur') (' ' :: d :: rest)
              = (e :: cur').reverse :: pySplitGo [] (d :: rest) := rfl
          rw [hstep]
          cases hsplit : pySplitGo [] (d :: rest) with
          | nil =>
            exfalso
            rw [hsplit] at hih
            simp only [joinSpace, List.nil_append] at hih
            cases hih
          | cons w ws' =>
            rw [hsplit] at hih
            rw [joinSpace_cons₂, hih]
            simp
    · have hih := ih (c :: cur)
        (fun v hv hvs => ha v (List.mem_cons_of_mem c hv) hvs)
        (noTwoSpaces_tail hb)
        (by
          cases cs with
          | nil => simp
          | cons d rest =>
            rw [List.getLast?_cons_cons] at hlast
            exact hlast)
        (fun hc => by cases hc)
      simp only [pySplitGo, hsp, Bool.false_eq_true, if_false]
      rw [hih]
      simp

theorem joinSpace_pySplit_eq {x : Str}
    (ha : ∀ c ∈ x, pySpace c = true → c = ' ') (hb : noTwoSpaces x = true)
    (hlast : Option.all (fun c => !pySpace c) x.getLast? = true)
    (hhead : Option.all (fun c => !pySpace c) x.head? = true) :
    joinSpace (pySplit x) = x := by
  have := joinSpace_pySplitGo_eq x [] ha hb hlast (fun _ => hhead)
  simpa [pySplit] using this

theorem popStopwords_id {ws : List Str}
    (h : Option.all (fun w => !isTrailingStopword w) ws.getLast? = true) :
    popStopwords ws = ws := by
  unfold popStopwords
  cases hrev : ws.reverse with
  | nil =>
    have hnil : ws = [] := by
      have := congrArg List.reverse hrev
      simpa using this
    subst hnil
    rfl
  | cons w rest =>
    have hw : ws.getLast? = some w := by
      rw [← List.head?_reverse, hrev]
      rfl
    rw [hw, Option.all_some, Bool.not_eq_true'] at h
    have hred : dropStopwordsRev (w :: rest) = w :: rest := by
      simp [dropStopwordsRev, h]
    rw [hred, ← hrev, List.reverse_reverse]

theorem dropTrailingDot_id {x : Str} (h : (x.getLast? == some '.') = false) :
    dropTrailingDot x = x := by
  simp [dropTrailingDot, h]

theorem capFirst_id {x : Str}
    (h : Option.all (fun c => c.toUpper == c) x.head? = true) : capFirst x = x := by
  cases x with
  | nil => rfl
  | cons c cs =>
    simp only [List.head?_cons, Option.all_some, beq_iff_eq] at h
    simp [capFirst, h]

theorem metaSub1_id {x : Str} (h : (metaMatch1 x).isNone = true) : metaSub1 x = x := by
  simp [metaSub1, Option.isNone_iff_eq_none.mp h]

theorem metaSub2_id {x : Str} (h : (metaMatch2 x).isNone = true) : metaSub2 x = x := by
  simp [metaSub2, Option.isNone_iff_eq_none.mp h]

theorem metaSub3_id {x : Str} (h : (metaMatch3 x).isNone = true) : metaSub3 x = x := by
  simp [metaSub3, Option.isNone_iff_eq_none.mp h]

theorem stripLeadPrep_id {x : Str} (h : (prepMatch x).isNone = true) : stripLeadPrep x = x := by
  simp [stripLeadPrep, Option.isNone_iff_eq_none.mp h]

theorem fullySanitized_fixed {x : Str} {banned : List Str}
    (h : fullySanitized x banned = true) :
    compliantSpec x banned = true ∧ sanitize_and_finalize x banned = x := by
  simp only [fullySanitized, Bool.and_eq_true] at h
  obtain ⟨⟨⟨⟨⟨⟨⟨⟨⟨⟨⟨⟨hall, hnts⟩, hheadp⟩, hlastp⟩, hleak⟩, hban⟩, hm1⟩, hm2⟩, hm3⟩,
    hprep⟩, hlen⟩, hstop⟩, hcap⟩ := h
  rw [List.all_eq_true] at hall
  rw [List.all_eq_true] at hleak
  rw [List.all_eq_true] at hban
  have hsplit4 : ∀ c ∈ x, (c == '&') = false ∧ (c == apos) = false ∧
      forbiddenChar c = false ∧ (pySpace c = true → c = ' ') := by
    intro c hc
    have h4 := hall c hc
    simp only [Bool.and_eq_true] at h4
    obtain ⟨⟨⟨ha, hb⟩, hcf⟩, hd⟩ := h4
    refine ⟨?_, ?_, ?_, ?_⟩
    · exact beq_eq_false_iff_ne.mpr (bne_iff_ne.mp ha)
    · exact beq_eq_false_iff_ne.mpr (bne_iff_ne.mp hb)
    · simpa using hcf
    · intro hp
      rw [Bool.or_eq_true] at hd
      rcases hd with h' | h'
      · rw [hp] at h'
        exact absurd h' (by simp)
      · exact eq_of_beq h'
  have hamp : ∀ c ∈ x, (c == '&') = false := fun c hc => (hsplit4 c hc).1
  have hapos : ∀ c ∈ x, (c == apos) = false := fun c hc => (hsplit4 c hc).2.1
  have hforb : ∀ c ∈ x, forbiddenChar c = false := fun c hc => (hsplit4 c hc).2.2.1
  have hws : ∀ c ∈ x, pySpace c = true → c = ' ' := fun c hc => (hsplit4 c hc).2.2.2
  have haposT : ∀ c ∈ x, (c != apos) = true := fun c hc => by
    simp [bne, hapos c hc]
  have hheadns : Option.all (fun c => !pySpace c) x.head? = true := by
    cases x with
    | nil => rfl
    | cons a as =>
      simp only [List.head?_cons, Option.all_some]
      by_cases hps : pySpace a = true
      · exfalso
        have hsp := hws a (List.mem_cons_self a as) hps
        simp only [List.head?_cons, Option.all_some] at hheadp
        rw [hsp] at hheadp
        exact absurd hheadp (by decide)
      · simp [hps]
  have hlastpd : ∀ c, x.getLast? = some c → punctDotChar c = false := by
    intro c hg
    rw [hg, Option.all_some, Bool.not_eq_true'] at hlastp
    exact hlastp
  have hlastmem : ∀ c, x.getLast? = some c → c ∈ x := by
    intro c hg
    rw [← List.head?_reverse] at hg
    have : c ∈ x.reverse := List.mem_of_mem_head? hg
    exact List.mem_reverse.mp this
  have hlastns : Option.all (fun c => !pySpace c) x.getLast? = true := by
    cases hg : x.getLast? with
    | none => rfl
    | some c =>
      simp only [Option.all_some]
      by_cases hps : pySpace c = true
      · exfalso
        have hsp := hws c (hlastmem c hg) hps
        have hpd := hlastpd c hg
        rw [hsp] at hpd
        exact absurd hpd (by decide)
      · simp [hps]
  have hlastpc : Option.all (fun c => !punctChar c) x.getLast? = true := by
    cases hg : x.getLast? with
    | none => rfl
    | some c =>
      have hpd := hlastpd c hg
      simp only [punctDotChar, Bool.or_eq_false_iff] at hpd
      simp [hpd.1]
  have hlastdot : (x.getLast? == some '.') = false := by
    cases hg : x.getLast? with
    | none => rfl
    | some c =>
      have hpd := hlastpd c hg
      rw [beq_eq_false_iff_ne]
      intro he
      injection he with he'
      rw [he'] at hpd
      exact absurd hpd (by decide)
  have hlen' : x.length ≤ 160 := of_decide_eq_true hlen
  have h0 : html_unescape x = x := scanSub_id (scanHasGo_unesc_false hamp none)
  have h1 : leakage_phrases.foldl (fun d p => subLitCI p d) x = x :=
    foldl_subLitCI_id leakage_phrases
      (fun p hp => by simpa using hleak p hp)
  have hsubws : subWsAll x = x := subWsAll_id hws hnts
  have hstrip : pyStrip x = x := stripBy_id hheadns hlastns
  have h3 : scanSub possTry x = x := scanSub_id (scanHasGo_poss_false hapos none)
  have h4 : x.filter (fun c => c != apos) = x := List.filter_eq_self.mpr haposT
  have h6 : (sortLenDesc banned).foldl (fun d n => subWordCI n d) x = x :=
    foldl_subWordCI_id (sortLenDesc banned)
      (fun b hb => by simpa using hban b (mem_sortLenDesc.mp hb))
  have h7 : subForbidden x = x := subForbidden_id hforb
  have h8 : DOC_META_SUBS.foldl (fun d f => pyStrip (f d)) x = x := by
    simp only [DOC_META_SUBS, List.foldl_cons, List.foldl_nil, metaSub1_id hm1, hstrip,
      metaSub2_id hm2, metaSub3_id hm3]
  have h9 : stripLeadPrep x = x := stripLeadPrep_id hprep
  have hws2 : subWs2 x = x := subWs2_id hws hnts
  have h10 : stripBy punctChar x = x := stripBy_id hheadp hlastpc
  have hclean : sanitizeClean x banned = x := by
    simp only [sanitizeClean]
    rw [h0, h1, hsubws, hstrip, h3, h4, hsubws, hstrip, h6, h7, h8, h9, hws2, h10]
  have hfin : sanitizeFinish x = x := by
    simp only [sanitizeFinish]
    rw [truncate161_of_le hlen', rstripBy_id hlastp, popStopwords_id hstop,
      joinSpace_pySplit_eq hws hnts hlastns hheadns, dropTrailingDot_id hlastdot,
      capFirst_id hcap]
  constructor
  · simp only [compliantSpec, Bool.and_eq_true]
    refine ⟨⟨⟨⟨List.all_eq_true.mpr hban, List.all_eq_true.mpr ?_⟩, hlen⟩, hstop⟩, ?_⟩
    · intro c hc
      simp [hforb c hc]
    · simp [hlastdot]
  · have hif : sanitize_and_finalize x banned = if x.isEmpty then [] else x := by
      simp only [sanitize_and_finalize, hclean, hfin]
    rw [hif]
    cases x with
    | nil => rfl
    | cons a as => rfl

/-- Claim C3 (corrected).  The claim's notion of compliance (no banned
literals, no forbidden punctuation, length at most 160, no trailing stop-word
and no trailing period - `compliantSpec`) is too weak for idempotence:
`claim_C3_counterexample` gives a compliant string on which applying
`sanitize_and_finalize` twice differs from applying it once, because the
self-reference patterns can strip a lead-in that exposes a second one.  The
amended statement strengthens compliance to the full syntactic invariant
`fullySanitized` that the cleaning pipeline actually establishes; every such
string satisfies the claim's compliance predicate, is a fixed point of
`sanitize_and_finalize`, and hence `sanitize_and_finalize` is idempotent on
it. -/
theorem claim_C3 (x : Str) (banned : List Str) (h : fullySanitized x banned = true) :
    compliantSpec x banned = true ∧
    sanitize_and_finalize x banned = x ∧
    sanitize_and_finalize (sanitize_and_finalize x banned) banned
      = sanitize_and_finalize x banned := by
  obtain ⟨h1, h2⟩ := fullySanitized_fixed h
  exact ⟨h1, h2, by rw [h2]; exact h2⟩

/-- Witness for C3 at a concrete fully sanitized string. -/
theorem claim_C3_witness :
    fullySanitized ("Configure the network stack now".toList) [] = true ∧
    (compliantSpec ("Configure the network stack now".toList) [] = true ∧
     sanitize_and_finalize ("Configure the network stack now".toList) []
       = ("Configure the network stack now".toList) ∧
     sanitize_and_finalize
         (sanitize_and_finalize ("Configure the network stack now".toList) []) []
       = sanitize_and_finalize ("Configure the network stack now".toList) []) :=
  ⟨by decide, claim_C3 ("Configure the network stack now".toList) [] (by decide)⟩

/-! Maximal word-run machinery for claim C7.  `wrunsGo cur s` computes the
maximal runs of `\w` characters of `cur.reverse ++ s` (with `cur` the
reversed partial run in progress), `wrEmit`/`wrState` the emitted complete
runs and the pending partial run, and `wruns s` the runs of `s`.  The
`ScanWordOK` predicate captures, for a matcher of the substitution engine,
that every replacement can only delete or copy complete runs: the runs of the
output of `scanSub` are then among the runs of the input. -/

theorem ule_iff {a : UInt32} {n : Nat} (hn : n < 4294967296) :
    (UInt32.ofNat n ≤ a) ↔ n ≤ a.toNat := by
  rw [UInt32.le_def, BitVec.le_def]
  constructor
  · intro h
    calc n = (UInt32.ofNat n).toBitVec.toNat := by
              rw [UInt32.toBitVec_eq_of_lt hn]
         _ ≤ _ := h
  · intro h
    show (UInt32.ofNat n).toBitVec.toNat ≤ _
    rw [UInt32.toBitVec_eq_of_lt hn]
    exact h

theorem ule_iff' {a : UInt32} {n : Nat} (hn : n < 4294967296) :
    (a ≤ UInt32.ofNat n) ↔ a.toNat ≤ n := by
  rw [UInt32.le_def, BitVec.le_def]
  constructor
  · intro h
    calc a.toBitVec.toNat ≤ (UInt32.ofNat n).toBitVec.toNat := h
         _ = n := by rw [UInt32.toBitVec_eq_of_lt hn]
  · intro h
    show _ ≤ (UInt32.ofNat n).toBitVec.toNat
    rw [UInt32.toBitVec_eq_of_lt hn]
    exact h

theorem wordChar_iff (c : Char) : wordChar c = true ↔
    (65 ≤ c.toNat ∧ c.toNat ≤ 90) ∨ (97 ≤ c.toNat ∧ c.toNat ≤ 122) ∨
    (48 ≤ c.toNat ∧ c.toNat ≤ 57) ∨ c.toNat = 95 := by
  have h65 : ((65 : UInt32) ≤ c.val) ↔ 65 ≤ c.toNat := ule_iff (by norm_num)
  have h90 : (c.val ≤ (90 : UInt32)) ↔ c.toNat ≤ 90 := ule_iff' (by norm_num)
  have h97 : ((97 : UInt32) ≤ c.val) ↔ 97 ≤ c.toNat := ule_iff (by norm_num)
  have h122 : (c.val ≤ (122 : UInt32)) ↔ c.toNat ≤ 122 := ule_iff' (by norm_num)
  have h48 : ((48 : UInt32) ≤ c.val) ↔ 48 ≤ c.toNat := ule_iff (by norm_num)
  have h57 : (c.val ≤ (57 : UInt32)) ↔ c.toNat ≤ 57 := ule_iff' (by norm_num)
  have hund : (c == '_') = true ↔ c.toNat = 95 := by
    rw [beq_iff_eq]
    constructor
    · intro h
      rw [h]
      rfl
    · intro h
      apply Char.ext
      apply UInt32.toNat.inj
      exact h
  unfold wordChar Char.isAlphanum Char.isAlpha Char.isUpper Char.isLower Char.isDigit
  rw [Bool.or_eq_true, Bool.or_eq_true, Bool.or_eq_true, hund]
  simp only [Bool.and_eq_true, decide_eq_true_eq, ge_iff_le, h65, h90, h97, h122, h48, h57]
  constructor <;> intro h <;> omega

theorem toNat_toLower (c : Char) :
    (Char.toLower c).toNat = if 65 ≤ c.toNat ∧ c.toNat ≤ 90 then c.toNat + 32 else c.toNat := by
  unfold Char.toLower
  split
  · rename_i h
    rw [if_pos ⟨h.1, h.2⟩]
    unfold Char.ofNat
    rw [dif_pos (Or.inl (by omega))]
    rfl
  · rename_i h
    rw [if_neg]
    intro hc
    exact h ⟨hc.1, hc.2⟩

theorem wordChar_toLower (c : Char) : wordChar (Char.toLower c) = wordChar c := by
  have h := toNat_toLower c
  by_cases hc : 65 ≤ c.toNat ∧ c.toNat ≤ 90
  · rw [if_pos hc] at h
    have h1 : wordChar c = true := (wordChar_iff c).mpr (Or.inl hc)
    have h2 : wordChar c.toLower = true := (wordChar_iff _).mpr (Or.inr (Or.inl (by omega)))
    rw [h1, h2]
  · rw [if_neg hc] at h
    cases hw : wordChar c with
    | false =>
      cases hw2 : wordChar c.toLower with
      | false => rfl
      | true =>
        exfalso
        have h3 := (wordChar_iff _).mp hw2
        rw [h] at h3
        have h4 := (wordChar_iff c).mpr h3
        rw [hw] at h4
        cases h4
    | true =>
      have h3 := (wordChar_iff c).mp hw
      exact (wordChar_iff _).mpr (by rw [h]; exact h3)

theorem wordChar_of_toLower_eq {c d : Char} (h : c.toLower = d.toLower) :
    wordChar c = wordChar d := by
  rw [← wordChar_toLower c, ← wordChar_toLower d, h]

def wrEmit (cur : Str) : Str → List Str
  | [] => []
  | c :: cs => if wordChar c then wrEmit (c :: cur) cs
               else if cur.isEmpty then wrEmit [] cs else cur.reverse :: wrEmit [] cs

def wrState (cur : Str) : Str → Str
  | [] => cur
  | c :: cs => if wordChar c then wrState (c :: cur) cs else wrState [] cs

def wrunsGo (cur : Str) : Str → List Str
  | [] => if cur.isEmpty then [] else [cur.reverse]
  | c :: cs => if wordChar c then wrunsGo (c :: cur) cs
               else if cur.isEmpty then wrunsGo [] cs else cur.reverse :: wrunsGo [] cs

def wruns (s : Str) : List Str := wrunsGo [] s

def lastO (p : Option Char) (a : Str) : Option Char :=
  match a.getLast? with
  | some c => some c
  | none => p

theorem wrunsGo_append :
    ∀ (a : Str) (cur b : Str),
      wrunsGo cur (a ++ b) = wrEmit cur a ++ wrunsGo (wrState cur a) b := by
  intro a
  induction a with
  | nil => intro cur b; rfl
  | cons c a' ih =>
    intro cur b
    by_cases hc : wordChar c = true
    · simp only [List.cons_append, wrunsGo, wrEmit, wrState, hc, if_true]
      exact ih (c :: cur) b
    · rw [Bool.not_eq_true] at hc
      by_cases hcur : cur.isEmpty = true
      · simp only [List.cons_append, wrunsGo, wrEmit, wrState, hc, Bool.false_eq_true, if_false,
          hcur, if_true]
        exact ih [] b
      · rw [Bool.not_eq_true] at hcur
        simp only [List.cons_append, wrunsGo, wrEmit, wrState, hc, Bool.false_eq_true, if_false,
          hcur, List.cons_append, List.append_eq]
        rw [ih [] b]

theorem wrEmit_append :
    ∀ (a : Str) (cur b : Str),
      wrEmit cur (a ++ b) = wrEmit cur a ++ wrEmit (wrState cur a) b := by
  intro a
  induction a with
  | nil => intro cur b; rfl
  | cons c a' ih =>
    intro cur b
    by_cases hc : wordChar c = true
    · simp only [List.cons_append, wrEmit, wrState, hc, if_true]
      exact ih (c :: cur) b
    · rw [Bool.not_eq_true] at hc
      by_cases hcur : cur.isEmpty = true
      · simp only [List.cons_append, wrEmit, wrState, hc, Bool.false_eq_true, if_false,
          hcur, if_true]
        exact ih [] b
      · rw [Bool.not_eq_true] at hcur
        simp only [List.cons_append, wrEmit, wrState, hc, Bool.false_eq_true, if_false,
          hcur, List.cons_append, List.append_eq]
        rw [ih [] b]

theorem wrState_append :
    ∀ (a : Str) (cur b : Str), wrState cur (a ++ b) = wrState (wrState cur a) b := by
  intro a
  induction a with
  | nil => intro cur b; rfl
  | cons c a' ih =>
    intro cur b
    by_cases hc : wordChar c = true
    · simp only [List.cons_append, wrState, hc, if_true]
      exact ih (c :: cur) b
    · rw [Bool.not_eq_true] at hc
      simp only [List.cons_append, wrState, hc, Bool.false_eq_true, if_false]
      exact ih [] b

theorem wrunsGo_eq_emit (cur a : Str) :
    wrunsGo cur a
      = wrEmit cur a
        ++ (if (wrState cur a).isEmpty then [] else [(wrState cur a).reverse]) := by
  have h := wrunsGo_append a cur []
  rw [List.append_nil] at h
  rw [h]
  rfl

theorem wrEmit_word {a : Str} (h : ∀ c ∈ a, wordChar c = true) :
    ∀ cur, wrEmit cur a = [] := by
  induction a with
  | nil => intro _; rfl
  | cons c a' ih =>
    intro cur
    simp only [wrEmit, h c (List.mem_cons_self c a'), if_true]
    exact ih (fun d hd => h d (List.mem_cons_of_mem c hd)) (c :: cur)

theorem wrState_word {a : Str} (h : ∀ c ∈ a, wordChar c = true) :
    ∀ cur, wrState cur a = a.reverse ++ cur := by
  induction a with
  | nil => intro _; rfl
  | cons c a' ih =>
    intro cur
    simp only [wrState, h c (List.mem_cons_self c a'), if_true]
    rw [ih (fun d hd => h d (List.mem_cons_of_mem c hd)) (c :: cur)]
    simp

theorem wrEmit_nonword {a : Str} (hne : a ≠ []) (h : ∀ c ∈ a, wordChar c = false) :
    ∀ cur, wrEmit cur a = if cur.isEmpty then [] else [cur.reverse] := by
  induction a with
  | nil => cases hne rfl
  | cons c a' ih =>
    intro cur
    have hc := h c (List.mem_cons_self c a')
    have htail : ∀ d ∈ a', wordChar d = false := fun d hd => h d (List.mem_cons_of_mem c hd)
    have hnil : ∀ cur2 : Str, cur2.isEmpty = true → wrEmit cur2 a' = [] := by
      intro cur2 hcur2
      cases a' with
      | nil => rfl
      | cons e a'' =>
        have := ih (by simp) htail cur2
        rw [this, if_pos hcur2]
    by_cases hcur : cur.isEmpty = true
    · simp only [wrEmit, hc, Bool.false_eq_true, if_false, hcur, if_true]
      exact hnil [] rfl
    · rw [Bool.not_eq_true] at hcur
      simp only [wrEmit, hc, Bool.false_eq_true, if_false, hcur]
      rw [hnil [] rfl]

theorem wrState_nonword {a : Str} (hne : a ≠ []) (h : ∀ c ∈ a, wordChar c = false) :
    ∀ cur, wrState cur a = [] := by
  induction a with
  | nil => cases hne rfl
  | cons c a' ih =>
    intro cur
    have hc := h c (List.mem_cons_self c a')
    have htail : ∀ d ∈ a', wordChar d = false := fun d hd => h d (List.mem_cons_of_mem c hd)
    simp only [wrState, hc, Bool.false_eq_true, if_false]
    cases a' with
    | nil => rfl
    | cons e a'' => exact ih (by simp) htail []

theorem wrState_mem :
    ∀ (a cur : Str), (∀ c ∈ cur, wordChar c = true) →
      ∀ d ∈ wrState cur a, wordChar d = true := by
  intro a
  induction a with
  | nil => intro cur hcur d hd; exact hcur d hd
  | cons c a' ih =>
    intro cur hcur d hd
    by_cases hc : wordChar c = true
    · simp only [wrState, hc, if_true] at hd
      refine ih (c :: cur) ?_ d hd
      intro e he
      rcases List.mem_cons.mp he with he | he
      · rw [he]; exact hc
      · exact hcur e he
    · rw [Bool.not_eq_true] at hc
      simp only [wrState, hc, Bool.false_eq_true, if_false] at hd
      exact ih [] (by intro e he; cases he) d hd

theorem wrunsGo_run {m rest : Str} (hm : ∀ c ∈ m, wordChar c = true) (hne : m ≠ [])
    (hrest : rest = [] ∨ ∃ d z, rest = d :: z ∧ wordChar d = false) :
    wrunsGo [] (m ++ rest) = m :: wrunsGo [] rest := by
  rw [wrunsGo_append, wrEmit_word hm, wrState_word hm, List.append_nil, List.nil_append]
  rcases hrest with h | ⟨d, z, hdz, hd⟩
  · subst h
    simp only [wrunsGo]
    rw [if_neg (by simpa using hne)]
    simp
  · subst hdz
    simp only [wrunsGo, hd, Bool.false_eq_true, if_false]
    rw [if_neg (by simpa using hne)]
    simp

theorem mem_wrunsGo_weaken {r : Str} {st z : Str}
    (hz : z = [] ∨ ∃ d z', z = d :: z' ∧ wordChar d = false)
    (h : r ∈ wrunsGo [] z) : r ∈ wrunsGo st z := by
  rcases hz with h0 | ⟨d, z', hdz, hd⟩
  · subst h0
    simp [wrunsGo] at h
  · subst hdz
    simp only [wrunsGo, hd, Bool.false_eq_true, if_false, List.isEmpty_nil, if_true] at h
    simp only [wrunsGo, hd, Bool.false_eq_true, if_false]
    by_cases hst : st.isEmpty = true
    · rw [if_pos hst]
      exact h
    · rw [Bool.not_eq_true] at hst
      rw [hst]
      exact List.mem_cons_of_mem _ h

theorem lastO_nil (p : Option Char) : lastO p [] = p := rfl

theorem lastO_cons (p : Option Char) (x : Char) (z : Str) :
    lastO p (x :: z) = lastO (some x) z := by
  cases z with
  | nil => rfl
  | cons y z' =>
    simp only [lastO]
    cases hz : (y :: z').getLast? with
    | none => simp at hz
    | some w => simp only [List.getLast?_cons_cons, hz]

theorem scanGo_skip (try1 : Option Char → Str → Option (Str × Nat)) :
    ∀ (a : Str) (prev : Option Char) (rest : Str),
      scanGo try1 prev a.length (a ++ rest) = scanGo try1 (lastO prev a) 0 rest := by
  intro a
  induction a with
  | nil => intro prev rest; rfl
  | cons x a' ih =>
    intro prev rest
    show scanGo try1 prev (a'.length + 1) (x :: (a' ++ rest)) = _
    rw [lastO_cons]
    exact ih (some x) rest

def ScanWordOK (try1 : Option Char → Str → Option (Str × Nat)) : Prop :=
  ∀ prev t rep n cur, try1 prev t = some (rep, n) →
    (∀ c ∈ cur, wordChar c = true) → (isWordO prev = false → cur = []) →
    1 ≤ n ∧ n ≤ t.length ∧
    (∀ r ∈ wrEmit cur rep, r ∈ wrEmit cur (t.take n)) ∧
    (wrState cur rep = wrState cur (t.take n) ∨
      (wrState cur rep = [] ∧
        (t.drop n = [] ∨ ∃ d z, t.drop n = d :: z ∧ wordChar d = false))) ∧
    (isWordO (lastO prev (t.take n)) = false → wrState cur rep = [])

theorem scanGo_runs {try1 : Option Char → Str → Option (Str × Nat)} (hok : ScanWordOK try1) :
    ∀ (N : Nat) (s : Str), s.length ≤ N → ∀ (prev : Option Char) (cur : Str),
      (∀ c ∈ cur, wordChar c = true) → (isWordO prev = false → cur = []) →
      ∀ r, r ∈ wrunsGo cur (scanGo try1 prev 0 s) → r ∈ wrunsGo cur s := by
  intro N
  induction N with
  | zero =>
    intro s hs prev cur _ _ r hr
    have hnil : s = [] := List.eq_nil_of_length_eq_zero (Nat.le_zero.mp hs)
    subst hnil
    exact hr
  | succ N ih =>
    intro s hs prev cur hcur hlink r hr
    cases s with
    | nil => exact hr
    | cons c cs =>
      have hcs : cs.length ≤ N := by
        simp only [List.length_cons] at hs
        omega
      cases hfire : try1 prev (c :: cs) with
      | none =>
        simp only [scanGo, hfire] at hr
        by_cases hc : wordChar c = true
        · simp only [wrunsGo, hc, if_true] at hr ⊢
          refine ih cs hcs (some c) (c :: cur) ?_ ?_ r hr
          · intro e he
            rcases List.mem_cons.mp he with he | he
            · rw [he]; exact hc
            · exact hcur e he
          · intro habs
            simp only [isWordO, hc] at habs
            exact absurd habs (by decide)
        · rw [Bool.not_eq_true] at hc
          by_cases hce : cur.isEmpty = true
          · have : cur = [] := List.isEmpty_iff.mp hce
            subst this
            simp only [wrunsGo, hc, Bool.false_eq_true, if_false, List.isEmpty_nil,
              if_true] at hr ⊢
            exact ih cs hcs (some c) [] (by intro e he; cases he) (fun _ => rfl) r hr
          · rw [Bool.not_eq_true] at hce
            simp only [wrunsGo, hc, Bool.false_eq_true, if_false, hce] at hr ⊢
            rcases List.mem_cons.mp hr with hr | hr
            · exact List.mem_cons.mpr (Or.inl hr)
            · exact List.mem_cons.mpr (Or.inr
                (ih cs hcs (some c) [] (by intro e he; cases he) (fun _ => rfl) r hr))
      | some val =>
        obtain ⟨rep, n⟩ := val
        obtain ⟨h1, h2, hE, hS, hL⟩ := hok prev (c :: cs) rep n cur hfire hcur hlink
        simp only [scanGo, hfire] at hr
        have hlen : (cs.take (n - 1)).length = n - 1 := by
          rw [List.length_take]
          simp only [List.length_cons] at h2
          omega
        have hskip : scanGo try1 (some c) (n - 1) cs
            = scanGo try1 (lastO (some c) (cs.take (n - 1))) 0 (cs.drop (n - 1)) := by
          have h := scanGo_skip try1 (cs.take (n - 1)) (some c) (cs.drop (n - 1))
          rw [hlen, List.take_append_drop] at h
          exact h
        rw [hskip] at hr
        have hmeq : (c :: cs).take n = c :: cs.take (n - 1) := by
          cases n with
          | zero => omega
          | succ n' => simp [List.take_succ_cons]
        have hdeq : (c :: cs).drop n = cs.drop (n - 1) := by
          cases n with
          | zero => omega
          | succ n' => simp [List.drop_succ_cons]
        have hprev2 : lastO (some c) (cs.take (n - 1)) = lastO prev ((c :: cs).take n) := by
          rw [hmeq, lastO_cons]
        have hinput : wrunsGo cur (c :: cs)
            = wrEmit cur ((c :: cs).take n)
              ++ wrunsGo (wrState cur ((c :: cs).take n)) ((c :: cs).drop n) := by
          conv_lhs => rw [← List.take_append_drop n (c :: cs)]
          exact wrunsGo_append _ _ _
        rw [wrunsGo_append] at hr
        rw [hinput]
        rcases List.mem_append.mp hr with hrE | hrG
        · exact List.mem_append_left _ (hE r hrE)
        · rw [← hdeq] at hrG
          have hdlen : ((c :: cs).length - n) ≤ N := by
            simp only [List.length_cons]
            omega
          have hih := ih ((c :: cs).drop n)
            (by rw [List.length_drop]; exact hdlen)
            (lastO (some c) (cs.take (n - 1))) (wrState cur rep)
            (wrState_mem rep cur hcur)
            (fun hw => hL (by rw [← hprev2]; exact hw))
            r hrG
          rcases hS with hSeq | ⟨hSnil, hrest⟩
          · rw [hSeq] at hih
            exact List.mem_append_right _ hih
          · rw [hSnil] at hih
            exact List.mem_append_right _ (mem_wrunsGo_weaken hrest hih)

theorem pySpace_not_word {c : Char} (h : pySpace c = true) : wordChar c = false := by
  simp only [pySpace, Bool.or_eq_true, beq_iff_eq] at h
  rcases h with ((((h | h) | h) | h) | h) | h <;> subst h <;> decide

theorem ciPref_iff : ∀ (p t : Str), ciPref p t = true ↔
    p.length ≤ t.length ∧ lowerStr (t.take p.length) = lowerStr p := by
  intro p
  induction p with
  | nil =>
    intro t
    simp [ciPref, lowerStr]
  | cons a p' ih =>
    intro t
    cases t with
    | nil =>
      simp [ciPref, lowerStr]
    | cons b t' =>
      simp only [ciPref, Bool.and_eq_true, beq_iff_eq, List.length_cons,
        List.take_succ_cons, lowerStr, List.map_cons, List.cons.injEq,
        Nat.succ_le_succ_iff]
      constructor
      · rintro ⟨hab, h⟩
        obtain ⟨h1, h2⟩ := (ih t').mp h
        exact ⟨h1, hab.symm, h2⟩
      · rintro ⟨h1, hba, h2⟩
        exact ⟨hba.symm, (ih t').mpr ⟨h1, h2⟩⟩

theorem ciPref_decomp {p t : Str} (h : ciPref p t = true) :
    t = t.take p.length ++ t.drop p.length ∧ (t.take p.length).length = p.length ∧
      lowerStr (t.take p.length) = lowerStr p := by
  obtain ⟨hlen, hlow⟩ := (ciPref_iff p t).mp h
  refine ⟨(List.take_append_drop _ _).symm, ?_, hlow⟩
  rw [List.length_take]
  omega

theorem word_all_of_lower_eq : ∀ {m k : Str}, lowerStr m = lowerStr k →
    (∀ c ∈ k, wordChar c = true) → ∀ c ∈ m, wordChar c = true := by
  intro m
  induction m with
  | nil => intro k _ _ c hc; cases hc
  | cons a m' ih =>
    intro k hl hk c hc
    cases k with
    | nil => simp [lowerStr] at hl
    | cons b k' =>
      simp only [lowerStr, List.map_cons, List.cons.injEq] at hl
      rcases List.mem_cons.mp hc with hc | hc
      · subst hc
        rw [wordChar_of_toLower_eq hl.1]
        exact hk b (List.mem_cons_self b k')
      · exact ih hl.2 (fun d hd => hk d (List.mem_cons_of_mem b hd)) c hc

theorem wrState_getLast_nonword :
    ∀ (a : Str) {d : Char}, a.getLast? = some d → wordChar d = false →
      ∀ cur, wrState cur a = [] := by
  intro a
  induction a with
  | nil => intro d hd _ _; cases hd
  | cons c a' ih =>
    intro d hd hw cur
    cases a' with
    | nil =>
      have : c = d := by
        have : (some c : Option Char) = some d := hd
        injection this
      subst this
      simp only [wrState, hw, Bool.false_eq_true, if_false]
    | cons e a'' =>
      rw [List.getLast?_cons_cons] at hd
      by_cases hc : wordChar c = true
      · simp only [wrState, hc, if_true]
        exact ih hd hw (c :: cur)
      · rw [Bool.not_eq_true] at hc
        simp only [wrState, hc, Bool.false_eq_true, if_false]
        exact ih hd hw []

theorem get?_zero_head? (l : Str) : l.get? 0 = l.head? := by
  cases l <;> rfl

theorem getLast?_get? (l : Str) (h : l ≠ []) : l.get? (l.length - 1) = l.getLast? := by
  induction l with
  | nil => cases h rfl
  | cons c l' ih =>
    cases l' with
    | nil => rfl
    | cons e l'' =>
      rw [List.getLast?_cons_cons]
      have hlen : (c :: e :: l'').length - 1 = (e :: l'').length - 1 + 1 := by
        simp
      rw [hlen]
      show (e :: l'').get? ((e :: l'').length - 1) = _
      exact ih (by simp)

theorem wbTry_ok {k : Str} (hne : k ≠ []) (hhead : wordChar (k.headD ' ') = true) :
    ScanWordOK (wbTry k) := by
  intro prev t rep n cur hfire hcur hlink
  simp only [wbTry] at hfire
  rw [if_neg (by simpa using hne)] at hfire
  split at hfire
  case isFalse => exact absurd hfire (by simp)
  rename_i hcond
  rw [Bool.and_eq_true, Bool.and_eq_true] at hcond
  obtain ⟨⟨hci, hb1⟩, hb2⟩ := hcond
  have hinj : ([] : Str) = rep ∧ k.length = n := by
    have := hfire
    simp only [Option.some.injEq, Prod.mk.injEq] at this
    exact this
  obtain ⟨hrep, hn⟩ := hinj
  subst hrep
  subst hn
  obtain ⟨hlen, hmlow⟩ := (ciPref_iff k t).mp hci
  have hmlen : (t.take k.length).length = k.length := by
    rw [List.length_take]
    omega
  obtain ⟨a, k', hk⟩ := List.exists_cons_of_ne_nil hne
  have hwa : wordChar a = true := by
    rw [hk] at hhead
    exact hhead
  have hm_ne : t.take k.length ≠ [] := by
    intro habs
    rw [habs] at hmlen
    rw [hk] at hmlen
    simp at hmlen
  obtain ⟨b, m', hbm⟩ := List.exists_cons_of_ne_nil hm_ne
  have hthead : t.head? = some b := by
    cases t with
    | nil =>
      rw [List.take_nil] at hbm
      cases hbm
    | cons x xs =>
      have h2 : (x :: xs).take k.length = b :: m' := hbm
      rw [hk] at h2
      simp only [List.length_cons, List.take_succ_cons, List.cons.injEq] at h2
      rw [h2.1]
      rfl
  have hwb : wordChar b = true := by
    have hl2 : lowerStr (b :: m') = lowerStr (a :: k') := by
      rw [← hbm, ← hk]
      exact hmlow
    simp only [lowerStr, List.map_cons, List.cons.injEq] at hl2
    rw [wordChar_of_toLower_eq hl2.1]
    exact hwa
  have hprev : isWordO prev = false := by
    rw [hthead] at hb1
    have h1 : isWordO (some b) = true := by simp [isWordO, hwb]
    rw [h1] at hb1
    cases hip : isWordO prev with
    | false => rfl
    | true =>
      rw [hip] at hb1
      exact absurd hb1 (by decide)
  have hcur0 : cur = [] := hlink hprev
  subst hcur0
  refine ⟨by rw [hk]; simp, hlen, ?_, ?_, fun _ => rfl⟩
  · intro r hr
    cases hr
  · cases hlast : (t.take k.length).getLast? with
    | none =>
      exfalso
      rw [List.getLast?_eq_none_iff] at hlast
      exact hm_ne hlast
    | some d =>
      by_cases hwd : wordChar d = true
      · refine Or.inr ⟨rfl, ?_⟩
        have hg1 : t.get? (k.length - 1) = some d := by
          have := getLast?_get? (t.take k.length) hm_ne
          rw [hmlen] at this
          rw [← this] at hlast
          rw [← hlast]
          rw [List.get?_take]
          rw [hk]
          simp only [List.length_cons]
          omega
        have hd1 : isWordO (some d) = true := by simp [isWordO, hwd]
        rw [hg1, hd1] at hb2
        have hg2 : isWordO (t.get? k.length) = false := by
          cases hio : isWordO (t.get? k.length) with
          | false => rfl
          | true =>
            rw [hio] at hb2
            exact absurd hb2 (by decide)
        have hg3 : t.get? k.length = (t.drop k.length).head? := by
          rw [← get?_zero_head?, List.get?_drop]
          norm_num
        cases hdrop : t.drop k.length with
        | nil => exact Or.inl rfl
        | cons d' z =>
          refine Or.inr ⟨d', z, rfl, ?_⟩
          rw [hg3, hdrop] at hg2
          simpa [isWordO] using hg2
      · rw [Bool.not_eq_true] at hwd
        left
        rw [wrState_getLast_nonword (t.take k.length) hlast hwd []]
        rfl

theorem dropWhile_shape (p : Char → Bool) (l : Str) :
    l.dropWhile p = [] ∨ ∃ d z, l.dropWhile p = d :: z ∧ p d = false := by
  induction l with
  | nil => exact Or.inl rfl
  | cons c l' ih =>
    by_cases hc : p c = true
    · rw [List.dropWhile_cons_of_pos hc]
      exact ih
    · rw [Bool.not_eq_true] at hc
      rw [List.dropWhile_cons_of_neg (by rw [hc]; exact Bool.false_ne_true)]
      exact Or.inr ⟨c, l', rfl, hc⟩

theorem scanOK_clauses_nonrep {rep m : Str} (cur : Str)
    (hrep_ne : rep ≠ []) (hrep : ∀ c ∈ rep, wordChar c = false)
    (hmh : ∃ c m', m = c :: m' ∧ wordChar c = false)
    (hml : ∀ d, m.getLast? = some d → wordChar d = false) :
    (∀ r ∈ wrEmit cur rep, r ∈ wrEmit cur m) ∧ wrState cur rep = wrState cur m := by
  obtain ⟨c, m', hm, hc⟩ := hmh
  constructor
  · intro r hr
    rw [wrEmit_nonword hrep_ne hrep cur] at hr
    subst hm
    by_cases hce : cur.isEmpty = true
    · rw [if_pos hce] at hr
      cases hr
    · rw [if_neg hce] at hr
      have hr' : r = cur.reverse := List.mem_singleton.mp hr
      rw [Bool.not_eq_true] at hce
      simp only [wrEmit, hc, Bool.false_eq_true, if_false, hce]
      rw [hr']
      exact List.mem_cons_self _ _
  · rw [wrState_nonword hrep_ne hrep cur]
    have hm_ne : m ≠ [] := by rw [hm]; simp
    cases hl : m.getLast? with
    | none =>
      exfalso
      rw [List.getLast?_eq_none_iff] at hl
      exact hm_ne hl
    | some d => rw [wrState_getLast_nonword m hl (hml d hl) cur]

theorem getLast?_mem {l : Str} {a : Char} (h : l.getLast? = some a) : a ∈ l := by
  rw [← List.head?_reverse] at h
  have : a ∈ l.reverse := List.mem_of_mem_head? h
  exact List.mem_reverse.mp this

theorem ws2Try_ok : ScanWordOK ws2Try := by
  intro prev t rep n cur hfire hcur hlink
  cases t with
  | nil => cases hfire
  | cons c t' =>
    cases t' with
    | nil => cases hfire
    | cons d t'' =>
      simp only [ws2Try] at hfire
      split at hfire
      case isFalse => cases hfire
      rename_i hsp
      rw [Bool.and_eq_true] at hsp
      have hinj : ([' '] : Str) = rep ∧ ((c :: d :: t'').takeWhile pySpace).length = n := by
        have h2 := hfire
        simp only [Option.some.injEq, Prod.mk.injEq] at h2
        exact h2
      obtain ⟨hrep, hn⟩ := hinj
      subst hrep
      subst hn
      have htweq : (c :: d :: t'').takeWhile pySpace ++ (c :: d :: t'').dropWhile pySpace
          = c :: d :: t'' := List.takeWhile_append_dropWhile pySpace _
      have htake : (c :: d :: t'').take ((c :: d :: t'').takeWhile pySpace).length
          = (c :: d :: t'').takeWhile pySpace := by
        have h1 := List.take_left ((c :: d :: t'').takeWhile pySpace)
          ((c :: d :: t'').dropWhile pySpace)
        rw [htweq] at h1
        exact h1
      have htw_ne : (c :: d :: t'').takeWhile pySpace ≠ [] := by
        rw [List.takeWhile_cons_of_pos hsp.1]
        simp
      have htw_nonword : ∀ e ∈ (c :: d :: t'').takeWhile pySpace, wordChar e = false :=
        fun e he => pySpace_not_word (List.mem_takeWhile_imp he)
      refine ⟨?_, ?_, ?_, ?_, ?_⟩
      · rw [List.takeWhile_cons_of_pos hsp.1]
        simp
      · have hlen := congrArg List.length htweq
        rw [List.length_append] at hlen
        omega
      · rw [htake]
        exact (scanOK_clauses_nonrep cur (by simp) (by intro e he; rw [List.mem_singleton.mp he]; decide)
          ⟨c, (d :: t'').takeWhile pySpace, List.takeWhile_cons_of_pos hsp.1,
            pySpace_not_word hsp.1⟩
          (fun e he => htw_nonword e (getLast?_mem he))).1
      · left
        rw [htake]
        exact (scanOK_clauses_nonrep cur (by simp) (by intro e he; rw [List.mem_singleton.mp he]; decide)
          ⟨c, (d :: t'').takeWhile pySpace, List.takeWhile_cons_of_pos hsp.1,
            pySpace_not_word hsp.1⟩
          (fun e he => htw_nonword e (getLast?_mem he))).2
      · intro _
        exact wrState_nonword (by simp) (by intro e he; rw [List.mem_singleton.mp he]; decide) cur

theorem take_concat_of_split {t a : Str} {x : Char} {z : Str} (h : t = a ++ x :: z) :
    t.take (a.length + 1) = a ++ [x] := by
  subst h
  rw [List.take_append_eq_append_take, List.take_of_length_le (Nat.le_succ _)]
  congr 1
  have h1 : a.length + 1 - a.length = 1 := by omega
  rw [h1]
  rfl

theorem len_concat_split {t a : Str} {x : Char} {z : Str} (h : t = a ++ x :: z) :
    a.length + 1 ≤ t.length := by
  subst h
  rw [List.length_append, List.length_cons]
  omega

theorem r3Try_ok : ScanWordOK r3Try := by
  intro prev t rep n cur hfire hcur hlink
  cases t with
  | nil => cases hfire
  | cons c t' =>
    simp only [r3Try] at hfire
    split at hfire
    case isFalse => cases hfire
    rename_i hc
    rw [beq_iff_eq] at hc
    subst hc
    split at hfire
    case isFalse => cases hfire
    rename_i hcount
    have hinj : ([','] : Str) = rep ∧
        ((',' :: t').takeWhile (fun x => x == ',' || pySpace x)).length = n := by
      have h2 := hfire
      simp only [Option.some.injEq, Prod.mk.injEq] at h2
      exact h2
    obtain ⟨hrep, hn⟩ := hinj
    subst hrep
    subst hn
    have hpred : ((',' : Char) == ',' || pySpace ',') = true := by decide
    have htweq : (',' :: t').takeWhile (fun x => x == ',' || pySpace x)
          ++ (',' :: t').dropWhile (fun x => x == ',' || pySpace x) = ',' :: t' :=
      List.takeWhile_append_dropWhile _ _
    have htake : (',' :: t').take
          ((',' :: t').takeWhile (fun x => x == ',' || pySpace x)).length
        = (',' :: t').takeWhile (fun x => x == ',' || pySpace x) := by
      have h1 := List.take_left ((',' :: t').takeWhile (fun x => x == ',' || pySpace x))
        ((',' :: t').dropWhile (fun x => x == ',' || pySpace x))
      rw [htweq] at h1
      exact h1
    have hhead : (',' :: t').takeWhile (fun x => x == ',' || pySpace x)
        = ',' :: (t'.takeWhile (fun x => x == ',' || pySpace x)) :=
      List.takeWhile_cons_of_pos hpred
    have hnonword : ∀ e ∈ (',' :: t').takeWhile (fun x => x == ',' || pySpace x),
        wordChar e = false := by
      intro e he
      have hp := List.mem_takeWhile_imp he
      rw [Bool.or_eq_true] at hp
      rcases hp with hp | hp
      · rw [beq_iff_eq] at hp
        subst hp
        decide
      · exact pySpace_not_word hp
    have hco := @scanOK_clauses_nonrep [','] ((',' :: t').takeWhile
      (fun x => x == ',' || pySpace x)) cur (by simp)
      (by intro e he; rw [List.mem_singleton.mp he]; decide)
      ⟨',', t'.takeWhile (fun x => x == ',' || pySpace x), hhead, by decide⟩
      (fun e he => hnonword e (getLast?_mem he))
    refine ⟨?_, ?_, ?_, ?_, ?_⟩
    · rw [hhead]
      simp
    · have hlen := congrArg List.length htweq
      rw [List.length_append] at hlen
      omega
    · rw [htake]
      exact hco.1
    · left
      rw [htake]
      exact hco.2
    · intro _
      exact wrState_nonword (by simp) (by intro e he; rw [List.mem_singleton.mp he]; decide) cur

theorem repTry_ok {pat repl : Str} (hp_ne : pat ≠ []) (hp : ∀ c ∈ pat, wordChar c = false)
    (hphead : ∃ x p', pat = x :: p' ∧ wordChar x = false)
    (hr_ne : repl ≠ []) (hr : ∀ c ∈ repl, wordChar c = false) : ScanWordOK (repTry pat repl) := by
  intro prev t rep n cur hfire hcur hlink
  simp only [repTry] at hfire
  rw [if_neg (by simpa using hp_ne)] at hfire
  split at hfire
  case isFalse => cases hfire
  rename_i hpre
  obtain ⟨u, hu⟩ := (List.isPrefixOf_iff_prefix.mp hpre)
  have hinj : repl = rep ∧ pat.length = n := by
    have h2 := hfire
    simp only [Option.some.injEq, Prod.mk.injEq] at h2
    exact h2
  obtain ⟨hrep, hn⟩ := hinj
  subst hrep
  subst hn
  have htake : t.take pat.length = pat := by
    rw [← hu]
    exact List.take_left _ _
  have hco := @scanOK_clauses_nonrep repl pat cur hr_ne hr
    (by
      obtain ⟨x, p', hx, hwx⟩ := hphead
      exact ⟨x, p', hx, hwx⟩)
    (fun e he => hp e (getLast?_mem he))
  refine ⟨?_, ?_, ?_, ?_, ?_⟩
  · cases hpat : pat with
    | nil => exact absurd hpat hp_ne
    | cons x p' => simp [hpat]
  · rw [← hu, List.length_append]
    omega
  · rw [htake]
    exact hco.1
  · left
    rw [htake]
    exact hco.2
  · intro _
    exact wrState_nonword hr_ne hr cur

theorem r7Try_ok : ScanWordOK r7Try := by
  intro prev t rep n cur hfire hcur hlink
  cases t with
  | nil => cases hfire
  | cons c rest =>
    simp only [r7Try] at hfire
    split at hfire
    case isFalse => cases hfire
    rename_i hc
    rw [beq_iff_eq] at hc
    subst hc
    cases hdw : rest.drop (rest.takeWhile pySpace).length with
    | nil => rw [hdw] at hfire; cases hfire
    | cons d z =>
      rw [hdw] at hfire
      have hfire2 : (if (d == '.') = true
          then some ((['.'] : Str), 1 + (rest.takeWhile pySpace).length + 1) else none)
          = some (rep, n) := hfire
      by_cases hd : (d == '.') = true
      case neg =>
        rw [Bool.not_eq_true] at hd
        rw [hd] at hfire2
        exact absurd hfire2 (by simp)
      rw [if_pos hd] at hfire2
      rw [beq_iff_eq] at hd
      subst hd
      have hinj : (['.'] : Str) = rep ∧ 1 + (rest.takeWhile pySpace).length + 1 = n := by
        have h2 := hfire2
        simp only [Option.some.injEq, Prod.mk.injEq] at h2
        exact h2
      obtain ⟨hrep, hn⟩ := hinj
      subst hrep
      subst hn
      have hws : rest.take (rest.takeWhile pySpace).length = rest.takeWhile pySpace := by
        have h1 := List.take_left (rest.takeWhile pySpace) (rest.dropWhile pySpace)
        rw [List.takeWhile_append_dropWhile] at h1
        exact h1
      have hrest : rest = rest.takeWhile pySpace ++ '.' :: z := by
        conv_lhs => rw [← List.take_append_drop (rest.takeWhile pySpace).length rest]
        rw [hws, hdw]
      have hteq : ',' :: rest = (',' :: rest.takeWhile pySpace) ++ '.' :: z := by
        rw [List.cons_append, ← hrest]
      have hn2 : 1 + (rest.takeWhile pySpace).length + 1
          = (',' :: rest.takeWhile pySpace).length + 1 := by
        simp only [List.length_cons]
        omega
      have htake : (',' :: rest).take (1 + (rest.takeWhile pySpace).length + 1)
          = (',' :: rest.takeWhile pySpace) ++ ['.'] := by
        rw [hn2]
        exact take_concat_of_split hteq
      have hmh : ∃ x m', (',' :: rest.takeWhile pySpace) ++ ['.'] = x :: m' ∧
          wordChar x = false := ⟨',', rest.takeWhile pySpace ++ ['.'], by simp, by decide⟩
      have hml : ∀ e, ((',' :: rest.takeWhile pySpace) ++ ['.']).getLast? = some e →
          wordChar e = false := by
        intro e he
        rw [List.getLast?_concat] at he
        have : e = '.' := by injection he with h2; exact h2.symm
        subst this
        decide
      have hco := @scanOK_clauses_nonrep ['.'] ((',' :: rest.takeWhile pySpace) ++ ['.'])
        cur (by simp)
        (by intro e he; rw [List.mem_singleton.mp he]; decide) hmh hml
      refine ⟨by omega, ?_, ?_, ?_, ?_⟩
      · have := len_concat_split hteq
        simp only [List.length_cons] at this ⊢
        omega
      · rw [htake]
        exact hco.1
      · left
        rw [htake]
        exact hco.2
      · intro _
        exact wrState_nonword (by simp) (by intro e he; rw [List.mem_singleton.mp he]; decide) cur

theorem r2Try_ok : ScanWordOK r2Try := by
  intro prev t rep n cur hfire hcur hlink
  simp only [r2Try] at hfire
  by_cases hprev : isWordO prev = true
  · rw [if_pos hprev] at hfire
    cases hfire
  rw [if_neg hprev] at hfire
  rw [Bool.not_eq_true] at hprev
  have hcur0 : cur = [] := hlink hprev
  subst hcur0
  by_cases hwe : (t.takeWhile wordChar).isEmpty = true
  · rw [if_pos hwe] at hfire
    cases hfire
  rw [if_neg hwe] at hfire
  by_cases hwse : ((t.drop (t.takeWhile wordChar).length).takeWhile pySpace).isEmpty = true
  · rw [if_pos hwse] at hfire
    cases hfire
  rw [if_neg hwse] at hfire
  cases hdw : t.drop ((t.takeWhile wordChar).length
      + ((t.drop (t.takeWhile wordChar).length).takeWhile pySpace).length) with
  | nil =>
    rw [hdw] at hfire
    cases hfire
  | cons c2 z =>
    rw [hdw] at hfire
    have hfire2 : (if (c2 == ',') = true
        then some ((t.takeWhile wordChar ++ [','] : Str),
          (t.takeWhile wordChar).length
            + ((t.drop (t.takeWhile wordChar).length).takeWhile pySpace).length + 1)
        else none) = some (rep, n) := hfire
    by_cases hc2 : (c2 == ',') = true
    case neg =>
      rw [Bool.not_eq_true] at hc2
      rw [hc2] at hfire2
      exact absurd hfire2 (by simp)
    rw [if_pos hc2] at hfire2
    rw [beq_iff_eq] at hc2
    subst hc2
    have hinj : (t.takeWhile wordChar ++ [','] : Str) = rep ∧
        (t.takeWhile wordChar).length
          + ((t.drop (t.takeWhile wordChar).length).takeWhile pySpace).length + 1 = n := by
      have h2 := hfire2
      simp only [Option.some.injEq, Prod.mk.injEq] at h2
      exact h2
    obtain ⟨hrep, hn⟩ := hinj
    subst hrep
    subst hn
    have hw_ne : t.takeWhile wordChar ≠ [] := fun habs => hwe (by rw [habs]; rfl)
    have hw_word : ∀ e ∈ t.takeWhile wordChar, wordChar e = true :=
      fun e he => List.mem_takeWhile_imp he
    have hws_ne : (t.drop (t.takeWhile wordChar).length).takeWhile pySpace ≠ [] :=
      fun habs => hwse (by rw [habs]; rfl)
    have hws_sp : ∀ e ∈ (t.drop (t.takeWhile wordChar).length).takeWhile pySpace,
        wordChar e = false :=
      fun e he => pySpace_not_word (List.mem_takeWhile_imp he)
    have htake_w : t.take (t.takeWhile wordChar).length = t.takeWhile wordChar := by
      have h1 := List.take_left (t.takeWhile wordChar) (t.dropWhile wordChar)
      rw [List.takeWhile_append_dropWhile] at h1
      exact h1
    have hsplit1 : t = t.takeWhile wordChar ++ t.drop (t.takeWhile wordChar).length := by
      conv_lhs => rw [← List.take_append_drop (t.takeWhile wordChar).length t]
      rw [htake_w]
    have htake_ws : (t.drop (t.takeWhile wordChar).length).take
          ((t.drop (t.takeWhile wordChar).length).takeWhile pySpace).length
        = (t.drop (t.takeWhile wordChar).length).takeWhile pySpace := by
      have h1 := List.take_left ((t.drop (t.takeWhile wordChar).length).takeWhile pySpace)
        ((t.drop (t.takeWhile wordChar).length).dropWhile pySpace)
      rw [List.takeWhile_append_dropWhile] at h1
      exact h1
    have hsplit2 : t.drop (t.takeWhile wordChar).length
        = (t.drop (t.takeWhile wordChar).length).takeWhile pySpace
          ++ ',' :: z := by
      conv_lhs => rw [← List.take_append_drop
        ((t.drop (t.takeWhile wordChar).length).takeWhile pySpace).length
        (t.drop (t.takeWhile wordChar).length)]
      rw [htake_ws]
      congr 1
      rw [List.drop_drop]
      exact hdw
    have ht : t = (t.takeWhile wordChar
        ++ (t.drop (t.takeWhile wordChar).length).takeWhile pySpace) ++ ',' :: z := by
      conv_lhs => rw [hsplit1, hsplit2]
      rw [List.append_assoc]
    have hn2 : (t.takeWhile wordChar).length
          + ((t.drop (t.takeWhile wordChar).length).takeWhile pySpace).length + 1
        = (t.takeWhile wordChar
          ++ (t.drop (t.takeWhile wordChar).length).takeWhile pySpace).length + 1 := by
      rw [List.length_append]
    have htake : t.take ((t.takeWhile wordChar).length
          + ((t.drop (t.takeWhile wordChar).length).takeWhile pySpace).length + 1)
        = (t.takeWhile wordChar
          ++ (t.drop (t.takeWhile wordChar).length).takeWhile pySpace) ++ [','] := by
      rw [hn2]
      exact take_concat_of_split ht
    have hstw_ne : wrState [] (t.takeWhile wordChar) ≠ [] := by
      rw [wrState_word hw_word, List.append_nil]
      intro habs
      rw [List.reverse_eq_nil_iff] at habs
      exact hw_ne habs
    have hstw_nemp : (wrState [] (t.takeWhile wordChar)).isEmpty = false := by
      rw [List.isEmpty_eq_false_iff_exists_mem]
      cases hst : wrState [] (t.takeWhile wordChar) with
      | nil => exact absurd hst hstw_ne
      | cons e st' => exact ⟨e, List.mem_cons_self e st'⟩
    have e1 : wrEmit [] (t.takeWhile wordChar ++ [','])
        = [(wrState [] (t.takeWhile wordChar)).reverse] := by
      rw [wrEmit_append, wrEmit_word hw_word,
        wrEmit_nonword (by simp) (by intro e he; rw [List.mem_singleton.mp he]; decide),
        hstw_nemp]
      simp
    have e2 : wrEmit [] ((t.takeWhile wordChar
          ++ (t.drop (t.takeWhile wordChar).length).takeWhile pySpace) ++ [','])
        = [(wrState [] (t.takeWhile wordChar)).reverse] := by
      rw [List.append_assoc, wrEmit_append, wrEmit_word hw_word]
      rw [wrEmit_nonword (by simp [hws_ne])
        (by
          intro e he
          rcases List.mem_append.mp he with he | he
          · exact hws_sp e he
          · rw [List.mem_singleton.mp he]; decide)
        (wrState [] (t.takeWhile wordChar)), hstw_nemp]
      simp
    have s1 : wrState [] (t.takeWhile wordChar ++ [',']) = [] := by
      rw [wrState_append]
      exact wrState_nonword (by simp)
        (by intro e he; rw [List.mem_singleton.mp he]; decide) _
    have s2 : wrState [] ((t.takeWhile wordChar
          ++ (t.drop (t.takeWhile wordChar).length).takeWhile pySpace) ++ [',']) = [] := by
      rw [List.append_assoc, wrState_append]
      exact wrState_nonword (by simp [hws_ne])
        (by
          intro e he
          rcases List.mem_append.mp he with he | he
          · exact hws_sp e he
          · rw [List.mem_singleton.mp he]; decide) _
    refine ⟨by omega, ?_, ?_, ?_, fun _ => s1⟩
    · have hlen := len_concat_split ht
      rw [List.length_append] at hlen
      omega
    · intro r hr
      rw [htake, e2]
      rw [e1] at hr
      exact hr
    · left
      rw [htake, s1, s2]

theorem r6Try_ok : ScanWordOK r6Try := by
  intro prev t rep n cur hfire hcur hlink
  simp only [r6Try] at hfire
  by_cases hprev : isWordO prev = true
  · rw [if_pos hprev] at hfire
    cases hfire
  rw [if_neg hprev] at hfire
  rw [Bool.not_eq_true] at hprev
  have hcur0 : cur = [] := hlink hprev
  subst hcur0
  by_cases hw1 : (lowerStr (t.takeWhile wordChar) == ("on".toList)
      || lowerStr (t.takeWhile wordChar) == ("of".toList)) = true
  case neg =>
    rw [Bool.not_eq_true] at hw1
    rw [hw1] at hfire
    exact absurd hfire (by simp)
  rw [hw1] at hfire
  rw [if_pos rfl] at hfire
  by_cases hwse : ((t.drop (t.takeWhile wordChar).length).takeWhile pySpace).isEmpty = true
  · rw [if_pos hwse] at hfire
    cases hfire
  rw [if_neg hwse] at hfire
  by_cases hw2 : (lowerStr ((t.drop ((t.takeWhile wordChar).length
        + ((t.drop (t.takeWhile wordChar).length).takeWhile pySpace).length)).takeWhile wordChar)
        == ("and".toList)
      || lowerStr ((t.drop ((t.takeWhile wordChar).length
        + ((t.drop (t.takeWhile wordChar).length).takeWhile pySpace).length)).takeWhile wordChar)
        == ("or".toList)) = true
  case neg =>
    rw [Bool.not_eq_true] at hw2
    rw [hw2] at hfire
    exact absurd hfire (by simp)
  rw [hw2] at hfire
  rw [if_pos rfl] at hfire
  have hinj : ([] : Str) = rep ∧
      (t.takeWhile wordChar).length
        + ((t.drop (t.takeWhile wordChar).length).takeWhile pySpace).length
        + ((t.drop ((t.takeWhile wordChar).length
          + ((t.drop (t.takeWhile wordChar).length).takeWhile pySpace).length)).takeWhile
            wordChar).length = n := by
    have h2 := hfire
    simp only [Option.some.injEq, Prod.mk.injEq] at h2
    exact h2
  obtain ⟨hrep, hn⟩ := hinj
  subst hrep
  subst hn
  have hw1len : (t.takeWhile wordChar).length = 2 := by
    rw [Bool.or_eq_true, beq_iff_eq, beq_iff_eq] at hw1
    rcases hw1 with h | h
    · have := congrArg List.length h
      simpa [lowerStr] using this
    · have := congrArg List.length h
      simpa [lowerStr] using this
  have hw2len : 2 ≤ ((t.drop ((t.takeWhile wordChar).length
      + ((t.drop (t.takeWhile wordChar).length).takeWhile pySpace).length)).takeWhile
        wordChar).length := by
    rw [Bool.or_eq_true, beq_iff_eq, beq_iff_eq] at hw2
    rcases hw2 with h | h
    · have := congrArg List.length h
      simp only [lowerStr, List.length_map] at this
      rw [show (("and".toList : Str)).length = 3 from rfl] at this
      omega
    · have := congrArg List.length h
      simp only [lowerStr, List.length_map] at this
      rw [show (("or".toList : Str)).length = 2 from rfl] at this
      omega
  have hlen1 : (t.takeWhile wordChar).length
      + ((t.drop (t.takeWhile wordChar).length).takeWhile pySpace).length ≤ t.length := by
    have h1 := congrArg List.length
      (List.takeWhile_append_dropWhile pySpace (t.drop (t.takeWhile wordChar).length))
    rw [List.length_append, List.length_drop] at h1
    have h2 := congrArg List.length (List.takeWhile_append_dropWhile wordChar t)
    rw [List.length_append] at h2
    omega
  have hlen2 : ((t.drop ((t.takeWhile wordChar).length
      + ((t.drop (t.takeWhile wordChar).length).takeWhile pySpace).length)).takeWhile
        wordChar).length
      ≤ t.length - ((t.takeWhile wordChar).length
        + ((t.drop (t.takeWhile wordChar).length).takeWhile pySpace).length) := by
    have h1 := congrArg List.length
      (List.takeWhile_append_dropWhile wordChar
        (t.drop ((t.takeWhile wordChar).length
          + ((t.drop (t.takeWhile wordChar).length).takeWhile pySpace).length)))
    rw [List.length_append, List.length_drop] at h1
    omega
  refine ⟨by omega, by omega, ?_, ?_, fun _ => rfl⟩
  · intro r hr
    cases hr
  · right
    refine ⟨rfl, ?_⟩
    have hd1 : t.drop ((t.takeWhile wordChar).length
          + ((t.drop (t.takeWhile wordChar).length).takeWhile pySpace).length
          + ((t.drop ((t.takeWhile wordChar).length
            + ((t.drop (t.takeWhile wordChar).length).takeWhile pySpace).length)).takeWhile
              wordChar).length)
        = (t.drop ((t.takeWhile wordChar).length
          + ((t.drop (t.takeWhile wordChar).length).takeWhile pySpace).length)).dropWhile
            wordChar := by
      rw [← List.drop_drop]
      have h1 := List.drop_left
        ((t.drop ((t.takeWhile wordChar).length
          + ((t.drop (t.takeWhile wordChar).length).takeWhile pySpace).length)).takeWhile
            wordChar)
        ((t.drop ((t.takeWhile wordChar).length
          + ((t.drop (t.takeWhile wordChar).length).takeWhile pySpace).length)).dropWhile
            wordChar)
      rw [List.takeWhile_append_dropWhile] at h1
      exact h1
    rw [hd1]
    exact dropWhile_shape wordChar _

theorem scanOK_concat_comma {t a z : Str} (cur : Str) (prev : Option Char)
    (ht : t = a ++ ',' :: z)
    (hhead : ∃ x a', a = x :: a' ∧ wordChar x = false) {n : Nat} (hn : n = a.length + 1) :
    1 ≤ n ∧ n ≤ t.length ∧
    (∀ r ∈ wrEmit cur ([','] : Str), r ∈ wrEmit cur (t.take n)) ∧
    (wrState cur ([','] : Str) = wrState cur (t.take n) ∨
      (wrState cur ([','] : Str) = [] ∧
        (t.drop n = [] ∨ ∃ d z', t.drop n = d :: z' ∧ wordChar d = false))) ∧
    (isWordO (lastO prev (t.take n)) = false → wrState cur ([','] : Str) = []) := by
  subst hn
  have htake : t.take (a.length + 1) = a ++ [','] := take_concat_of_split ht
  have hco := @scanOK_clauses_nonrep [','] (a ++ [',']) cur
    (by simp) (by intro e he; rw [List.mem_singleton.mp he]; decide)
    (by
      obtain ⟨x, a', hx, hwx⟩ := hhead
      exact ⟨x, a' ++ [','], by rw [hx]; simp, hwx⟩)
    (by
      intro d hd
      rw [List.getLast?_concat] at hd
      injection hd with hd2
      rw [← hd2]
      decide)
  refine ⟨by omega, len_concat_split ht, ?_, Or.inl ?_, fun _ => ?_⟩
  · rw [htake]
    exact hco.1
  · rw [htake]
    exact hco.2
  · exact wrState_nonword (by simp) (by intro e he; rw [List.mem_singleton.mp he]; decide) cur

theorem r4_branch {prev : Option Char} {rest : Str} {cur rep : Str} {n : Nat}
    (_hcur : ∀ c ∈ cur, wordChar c = true)
    (conj : Str) (nc : Nat) (hnc : nc = conj.length)
    (hpre : List.isPrefixOf conj (rest.drop (rest.takeWhile pySpace).length) = true)
    (hfire2 : (match ((rest.drop (rest.takeWhile pySpace).length).drop nc).drop
          ((((rest.drop (rest.takeWhile pySpace).length).drop nc)).takeWhile pySpace).length with
        | c2 :: _ => if (c2 == ',') = true
            then some (([','] : Str), 1 + (rest.takeWhile pySpace).length + nc
              + ((((rest.drop (rest.takeWhile pySpace).length).drop nc)).takeWhile
                  pySpace).length + 1)
            else none
        | [] => none) = some (rep, n)) :
    1 ≤ n ∧ n ≤ (',' :: rest).length ∧
    (∀ r ∈ wrEmit cur rep, r ∈ wrEmit cur ((',' :: rest).take n)) ∧
    (wrState cur rep = wrState cur ((',' :: rest).take n) ∨
      (wrState cur rep = [] ∧
        ((',' :: rest).drop n = [] ∨
          ∃ d z', (',' :: rest).drop n = d :: z' ∧ wordChar d = false))) ∧
    (isWordO (lastO prev ((',' :: rest).take n)) = false → wrState cur rep = []) := by
  subst hnc
  set ws1 := rest.takeWhile pySpace with hws1
  set r1 := rest.drop ws1.length with hr1
  set r2 := r1.drop conj.length with hr2
  set ws2 := r2.takeWhile pySpace with hws2
  cases hdw2 : r2.drop ws2.length with
  | nil =>
    rw [hdw2] at hfire2
    cases hfire2
  | cons c2 z =>
    rw [hdw2] at hfire2
    have hfire3 : (if (c2 == ',') = true
        then some (([','] : Str), 1 + ws1.length + conj.length + ws2.length + 1)
        else none) = some (rep, n) := hfire2
    by_cases hc2 : (c2 == ',') = true
    case neg =>
      rw [Bool.not_eq_true] at hc2
      rw [hc2] at hfire3
      exact absurd hfire3 (by simp)
    rw [if_pos hc2] at hfire3
    rw [beq_iff_eq] at hc2
    subst hc2
    have hinj : ([','] : Str) = rep ∧ 1 + ws1.length + conj.length + ws2.length + 1 = n := by
      have h2 := hfire3
      simp only [Option.some.injEq, Prod.mk.injEq] at h2
      exact h2
    obtain ⟨hrep, hn⟩ := hinj
    subst hrep
    subst hn
    have hsplit1 : rest = ws1 ++ r1 := by
      rw [hr1]
      conv_lhs => rw [← List.take_append_drop ws1.length rest]
      congr 1
      rw [hws1]
      have h1 := List.take_left (rest.takeWhile pySpace) (rest.dropWhile pySpace)
      rw [List.takeWhile_append_dropWhile] at h1
      exact h1
    have hsplit2 : r1 = conj ++ r2 := by
      rw [hr2]
      obtain ⟨u, hu⟩ := List.isPrefixOf_iff_prefix.mp hpre
      conv_lhs => rw [← hu]
      congr 1
      rw [← hu]
      exact (List.drop_left _ _).symm
    have hsplit3 : r2 = ws2 ++ ',' :: z := by
      conv_lhs => rw [← List.take_append_drop ws2.length r2]
      rw [hdw2]
      congr 1
      rw [hws2]
      have h1 := List.take_left (r2.takeWhile pySpace) (r2.dropWhile pySpace)
      rw [List.takeWhile_append_dropWhile] at h1
      exact h1
    have ht : (',' :: rest)
        = (',' :: (ws1 ++ (conj ++ ws2))) ++ ',' :: z := by
      rw [hsplit1, hsplit2, hsplit3]
      simp [List.append_assoc]
    exact scanOK_concat_comma cur prev ht
      ⟨',', _, rfl, by decide⟩
      (by simp only [List.length_cons, List.length_append]; omega)

theorem r4Try_ok : ScanWordOK r4Try := by
  intro prev t rep n cur hfire hcur hlink
  cases t with
  | nil => cases hfire
  | cons c rest =>
    simp only [r4Try] at hfire
    by_cases hc : (c == ',') = true
    case neg =>
      rw [Bool.not_eq_true] at hc
      rw [hc] at hfire
      exact absurd hfire (by simp)
    rw [if_pos hc] at hfire
    rw [beq_iff_eq] at hc
    subst hc
    by_cases hand : List.isPrefixOf ("and".toList) (rest.drop (rest.takeWhile pySpace).length)
        = true
    · rw [if_pos hand] at hfire
      exact r4_branch hcur ("and".toList) 3 rfl hand hfire
    · rw [if_neg hand] at hfire
      by_cases hor : List.isPrefixOf ("or".toList) (rest.drop (rest.takeWhile pySpace).length)
          = true
      · rw [if_pos hor] at hfire
        exact r4_branch hcur ("or".toList) 2 rfl hor hfire
      · rw [if_neg hor] at hfire
        exact absurd hfire (by simp)

theorem lowerStr_length (s : Str) : (lowerStr s).length = s.length := List.length_map _ _

theorem wbTry_fires {k : Str} (hk_ne : k ≠ [])
    {prev : Option Char} {c : Char} {cs : Str}
    (hprev : isWordO prev = false) (hc : wordChar c = true)
    (heq : lowerStr ((c :: cs).takeWhile wordChar) = lowerStr k) :
    wbTry k prev (c :: cs) = some ([], k.length) := by
  have htw : (c :: cs).takeWhile wordChar = c :: cs.takeWhile wordChar :=
    List.takeWhile_cons_of_pos hc
  have hlen : ((c :: cs).takeWhile wordChar).length = k.length := by
    have := congrArg List.length heq
    rw [lowerStr_length, lowerStr_length] at this
    exact this
  have hsplit : (c :: cs).takeWhile wordChar ++ (c :: cs).dropWhile wordChar = c :: cs :=
    List.takeWhile_append_dropWhile _ _
  have htake : (c :: cs).take k.length = (c :: cs).takeWhile wordChar := by
    have h1 := List.take_left ((c :: cs).takeWhile wordChar) ((c :: cs).dropWhile wordChar)
    rw [hsplit, hlen] at h1
    exact h1
  have hklen : k.length ≤ (c :: cs).length := by
    have := congrArg List.length hsplit
    rw [List.length_append] at this
    omega
  have hci : ciPref k (c :: cs) = true := (ciPref_iff k (c :: cs)).mpr ⟨hklen, by rw [htake]; exact heq⟩
  have hkpos : 1 ≤ k.length := by
    cases hks : k with
    | nil => exact absurd hks hk_ne
    | cons x k' => simp [hks]
  have htw_word : ∀ e ∈ (c :: cs).takeWhile wordChar, wordChar e = true :=
    fun e he => List.mem_takeWhile_imp he
  have hg1 : (c :: cs).get? (k.length - 1) = ((c :: cs).takeWhile wordChar).getLast? := by
    have h2 := getLast?_get? ((c :: cs).takeWhile wordChar) (by rw [htw]; simp)
    rw [hlen] at h2
    rw [← h2, ← htake, List.get?_take]
    omega
  have hg2 : (c :: cs).get? k.length = ((c :: cs).dropWhile wordChar).head? := by
    have h3 : (c :: cs).get? k.length
        = (((c :: cs).takeWhile wordChar) ++ ((c :: cs).dropWhile wordChar)).get? k.length := by
      rw [hsplit]
    rw [h3, List.get?_append_right (by omega)]
    rw [hlen, Nat.sub_self, get?_zero_head?]
  have hlast_word : isWordO ((c :: cs).get? (k.length - 1)) = true := by
    rw [hg1]
    cases hl : ((c :: cs).takeWhile wordChar).getLast? with
    | none =>
      exfalso
      rw [List.getLast?_eq_none_iff] at hl
      rw [htw] at hl
      cases hl
    | some d =>
      simp only [isWordO]
      exact htw_word d (getLast?_mem hl)
  have hnext_nonword : isWordO ((c :: cs).get? k.length) = false := by
    rw [hg2]
    rcases dropWhile_shape wordChar (c :: cs) with h | ⟨d, z, hdz, hd⟩
    · rw [h]
      rfl
    · rw [hdz]
      simp only [isWordO, List.head?_cons]
      exact hd
  simp only [wbTry]
  rw [if_neg (by simpa using hk_ne), if_pos]
  rw [hci, hlast_word, hnext_nonword, hprev]
  have hh : isWordO ((c :: cs).head?) = true := by
    simp [isWordO, List.head?_cons, hc]
  rw [hh]
  decide

theorem scanHasGo_suffix {try1 : Option Char → Str → Option (Str × Nat)} :
    ∀ (a : Str) (prev : Option Char) (b : Str),
      scanHasGo try1 (lastO prev a) b = true → scanHasGo try1 prev (a ++ b) = true := by
  intro a
  induction a with
  | nil => intro prev b h; exact h
  | cons x a' ih =>
    intro prev b h
    show ((try1 prev (x :: (a' ++ b))).isSome || scanHasGo try1 (some x) (a' ++ b)) = true
    rw [Bool.or_eq_true]
    right
    refine ih (some x) b ?_
    rw [← lastO_cons prev x a']
    exact h

theorem run_imp_search {k : Str} (hk_ne : k ≠ []) :
    ∀ (N : Nat) (s : Str), s.length ≤ N → ∀ (prev : Option Char),
      (isWordO prev = false ∨ s = [] ∨ wordChar (s.headD ' ') = false) →
      (∃ r ∈ wrunsGo [] s, lowerStr r = lowerStr k) →
      scanHasGo (wbTry k) prev s = true := by
  intro N
  induction N with
  | zero =>
    intro s hs prev _ hwit
    have hnil : s = [] := List.eq_nil_of_length_eq_zero (Nat.le_zero.mp hs)
    subst hnil
    obtain ⟨r, hr, _⟩ := hwit
    cases hr
  | succ N ih =>
    intro s hs prev hside hwit
    cases s with
    | nil =>
      obtain ⟨r, hr, _⟩ := hwit
      cases hr
    | cons c cs =>
      have hcs : cs.length ≤ N := by
        simp only [List.length_cons] at hs
        omega
      by_cases hc : wordChar c = true
      · have hprev : isWordO prev = false := by
          rcases hside with h | h | h
          · exact h
          · cases h
          · rw [List.headD_cons] at h
            rw [hc] at h
            cases h
        have htw : (c :: cs).takeWhile wordChar = c :: cs.takeWhile wordChar :=
          List.takeWhile_cons_of_pos hc
        have hsplit : (c :: cs).takeWhile wordChar ++ (c :: cs).dropWhile wordChar = c :: cs :=
          List.takeWhile_append_dropWhile _ _
        have hdwshape := dropWhile_shape wordChar (c :: cs)
        have hruns : wrunsGo [] (c :: cs)
            = ((c :: cs).takeWhile wordChar) :: wrunsGo [] ((c :: cs).dropWhile wordChar) := by
          conv_lhs => rw [← hsplit]
          exact wrunsGo_run (fun e he => List.mem_takeWhile_imp he) (by rw [htw]; simp)
            (by
              rcases hdwshape with h | ⟨d, z, hdz, hd⟩
              · exact Or.inl h
              · exact Or.inr ⟨d, z, hdz, hd⟩)
        obtain ⟨r, hr, hrk⟩ := hwit
        rw [hruns] at hr
        rcases List.mem_cons.mp hr with hr | hr
        · subst hr
          have hfire := wbTry_fires hk_ne hprev hc hrk
          show ((wbTry k prev (c :: cs)).isSome || _) = true
          rw [hfire]
          rfl
        · -- witness in the later part
          have hdw_len : ((c :: cs).dropWhile wordChar).length ≤ N := by
            have h1 := congrArg List.length hsplit
            rw [List.length_append, htw] at h1
            simp only [List.length_cons] at h1 hs
            omega
          have hsub := ih ((c :: cs).dropWhile wordChar) hdw_len
            (lastO prev ((c :: cs).takeWhile wordChar))
            (by
              rcases hdwshape with h | ⟨d, z, hdz, hd⟩
              · exact Or.inr (Or.inl h)
              · right
                right
                rw [hdz, List.headD_cons]
                exact hd)
            ⟨r, hr, hrk⟩
          have := scanHasGo_suffix ((c :: cs).takeWhile wordChar) prev
            ((c :: cs).dropWhile wordChar) hsub
          rw [hsplit] at this
          exact this
      · rw [Bool.not_eq_true] at hc
        obtain ⟨r, hr, hrk⟩ := hwit
        have hr2 : r ∈ wrunsGo [] cs := by
          simp only [wrunsGo, hc, Bool.false_eq_true, if_false, List.isEmpty_nil, if_true] at hr
          exact hr
        show ((wbTry k prev (c :: cs)).isSome || scanHasGo (wbTry k) (some c) cs) = true
        rw [Bool.or_eq_true]
        right
        exact ih cs hcs (some c) (Or.inl (by simp [isWordO, hc])) ⟨r, hr2, hrk⟩

theorem wbTry_fire_elim {k : Str} (hk_word : ∀ c ∈ k, wordChar c = true) {prev : Option Char}
    {t : Str} {rep : Str} {n : Nat} (hfire : wbTry k prev t = some (rep, n)) :
    rep = [] ∧ n = k.length ∧ isWordO prev = false ∧
    lowerStr (t.take k.length) = lowerStr k ∧
    (∀ c ∈ t.take k.length, wordChar c = true) ∧ t.take k.length ≠ [] ∧
    ((t.drop k.length = [] ∨ ∃ d z, t.drop k.length = d :: z ∧ wordChar d = false) ∧
      k.length ≤ t.length) := by
  simp only [wbTry] at hfire
  by_cases hke : k.isEmpty = true
  · rw [if_pos hke] at hfire
    cases hfire
  rw [if_neg hke] at hfire
  have hk_ne : k ≠ [] := fun h => hke (by rw [h]; rfl)
  split at hfire
  case neg.isFalse => cases hfire
  rename_i hcond
  rw [Bool.and_eq_true, Bool.and_eq_true] at hcond
  obtain ⟨⟨hci, hb1⟩, hb2⟩ := hcond
  have hinj : ([] : Str) = rep ∧ k.length = n := by
    have h2 := hfire
    simp only [Option.some.injEq, Prod.mk.injEq] at h2
    exact h2
  obtain ⟨hrep, hn⟩ := hinj
  obtain ⟨hklen, hml⟩ := (ciPref_iff k t).mp hci
  have hmlen : (t.take k.length).length = k.length := by
    rw [List.length_take]
    omega
  have hmw : ∀ c ∈ t.take k.length, wordChar c = true := word_all_of_lower_eq hml hk_word
  have hkpos : 1 ≤ k.length := by
    cases hks : k with
    | nil => exact absurd hks hk_ne
    | cons x k' => simp [hks]
  have hmne : t.take k.length ≠ [] := by
    intro habs
    rw [habs] at hmlen
    simp at hmlen
    omega
  have hprev : isWordO prev = false := by
    obtain ⟨b, m', hbm⟩ := List.exists_cons_of_ne_nil hmne
    have hthead : t.head? = some b := by
      cases t with
      | nil =>
        rw [List.take_nil] at hbm
        cases hbm
      | cons x xs =>
        have h2 : (x :: xs).take k.length = b :: m' := hbm
        cases hkl : k.length with
        | zero => omega
        | succ kl =>
          rw [hkl] at h2
          simp only [List.take_succ_cons, List.cons.injEq] at h2
          rw [h2.1]
          rfl
    have hwb : wordChar b = true := hmw b (by rw [hbm]; exact List.mem_cons_self b m')
    rw [hthead] at hb1
    have h1 : isWordO (some b) = true := by simp [isWordO, hwb]
    rw [h1] at hb1
    cases hip : isWordO prev with
    | false => rfl
    | true =>
      rw [hip] at hb1
      exact absurd hb1 (by decide)
  have hrest : t.drop k.length = [] ∨ ∃ d z, t.drop k.length = d :: z ∧ wordChar d = false := by
    cases hlast : (t.take k.length).getLast? with
    | none =>
      exfalso
      rw [List.getLast?_eq_none_iff] at hlast
      exact hmne hlast
    | some d =>
      have hwd : wordChar d = true := hmw d (getLast?_mem hlast)
      have hg1 : t.get? (k.length - 1) = some d := by
        have h2 := getLast?_get? (t.take k.length) hmne
        rw [hmlen] at h2
        rw [← h2] at hlast
        rw [← hlast, List.get?_take]
        omega
      have hd1 : isWordO (some d) = true := by simp [isWordO, hwd]
      rw [hg1, hd1] at hb2
      have hg2 : isWordO (t.get? k.length) = false := by
        cases hio : isWordO (t.get? k.length) with
        | false => rfl
        | true =>
          rw [hio] at hb2
          exact absurd hb2 (by decide)
      have hg3 : t.get? k.length = (t.drop k.length).head? := by
        rw [← get?_zero_head?, List.get?_drop]
        norm_num
      cases hdrop : t.drop k.length with
      | nil => exact Or.inl rfl
      | cons d' z =>
        refine Or.inr ⟨d', z, rfl, ?_⟩
        rw [hg3, hdrop] at hg2
        simpa [isWordO] using hg2
  exact ⟨hrep.symm, hn.symm, hprev, hml, hmw, hmne, hrest, hklen⟩

theorem search_imp_run {k : Str} (hk_word : ∀ c ∈ k, wordChar c = true) :
    ∀ (s : Str) (prev : Option Char) (cur : Str),
      (∀ c ∈ cur, wordChar c = true) → (isWordO prev = false → cur = []) →
      scanHasGo (wbTry k) prev s = true →
      ∃ r ∈ wrunsGo cur s, lowerStr r = lowerStr k := by
  intro s
  induction s with
  | nil =>
    intro prev cur _ _ h
    cases h
  | cons c cs ih =>
    intro prev cur hcur hlink h
    rw [show scanHasGo (wbTry k) prev (c :: cs)
        = ((wbTry k prev (c :: cs)).isSome || scanHasGo (wbTry k) (some c) cs) from rfl,
      Bool.or_eq_true] at h
    rcases h with h | h
    · rw [Option.isSome_iff_exists] at h
      obtain ⟨⟨rep, n⟩, hfire⟩ := h
      obtain ⟨_, _, hprev, hml, hmw, hmne, hrest, _⟩ := wbTry_fire_elim hk_word hfire
      have hcur0 := hlink hprev
      subst hcur0
      refine ⟨(c :: cs).take k.length, ?_, hml⟩
      have hruns : wrunsGo ([] : Str) (c :: cs)
          = ((c :: cs).take k.length) :: wrunsGo [] ((c :: cs).drop k.length) := by
        conv_lhs => rw [← List.take_append_drop k.length (c :: cs)]
        exact wrunsGo_run hmw hmne hrest
      rw [hruns]
      exact List.mem_cons_self _ _
    · by_cases hc : wordChar c = true
      · obtain ⟨r, hr2, hrk⟩ := ih (some c) (c :: cur)
          (by
            intro e he
            rcases List.mem_cons.mp he with he | he
            · rw [he]; exact hc
            · exact hcur e he)
          (by
            intro habs
            simp only [isWordO, hc] at habs
            exact absurd habs (by decide))
          h
        refine ⟨r, ?_, hrk⟩
        simp only [wrunsGo, hc, if_true]
        exact hr2
      · rw [Bool.not_eq_true] at hc
        obtain ⟨r, hr2, hrk⟩ := ih (some c) [] (by intro e he; cases he) (fun _ => rfl) h
        refine ⟨r, ?_, hrk⟩
        simp only [wrunsGo, hc, Bool.false_eq_true, if_false]
        by_cases hce : cur.isEmpty = true
        · rw [if_pos hce]
          exact hr2
        · rw [if_neg hce]
          exact List.mem_cons_of_mem _ hr2

theorem lowerStr_ne_of_ne_nil {k : Str} (hk_ne : k ≠ []) : lowerStr ([] : Str) ≠ lowerStr k := by
  intro habs
  have := congrArg List.length habs
  rw [lowerStr_length, lowerStr_length] at this
  cases hks : k with
  | nil => exact hk_ne hks
  | cons x k' =>
    rw [hks] at this
    simp at this

theorem subWordCI_no_run {k : Str} (hk_ne : k ≠ []) (hk_word : ∀ c ∈ k, wordChar c = true) :
    ∀ (N : Nat) (s : Str), s.length ≤ N → ∀ (prev : Option Char) (cur : Str),
      (∀ c ∈ cur, wordChar c = true) → (isWordO prev = false → cur = []) →
      (isWordO prev = true → lowerStr (cur.reverse ++ s.takeWhile wordChar) ≠ lowerStr k) →
      ∀ r ∈ wrunsGo cur (scanGo (wbTry k) prev 0 s), lowerStr r ≠ lowerStr k := by
  intro N
  induction N with
  | zero =>
    intro s hs prev cur hcur hlink hstr r hr
    have hnil : s = [] := List.eq_nil_of_length_eq_zero (Nat.le_zero.mp hs)
    subst hnil
    cases hc : cur with
    | nil =>
      rw [hc] at hr
      cases hr
    | cons e cur' =>
      rw [hc] at hr
      have hr2 : r = (e :: cur').reverse := by
        have : r ∈ [(e :: cur').reverse] := hr
        exact List.mem_singleton.mp this
      subst hr2
      have hip : isWordO prev = true := by
        cases hio : isWordO prev with
        | true => rfl
        | false =>
          exfalso
          have := hlink hio
          rw [hc] at this
          cases this
      have := hstr hip
      rw [hc] at this
      simpa using this
  | succ N ih =>
    intro s hs prev cur hcur hlink hstr r hr
    cases s with
    | nil =>
      cases hc : cur with
      | nil =>
        rw [hc] at hr
        cases hr
      | cons e cur' =>
        rw [hc] at hr
        have hr2 : r = (e :: cur').reverse := by
          have : r ∈ [(e :: cur').reverse] := hr
          exact List.mem_singleton.mp this
        subst hr2
        have hip : isWordO prev = true := by
          cases hio : isWordO prev with
          | true => rfl
          | false =>
            exfalso
            have := hlink hio
            rw [hc] at this
            cases this
        have := hstr hip
        rw [hc] at this
        simpa using this
    | cons c cs =>
      have hcs : cs.length ≤ N := by
        simp only [List.length_cons] at hs
        omega
      cases hfire : wbTry k prev (c :: cs) with
      | some val =>
        obtain ⟨rep, n⟩ := val
        obtain ⟨hrep, hn, hprev, hml, hmw, hmne, hrest, hklen⟩ := wbTry_fire_elim hk_word hfire
        subst hrep
        subst hn
        have hcur0 := hlink hprev
        subst hcur0
        simp only [scanGo, hfire, List.nil_append] at hr
        have hkpos : 1 ≤ k.length := by
          cases hks : k with
          | nil => exact absurd hks hk_ne
          | cons x k' => simp [hks]
        have hlen2 : (cs.take (k.length - 1)).length = k.length - 1 := by
          rw [List.length_take]
          simp only [List.length_cons] at hklen
          omega
        have hskip : scanGo (wbTry k) (some c) (k.length - 1) cs
            = scanGo (wbTry k) (lastO (some c) (cs.take (k.length - 1))) 0
              (cs.drop (k.length - 1)) := by
          have h := scanGo_skip (wbTry k) (cs.take (k.length - 1)) (some c)
            (cs.drop (k.length - 1))
          rw [hlen2, List.take_append_drop] at h
          exact h
        rw [hskip] at hr
        have hdeq : (c :: cs).drop k.length = cs.drop (k.length - 1) := by
          cases hkl : k.length with
          | zero => omega
          | succ n' => simp [List.drop_succ_cons]
        rw [← hdeq] at hr
        have htwnil : ((c :: cs).drop k.length).takeWhile wordChar = [] := by
          rcases hrest with h | ⟨d, z, hdz, hd⟩
          · rw [h]
            rfl
          · rw [hdz]
            rw [List.takeWhile_cons_of_neg (by rw [hd]; exact Bool.false_ne_true)]
        refine ih ((c :: cs).drop k.length)
          (by rw [List.length_drop]; simp only [List.length_cons] at hs ⊢; omega)
          (lastO (some c) (cs.take (k.length - 1))) []
          (by intro e he; cases he) (fun _ => rfl)
          (by
            intro _
            rw [List.reverse_nil, List.nil_append, htwnil]
            exact lowerStr_ne_of_ne_nil hk_ne)
          r hr
      | none =>
        simp only [scanGo, hfire] at hr
        by_cases hc : wordChar c = true
        · rw [show wrunsGo cur (c :: scanGo (wbTry k) (some c) 0 cs)
              = wrunsGo (c :: cur) (scanGo (wbTry k) (some c) 0 cs) from by
            simp only [wrunsGo, hc, if_true]] at hr
          refine ih cs hcs (some c) (c :: cur)
            (by
              intro e he
              rcases List.mem_cons.mp he with he | he
              · rw [he]; exact hc
              · exact hcur e he)
            (by
              intro habs
              simp only [isWordO, hc] at habs
              exact absurd habs (by decide))
            ?_ r hr
          intro _
          have heq : (c :: cur).reverse ++ cs.takeWhile wordChar
              = cur.reverse ++ (c :: cs).takeWhile wordChar := by
            rw [List.takeWhile_cons_of_pos hc, List.reverse_cons]
            simp
          rw [heq]
          by_cases hip : isWordO prev = true
          · exact hstr hip
          · rw [Bool.not_eq_true] at hip
            have hcur0 := hlink hip
            subst hcur0
            rw [List.reverse_nil, List.nil_append]
            intro habs
            have := wbTry_fires hk_ne hip hc habs
            rw [hfire] at this
            cases this
        · rw [Bool.not_eq_true] at hc
          simp only [wrunsGo, hc, Bool.false_eq_true, if_false] at hr
          have hih0 := ih cs hcs (some c) [] (by intro e he; cases he) (fun _ => rfl)
            (by
              intro habs
              simp only [isWordO, hc] at habs
              exact absurd habs (by decide))
          by_cases hce : cur.isEmpty = true
          · rw [if_pos hce] at hr
            exact hih0 r hr
          · rw [if_neg hce] at hr
            rcases List.mem_cons.mp hr with hr | hr
            · subst hr
              have hip : isWordO prev = true := by
                cases hio : isWordO prev with
                | true => rfl
                | false =>
                  exfalso
                  have h0 := hlink hio
                  rw [h0] at hce
                  exact hce rfl
              have h1 := hstr hip
              rw [List.takeWhile_cons_of_neg (by rw [hc]; exact Bool.false_ne_true)] at h1
              rw [List.append_nil] at h1
              exact h1
            · exact hih0 r hr

theorem scanSub_runs_sub {try1 : Option Char → Str → Option (Str × Nat)}
    (hok : ScanWordOK try1) (s : Str) :
    ∀ r ∈ wruns (scanSub try1 s), r ∈ wruns s :=
  fun r hr => scanGo_runs hok s.length s (Nat.le_refl _) none []
    (by intro e he; cases he) (fun _ => rfl) r hr

theorem subWordCI_kills {k : Str} (hk_ne : k ≠ []) (hk_word : ∀ c ∈ k, wordChar c = true)
    (s : Str) : ∀ r ∈ wruns (subWordCI k s), lowerStr r ≠ lowerStr k :=
  fun r hr => subWordCI_no_run hk_ne hk_word s.length s (Nat.le_refl _) none []
    (by intro e he; cases he) (fun _ => rfl)
    (by intro habs; exact absurd habs (by decide)) r hr

theorem no_run_of_search_false {k : Str} (hk_ne : k ≠ []) {s : Str}
    (h : searchWordCI k s = false) :
    ∀ r ∈ wruns s, lowerStr r ≠ lowerStr k := by
  intro r hr habs
  have := run_imp_search hk_ne s.length s (Nat.le_refl _) none (Or.inl rfl) ⟨r, hr, habs⟩
  rw [show scanHasGo (wbTry k) none s = searchWordCI k s from rfl, h] at this
  cases this

theorem search_false_of_no_run {k : Str} (hk_word : ∀ c ∈ k, wordChar c = true) {s : Str}
    (h : ∀ r ∈ wruns s, lowerStr r ≠ lowerStr k) : searchWordCI k s = false := by
  cases hsearch : searchWordCI k s with
  | false => rfl
  | true =>
    exfalso
    obtain ⟨r, hr, hrk⟩ := search_imp_run hk_word s none []
      (by intro e he; cases he) (fun _ => rfl) hsearch
    exact h r hr hrk

theorem wrunsGo_nonword_nil {sp : Str} (hnw : ∀ c ∈ sp, wordChar c = false) (st : Str) :
    wrunsGo st sp = wrunsGo st [] := by
  cases hsp : sp with
  | nil => rfl
  | cons x sp' =>
    rw [← hsp]
    rw [wrunsGo_eq_emit st sp, wrEmit_nonword (by rw [hsp]; simp) hnw st,
      wrState_nonword (by rw [hsp]; simp) hnw st]
    show _ = if st.isEmpty then [] else [st.reverse]
    simp only [List.isEmpty_nil, if_true, List.append_nil]

theorem wruns_lstrip (u : Str) : wruns (lstripBy pySpace u) = wruns u := by
  show wruns (u.dropWhile pySpace) = wruns u
  conv_rhs => rw [show u = u.takeWhile pySpace ++ u.dropWhile pySpace from
    (List.takeWhile_append_dropWhile pySpace u).symm]
  show _ = wrunsGo [] _
  rw [wrunsGo_append]
  have hnw : ∀ c ∈ u.takeWhile pySpace, wordChar c = false :=
    fun c hc => pySpace_not_word (List.mem_takeWhile_imp hc)
  cases htw : u.takeWhile pySpace with
  | nil => rfl
  | cons x tw' =>
    rw [← htw, wrEmit_nonword (by rw [htw]; simp) hnw [],
      wrState_nonword (by rw [htw]; simp) hnw []]
    rfl

theorem wruns_rstrip (u : Str) : wruns (rstripBy pySpace u) = wruns u := by
  have hdecomp : u = rstripBy pySpace u ++ (u.reverse.takeWhile pySpace).reverse := by
    show u = (u.reverse.dropWhile pySpace).reverse ++ (u.reverse.takeWhile pySpace).reverse
    rw [← List.reverse_append, ← List.reverse_reverse u]
    congr 1
    rw [List.reverse_reverse]
    exact (List.takeWhile_append_dropWhile pySpace u.reverse).symm
  have hnw : ∀ c ∈ (u.reverse.takeWhile pySpace).reverse, wordChar c = false := by
    intro c hc
    rw [List.mem_reverse] at hc
    exact pySpace_not_word (List.mem_takeWhile_imp hc)
  conv_rhs => rw [hdecomp]
  show wrunsGo [] (rstripBy pySpace u)
      = wrunsGo [] (rstripBy pySpace u ++ (u.reverse.takeWhile pySpace).reverse)
  rw [wrunsGo_append, wrunsGo_nonword_nil hnw, ← wrunsGo_append, List.append_nil]

theorem wruns_pyStrip (u : Str) : wruns (pyStrip u) = wruns u := by
  show wruns (rstripBy pySpace (lstripBy pySpace u)) = wruns u
  rw [wruns_rstrip, wruns_lstrip]

theorem wruns_dangling_sub (s : Str) : ∀ r ∈ wruns (dropDanglingEnd s), r ∈ wruns s := by
  intro r hr
  simp only [dropDanglingEnd] at hr
  split at hr
  case isFalse => exact hr
  set t := rstripBy pySpace s with ht
  have hdecomp : t = (t.reverse.dropWhile wordChar).reverse
      ++ (t.reverse.takeWhile wordChar).reverse := by
    rw [← List.reverse_append, ← List.reverse_reverse t]
    congr 1
    rw [List.reverse_reverse]
    exact (List.takeWhile_append_dropWhile wordChar t.reverse).symm
  have hlen : (t.reverse.dropWhile wordChar).reverse.length
      = t.length - ((t.reverse.takeWhile wordChar).reverse).length := by
    have h1 := congrArg List.length hdecomp
    rw [List.length_append] at h1
    omega
  have htake : t.take (t.length - ((t.reverse.takeWhile wordChar).reverse).length)
      = (t.reverse.dropWhile wordChar).reverse := by
    have h1 := List.take_left ((t.reverse.dropWhile wordChar).reverse)
      ((t.reverse.takeWhile wordChar).reverse)
    rw [← hdecomp] at h1
    rw [hlen] at h1
    exact h1
  rw [htake] at hr
  have ht'nw : wrState [] ((t.reverse.dropWhile wordChar).reverse) = [] := by
    cases hdw : t.reverse.dropWhile wordChar with
    | nil => rfl
    | cons x dw' =>
      have hx : wordChar x = false := by
        rcases dropWhile_shape wordChar t.reverse with h | ⟨d, z, hdz, hd⟩
        · rw [h] at hdw
          cases hdw
        · rw [hdz] at hdw
          injection hdw with h1 h2
          rw [← h1]
          exact hd
      apply wrState_getLast_nonword
      · show (x :: dw').reverse.getLast? = some x
        rw [List.getLast?_reverse]
        rfl
      · exact hx
  have hteq : wruns t = wrEmit [] ((t.reverse.dropWhile wordChar).reverse)
      ++ wrunsGo [] ((t.reverse.takeWhile wordChar).reverse) := by
    conv_lhs => rw [show wruns t = wrunsGo [] ((t.reverse.dropWhile wordChar).reverse
      ++ (t.reverse.takeWhile wordChar).reverse) from by rw [← hdecomp]; rfl]
    rw [wrunsGo_append, ht'nw]
  have hteq2 : wruns ((t.reverse.dropWhile wordChar).reverse)
      = wrEmit [] ((t.reverse.dropWhile wordChar).reverse) ++ wrunsGo [] [] := by
    show wrunsGo [] _ = _
    conv_lhs => rw [← List.append_nil ((t.reverse.dropWhile wordChar).reverse)]
    rw [wrunsGo_append, ht'nw]
  rw [hteq2] at hr
  rw [← wruns_rstrip s, ← ht, hteq]
  rcases List.mem_append.mp hr with hr | hr
  · exact List.mem_append_left _ hr
  · cases hr

theorem removeStep_runs_sub {q : Str} (hne : q ≠ []) (hhead : wordChar (q.headD ' ') = true)
    (d : Str) : ∀ r ∈ wruns (if searchWordCI q d then subWordCI q d else d), r ∈ wruns d := by
  intro r hr
  by_cases hs : searchWordCI q d = true
  · rw [if_pos hs] at hr
    exact scanSub_runs_sub (wbTry_ok hne hhead) d r hr
  · rw [if_neg hs] at hr
    exact hr

theorem removeBanned_runs_sub :
    ∀ (kws : List Str), (∀ q ∈ kws, q ≠ [] ∧ wordChar (q.headD ' ') = true) →
      ∀ (d : Str), ∀ r ∈ wruns (removeBanned kws d), r ∈ wruns d := by
  intro kws
  induction kws with
  | nil =>
    intro _ d r hr
    exact hr
  | cons q rest ih =>
    intro hk d r hr
    simp only [removeBanned, List.foldl_cons] at hr
    have h1 : r ∈ wruns (if searchWordCI q d then subWordCI q d else d) :=
      ih (fun p hp => hk p (List.mem_cons_of_mem q hp))
        (if searchWordCI q d then subWordCI q d else d) r hr
    exact removeStep_runs_sub (hk q (List.mem_cons_self q rest)).1
      (hk q (List.mem_cons_self q rest)).2 d r h1

theorem removeBanned_kills {k : Str} (hk_ne : k ≠ []) (hk_word : ∀ c ∈ k, wordChar c = true) :
    ∀ (kws : List Str), (∀ q ∈ kws, q ≠ [] ∧ wordChar (q.headD ' ') = true) → k ∈ kws →
      ∀ (d : Str), ∀ r ∈ wruns (removeBanned kws d), lowerStr r ≠ lowerStr k := by
  intro kws hkws hkmem d r hr
  obtain ⟨l1, l2, hsplit⟩ := List.append_of_mem hkmem
  subst hsplit
  simp only [removeBanned, List.foldl_append, List.foldl_cons] at hr
  have hr2 : r ∈ wruns (if searchWordCI k (removeBanned l1 d)
      then subWordCI k (removeBanned l1 d) else removeBanned l1 d) :=
    removeBanned_runs_sub l2
      (fun p hp => hkws p (by
        rw [List.mem_append]
        exact Or.inr (List.mem_cons_of_mem k hp)))
      _ r hr
  by_cases hs : searchWordCI k (removeBanned l1 d) = true
  · rw [if_pos hs] at hr2
    exact subWordCI_kills hk_ne hk_word _ r hr2
  · rw [if_neg hs] at hr2
    rw [Bool.not_eq_true] at hs
    exact no_run_of_search_false hk_ne hs r hr2

theorem grammarRepairs_runs_sub (s : Str) : ∀ r ∈ wruns (grammarRepairs s), r ∈ wruns s := by
  intro r hr
  simp only [grammarRepairs] at hr
  rw [wruns_pyStrip] at hr
  replace hr := scanSub_runs_sub ws2Try_ok _ r hr
  replace hr := scanSub_runs_sub (repTry_ok (by decide) (by decide)
    ⟨' ', ['.'], rfl, by decide⟩ (by decide) (by decide)) _ r hr
  replace hr := scanSub_runs_sub (repTry_ok (by decide) (by decide)
    ⟨' ', [','], rfl, by decide⟩ (by decide) (by decide)) _ r hr
  replace hr := scanSub_runs_sub r7Try_ok _ r hr
  replace hr := scanSub_runs_sub r6Try_ok _ r hr
  replace hr := wruns_dangling_sub _ r hr
  replace hr := scanSub_runs_sub r4Try_ok _ r hr
  replace hr := scanSub_runs_sub r3Try_ok _ r hr
  replace hr := scanSub_runs_sub r2Try_ok _ r hr
  rw [wruns_pyStrip] at hr
  exact scanSub_runs_sub ws2Try_ok _ r hr

/-- Claim C7 (corrected).  The claim's brand isolation fails for multi-word
display names: `claim_C7_counterexample` shows the removal of a banned word
between two other words, followed by the whitespace-collapsing grammar repair,
recreating the full two-word display name `Alp Cog` of a brand of the other
family inside the returned description.  The amended statement keeps the
guarantee for the single-word banned keywords: if every banned keyword of the
classified family starts with a `\w` character, then no banned keyword that
consists entirely of `\w` characters occurs in the returned description as a
case-insensitive whole word - the removal step deletes every such whole-word
occurrence, and neither the remaining removals nor any grammar repair can
create a new maximal `\w` run, so no new occurrence can appear. -/
theorem claim_C7 (description file_path : Str) (brands : List Brand) (fc : Brand)
    (hfc : classifyFile file_path brands = some fc)
    (k : Str) (hk : k ∈ bannedKeywordsFor fc brands)
    (hkword : k ≠ [] ∧ ∀ c ∈ k, wordChar c = true)
    (hheads : ∀ q ∈ bannedKeywordsFor fc brands, q ≠ [] ∧ wordChar (q.headD ' ') = true) :
    searchWordCI k (post_process_description description file_path brands).1 = false := by
  obtain ⟨hk_ne, hk_word⟩ := hkword
  have hbne : brands.isEmpty = false := by
    cases hb : brands with
    | nil =>
      exfalso
      rw [hb] at hfc
      cases hfc
    | cons b bs => rfl
  have hbanne : (bannedKeywordsFor fc brands).isEmpty = false := by
    cases hbk : bannedKeywordsFor fc brands with
    | nil =>
      exfalso
      rw [hbk] at hk
      cases hk
    | cons q qs => rfl
  have hsorted : ∀ q ∈ sortLenDesc (bannedKeywordsFor fc brands),
      q ≠ [] ∧ wordChar (q.headD ' ') = true :=
    fun q hq => hheads q (mem_sortLenDesc.mp hq)
  have hnoruns : ∀ r ∈ wruns (removeBanned (sortLenDesc (bannedKeywordsFor fc brands))
      description), lowerStr r ≠ lowerStr k :=
    removeBanned_kills hk_ne hk_word _ hsorted (mem_sortLenDesc.mpr hk) description
  have hpost : post_process_description description file_path brands
      = if removeBanned (sortLenDesc (bannedKeywordsFor fc brands)) description = description
        then (description, none)
        else (pyStrip (grammarRepairs (removeBanned
          (sortLenDesc (bannedKeywordsFor fc brands)) description)), some ("UPDATED")) := by
    simp only [post_process_description, hbne, Bool.false_eq_true, if_false, hfc, hbanne]
  have hpost1 : (post_process_description description file_path brands).1
      = if removeBanned (sortLenDesc (bannedKeywordsFor fc brands)) description = description
        then description
        else pyStrip (grammarRepairs (removeBanned
          (sortLenDesc (bannedKeywordsFor fc brands)) description)) := by
    rw [hpost]
    by_cases hd : removeBanned (sortLenDesc (bannedKeywordsFor fc brands)) description
        = description
    · rw [if_pos hd, if_pos hd]
    · rw [if_neg hd, if_neg hd]
  rw [hpost1]
  by_cases hd : removeBanned (sortLenDesc (bannedKeywordsFor fc brands)) description
      = description
  · rw [if_pos hd]
    refine search_false_of_no_run hk_word ?_
    rw [← hd]
    exact hnoruns
  · rw [if_neg hd]
    refine search_false_of_no_run hk_word ?_
    intro r hr
    rw [wruns_pyStrip] at hr
    exact hnoruns r (grammarRepairs_runs_sub _ r hr)

/-- Witness for C7 on the concrete brand set of the counterexample: the path
classifies as the `opensuse` family, the single-word keyword `Quux` of the
`suse` family is banned and word-only, every banned keyword starts with a
word character, and the returned description contains no whole-word `Quux`. -/
theorem claim_C7_witness :
    classifyFile ("docs/leapy/intro.adoc".toList) entBrands
      = some ⟨"leapy".toList, "Leapy".toList, "opensuse".toList⟩ ∧
    ("Quux".toList ∈
      bannedKeywordsFor ⟨"leapy".toList, "Leapy".toList, "opensuse".toList⟩ entBrands) ∧
    searchWordCI ("Quux".toList)
      (post_process_description ("Alp Quux Cog configure things".toList)
        ("docs/leapy/intro.adoc".toList) entBrands).1 = false := by
  refine ⟨by decide, by decide, ?_⟩
  exact claim_C7 ("Alp Quux Cog configure things".toList) ("docs/leapy/intro.adoc".toList)
    entBrands ⟨"leapy".toList, "Leapy".toList, "opensuse".toList⟩ (by decide)
    ("Quux".toList) (by decide) ⟨by decide, by decide⟩ (by decide)
